import Mathlib

/-!
# The quantized matrix-multiplication kernel `mat_mul_loop_unrolling`

A shallow embedding of `kernels/starter_code/loop_unrolling.cc` and the
properties of it that the specification states.

Modelling conventions.

* `float` values (activation scales, weight scales, accumulators, entries of
  `C`) are exact rational numbers.
* The `int` values that the kernel computes as dimensions, loop counters and
  indices are never negative; they are natural numbers, and every `int`
  addition and multiplication is checked against `INT_MAX = 2^31 - 1`: a
  result above it is signed overflow, which is the outcome `fault`.  Pointers
  are offsets into their buffer, and pointer arithmetic is not bounded.  The
  integer partial sums are in `ℤ`.
* A buffer behind a pointer is a list.  Every read and every write goes through
  a total, `Option`-returning access: an index outside the buffer is the
  outcome `fault`, and nothing is computed after it.
* The `for` loops are run by one loop combinator with an iteration budget, so
  that the end of a loop is something to prove and not a property of the model.
* The preprocessor symbol `QM_x86` is a Boolean argument of the kernel.
-/

namespace matmul

/-! ## Outcomes of a run -/

/-- The three ways a run of a piece of the kernel can end. -/
inductive Outcome (α : Type) where
  /-- the code ran to its end and left this value -/
  | done (a : α) : Outcome α
  /-- an index outside its buffer was used, or an `int` operation overflowed -/
  | fault : Outcome α
  /-- a loop was still running when its iteration budget was used up -/
  | out_of_fuel : Outcome α
deriving DecidableEq, Repr

/-- Sequencing of two pieces of code. -/
def Outcome.bind {α β : Type} (x : Outcome α) (f : α → Outcome β) : Outcome β :=
  match x with
  | .done a => f a
  | .fault => .fault
  | .out_of_fuel => .out_of_fuel

/-- A buffer access: `none` is the out-of-range branch. -/
def Outcome.ofOption {α : Type} : Option α → Outcome α
  | some a => .done a
  | none => .fault

/-- The loop `while (cond) body`, allowed at most `fuel` passes through its body. -/
def loop {σ : Type} (cond : σ → Bool) (body : σ → Outcome σ) : Nat → σ → Outcome σ
  | 0, s => if cond s then .out_of_fuel else .done s
  | fuel + 1, s => if cond s then (body s).bind (loop cond body fuel) else .done s

/-! ## Data model -/

/-- The fields of `struct matrix` that the kernel uses. -/
structure matrix where
  row : Nat
  column : Nat
  /-- dense `float` buffer -/
  data_ptr : List ℚ
  /-- dense `signed char` buffer (quantized activations) -/
  int8_data_ptr : List ℤ
  /-- packed 4-bit buffer, one `uint8_t` per two weights -/
  int4_data_ptr : List (Fin 256)
deriving DecidableEq

/-- The fields of `struct matmul_params` that the kernel uses. -/
structure matmul_params where
  A : matrix
  B : matrix
  C : matrix
  /-- weight scale table -/
  scales : List ℚ
  offset : List ℚ
  /-- activation scale table -/
  A_scales : List ℚ
  block_size : Nat
deriving DecidableEq

/-! ## Decoding a packed byte (lines 66-81) -/

/-- Conversion of a `double` to `signed char`: the fractional part is dropped
and the result is kept in 8 bits. -/
def signed_char_of_double (x : ℚ) : ℤ :=
  let t : ℤ := if 0 ≤ x then ⌊x⌋ else ⌈x⌉
  (t + 128) % 256 - 128

/-- Line 68: `signed char w_de_0 = (packed_int4 & 0x0F) - 8.0;` -/
def w_de_0 (packed_int4 : Fin 256) : ℤ :=
  signed_char_of_double (((packed_int4.val &&& 0x0F : Nat) : ℚ) - (8 : ℚ))

/-- Line 69: `signed char w_de_16 = (packed_int4 >> 4) - 8.0;` -/
def w_de_16 (packed_int4 : Fin 256) : ℤ :=
  signed_char_of_double (((packed_int4.val >>> 4 : Nat) : ℚ) - (8 : ℚ))

/-! ## The accumulation pass (lines 19-114) -/

/-- The eight `int` partial sums declared on lines 62-64. -/
structure partial_sums where
  intermediate_sum0 : ℤ
  intermediate_sum1 : ℤ
  intermediate_sum2 : ℤ
  intermediate_sum3 : ℤ
  intermediate_sum0_2nd : ℤ
  intermediate_sum1_2nd : ℤ
  intermediate_sum2_2nd : ℤ
  intermediate_sum3_2nd : ℤ
deriving DecidableEq

/-- The four `float` accumulators declared on lines 23-26. -/
structure accumulators where
  acc0 : ℚ
  acc1 : ℚ
  acc2 : ℚ
  acc3 : ℚ
deriving DecidableEq

/-- The five scales fetched for one block: the activation scale and the weight
scales of the four unrolled columns. -/
structure block_scales where
  s_a : ℚ
  s_w0 : ℚ
  s_w1 : ℚ
  s_w2 : ℚ
  s_w3 : ℚ
deriving DecidableEq

/-- The `float` buffer of `C` together with the record of the stores made to it
so far (flat index and stored value, oldest first). -/
structure out_state where
  C_data : List ℚ
  writes : List (Nat × ℚ)
deriving DecidableEq

/-- The integer division `a / b` of C; a zero divisor has no result. -/
def int_div (a b : Nat) : Option Nat :=
  if b = 0 then none else some (a / b)

/-- The value of an `int` operation whose exact result is `v`: a result above
`INT_MAX = 2147483647` is signed overflow and has no result. -/
def int_val (v : Nat) : Option Nat :=
  if v ≤ 2147483647 then some v else none

/-- The `int` sum `a + b`. -/
def int_add (a b : Nat) : Option Nat :=
  int_val (a + b)

/-- The `int` product `a * b`. -/
def int_mul (a b : Nat) : Option Nat :=
  int_val (a * b)

/-- The `int` expression `r * k + ch`: a product, then a sum. -/
def linear_index (r k ch : Nat) : Option Nat :=
  (int_mul r k).bind fun t => int_add t ch

/-- The five pointers of one stride, as offsets into the `int8` buffer of `A` and
the packed buffer of `B`. -/
structure stride_pointers where
  a_int8 : Nat
  w0_int4 : Nat
  w1_int4 : Nat
  w2_int4 : Nat
  w3_int4 : Nat
deriving DecidableEq

/-- The store `C->data_ptr[i] = v`. -/
def store (st : out_state) (i : Nat) (v : ℚ) : Option out_state :=
  if i < st.C_data.length then some ⟨st.C_data.set i v, st.writes ++ [(i, v)]⟩ else none

/-- Lines 66-93, one pass of the loop over `qj`.  The pointers `a_int8` and
`w0_int4 .. w3_int4` are offsets into the `int8` buffer `a8` of `A` and the
packed buffer `w4` of `B`. -/
def mac_body (a8 : List ℤ) (w4 : List (Fin 256)) (a_int8 w0_int4 w1_int4 w2_int4 w3_int4 : Nat)
    (qj : Nat) (s : partial_sums) : Option partial_sums := do
  let packed_int4_0 ← w4[w0_int4 + qj]?
  let packed_int4_1 ← w4[w1_int4 + qj]?
  let packed_int4_2 ← w4[w2_int4 + qj]?
  let packed_int4_3 ← w4[w3_int4 + qj]?
  let a_lo ← a8[a_int8 + qj]?
  let a_hi ← a8[a_int8 + (qj + 32)]?
  pure
    { intermediate_sum0 := s.intermediate_sum0 + a_lo * w_de_0 packed_int4_0
      intermediate_sum0_2nd := s.intermediate_sum0_2nd + a_hi * w_de_16 packed_int4_0
      intermediate_sum1 := s.intermediate_sum1 + a_lo * w_de_0 packed_int4_1
      intermediate_sum1_2nd := s.intermediate_sum1_2nd + a_hi * w_de_16 packed_int4_1
      intermediate_sum2 := s.intermediate_sum2 + a_lo * w_de_0 packed_int4_2
      intermediate_sum2_2nd := s.intermediate_sum2_2nd + a_hi * w_de_16 packed_int4_2
      intermediate_sum3 := s.intermediate_sum3 + a_lo * w_de_0 packed_int4_3
      intermediate_sum3_2nd := s.intermediate_sum3_2nd + a_hi * w_de_16 packed_int4_3 }

/-- Lines 62-95: `for (int qj = 0; qj < 32; qj++)` from all sums zero.  The
counter stays at most 32, so `qj++` and `qj + 32` cannot overflow. -/
def mac_loop (fuel : Nat) (a8 : List ℤ) (w4 : List (Fin 256))
    (a_int8 w0_int4 w1_int4 w2_int4 w3_int4 : Nat) : Outcome (Nat × partial_sums) :=
  loop (fun s => decide (s.1 < 32))
    (fun s => (Outcome.ofOption
        (mac_body a8 w4 a_int8 w0_int4 w1_int4 w2_int4 w3_int4 s.1 s.2)).bind
      fun s2 => .done (s.1 + 1, s2))
    fuel (0, ⟨0, 0, 0, 0, 0, 0, 0, 0⟩)

/-- Lines 30-35: the pointer `a_int8 = &A->int8_data_ptr[row * k + ch]` and the
pointers `wj_int4 = &B->int4_data_ptr[((col + j) * k + ch) / 2]`.  Forming a
pointer reads nothing; the index is an `int` expression. -/
def pointers (k row col ch : Nat) : Option stride_pointers := do
  let a_int8 ← linear_index row k ch
  let w0_int4 ← linear_index col k ch
  let w1_int4 ← linear_index (← int_add col 1) k ch
  let w2_int4 ← linear_index (← int_add col 2) k ch
  let w3_int4 ← linear_index (← int_add col 3) k ch
  pure ⟨a_int8, w0_int4 / 2, w1_int4 / 2, w2_int4 / 2, w3_int4 / 2⟩

/-- The `int` expression `(r * k + ch) / block_size`: the number of the block
that contains element `ch` of row `r`. -/
def block_index (r k ch block_size : Nat) : Option Nat :=
  (linear_index r k ch).bind fun i => int_div i block_size

/-- The read `table[(r * k + ch) / block_size]` of a scale table. -/
def scale_of_block (table : List ℚ) (r k ch block_size : Nat) : Option ℚ :=
  (block_index r k ch block_size).bind fun b => table[b]?

/-- The read `table[(r * k + ch) / block_size + 1]` of a scale table. -/
def scale_of_next_block (table : List ℚ) (r k ch block_size : Nat) : Option ℚ :=
  (block_index r k ch block_size).bind fun b => (int_add b 1).bind fun j => table[j]?

/-- Lines 37-42: the scales of the block that contains element `ch`. -/
def first_scales (params : matmul_params) (row col ch : Nat) : Option block_scales := do
  let k := params.A.column
  let s_a ← scale_of_block params.A_scales row k ch params.block_size
  let s_w0 ← scale_of_block params.scales col k ch params.block_size
  let s_w1 ← scale_of_block params.scales (← int_add col 1) k ch params.block_size
  let s_w2 ← scale_of_block params.scales (← int_add col 2) k ch params.block_size
  let s_w3 ← scale_of_block params.scales (← int_add col 3) k ch params.block_size
  pure ⟨s_a, s_w0, s_w1, s_w2, s_w3⟩

/-- Lines 46-50: the scales of the second block. -/
def second_scales (params : matmul_params) (row col ch : Nat) : Option block_scales := do
  let k := params.A.column
  let s_w0_2nd ← scale_of_next_block params.scales col k ch params.block_size
  let s_w1_2nd ← scale_of_next_block params.scales (← int_add col 1) k ch params.block_size
  let s_w2_2nd ← scale_of_next_block params.scales (← int_add col 2) k ch params.block_size
  let s_w3_2nd ← scale_of_next_block params.scales (← int_add col 3) k ch params.block_size
  let s_a_2nd ← scale_of_next_block params.A_scales row k ch params.block_size
  pure ⟨s_a_2nd, s_w0_2nd, s_w1_2nd, s_w2_2nd, s_w3_2nd⟩

/-- Lines 97-104: the eight partial sums are rescaled and added to the four
accumulators. -/
def dequantize (acc : accumulators) (s : partial_sums) (fst snd : block_scales) : accumulators :=
  { acc0 := acc.acc0 + (s.intermediate_sum0 : ℚ) * fst.s_a * fst.s_w0
              + (s.intermediate_sum0_2nd : ℚ) * snd.s_a * snd.s_w0
    acc1 := acc.acc1 + (s.intermediate_sum1 : ℚ) * fst.s_a * fst.s_w1
              + (s.intermediate_sum1_2nd : ℚ) * snd.s_a * snd.s_w1
    acc2 := acc.acc2 + (s.intermediate_sum2 : ℚ) * fst.s_a * fst.s_w2
              + (s.intermediate_sum2_2nd : ℚ) * snd.s_a * snd.s_w2
    acc3 := acc.acc3 + (s.intermediate_sum3 : ℚ) * fst.s_a * fst.s_w3
              + (s.intermediate_sum3_2nd : ℚ) * snd.s_a * snd.s_w3 }

/-- Lines 29-107, one pass of the loop over `ch`; the state is `ch` and the
accumulators.  Without `QM_x86` nothing follows line 42. -/
def ch_body (QM_x86 : Bool) (fuel : Nat) (params : matmul_params) (row col : Nat)
    (st : Nat × accumulators) : Outcome (Nat × accumulators) :=
  let k := params.A.column
  let ch := st.1
  (Outcome.ofOption (pointers k row col ch)).bind fun ptr =>
  (Outcome.ofOption (first_scales params row col ch)).bind fun fst =>
  if QM_x86 then
    (Outcome.ofOption (second_scales params row col ch)).bind fun snd =>
    (mac_loop fuel params.A.int8_data_ptr params.B.int4_data_ptr ptr.a_int8
        ptr.w0_int4 ptr.w1_int4 ptr.w2_int4 ptr.w3_int4).bind fun sums =>
    (Outcome.ofOption ((int_mul params.block_size 2).bind fun step => int_add ch step)).bind
      fun ch2 =>
    .done (ch2, dequantize st.2 sums.2 fst snd)
  else
    .done (ch, st.2)

/-- Lines 28-108: `for (int ch = 0; ch < k;)` from all accumulators zero. -/
def ch_loop (QM_x86 : Bool) (fuel : Nat) (params : matmul_params) (row col : Nat) :
    Outcome (Nat × accumulators) :=
  loop (fun s => decide (s.1 < params.A.column)) (ch_body QM_x86 fuel params row col)
    fuel (0, ⟨0, 0, 0, 0⟩)

/-- Lines 109-112: the four accumulators are stored at `base`, the value of
`row * n + col`, and at the `int` indices `base + 1`, `base + 2`, `base + 3`. -/
def write_tile (o : out_state) (base : Nat) (acc : accumulators) : Option out_state := do
  let o0 ← store o base acc.acc0
  let o1 ← store o0 (← int_add base 1) acc.acc1
  let o2 ← store o1 (← int_add base 2) acc.acc2
  store o2 (← int_add base 3) acc.acc3

/-- Lines 23-112, one pass of the loop over `col`; the state is `col` and the
output buffer. -/
def col_body (QM_x86 : Bool) (fuel : Nat) (params : matmul_params) (row : Nat)
    (st : Nat × out_state) : Outcome (Nat × out_state) :=
  let n := params.C.column
  let col := st.1
  (ch_loop QM_x86 fuel params row col).bind fun r =>
  (Outcome.ofOption ((linear_index row n col).bind fun base => write_tile st.2 base r.2)).bind
    fun o =>
  (Outcome.ofOption (int_add col 4)).bind fun col2 =>
  .done (col2, o)

/-- Lines 22-113: `for (int col = 0; col < n; col += 4)`. -/
def col_loop (QM_x86 : Bool) (fuel : Nat) (params : matmul_params) (row : Nat)
    (o : out_state) : Outcome (Nat × out_state) :=
  loop (fun s => decide (s.1 < params.C.column)) (col_body QM_x86 fuel params row) fuel (0, o)

/-- Lines 22-113 followed by `row++`: one pass of the loop over `row`. -/
def row_body (QM_x86 : Bool) (fuel : Nat) (params : matmul_params)
    (st : Nat × out_state) : Outcome (Nat × out_state) :=
  (col_loop QM_x86 fuel params st.1 st.2).bind fun r =>
  (Outcome.ofOption (int_add st.1 1)).bind fun row2 =>
  .done (row2, r.2)

/-- Lines 19-114: the accumulation pass, from the output buffer `o`. -/
def accumulate (QM_x86 : Bool) (fuel : Nat) (params : matmul_params) (o : out_state) :
    Outcome (Nat × out_state) :=
  loop (fun s => decide (s.1 < params.C.row)) (row_body QM_x86 fuel params) fuel (0, o)

/-! ## The quantization pass (line 17) -/

/-- Rounding to the nearest integer, halves away from zero. -/
def round_half_away (x : ℚ) : ℤ :=
  if 0 ≤ x then ⌊x + 1 / 2⌋ else ⌈x - 1 / 2⌉

/-- Clamping to `[-127, 127]`. -/
def clamp127 (z : ℤ) : ℤ :=
  max (-127) (min 127 z)

/-- Modelled from the spec: the scale of one block, `max(|element|) / 127`
(helper of `quantize_fp32_to_int8`, which is not defined in this source file). -/
def block_scale (xs : List ℚ) : ℚ :=
  (xs.foldl (fun a x => max a |x|) 0) / 127

/-- Modelled from the spec: the quantized values of one block,
`round(element / scale)` clamped to `[-127, 127]`, and zero without a division
when the scale is zero (helper of `quantize_fp32_to_int8`, which is not defined
in this source file). -/
def quantize_block (xs : List ℚ) : List ℤ :=
  xs.map fun x => if block_scale xs = 0 then 0 else clamp127 (round_half_away (x / block_scale xs))

/-- The first `num_block` contiguous runs of `block_size` elements of `xs`. -/
def blocks_of (block_size : Nat) : Nat → List ℚ → List (List ℚ)
  | 0, _ => []
  | num_block + 1, xs => xs.take block_size :: blocks_of block_size num_block (xs.drop block_size)

/-- Modelled from the spec: `quantize_fp32_to_int8(A, qA, sA, size, block_size)`
is called on line 17 and defined outside this source file.  Following section
4.1 of the specification, every contiguous run of `block_size` elements of the
first `size` elements of `A` gets the scale `max(|element|) / 127`, written to
the scale table `sA` at the block's number, and its elements are written to the
`int8` buffer `qA` as `round(element / scale)` clamped to `[-127, 127]`, or as
zero when the scale is zero.  The result is the pair of the two buffers after
the pass; a block beyond the end of a buffer, or a zero `block_size`, has no
result. -/
def quantize_fp32_to_int8 (A : List ℚ) (qA : List ℤ) (sA : List ℚ) (size block_size : Nat) :
    Option (List ℤ × List ℚ) :=
  if block_size = 0 then none
  else
    let num_block := size / block_size
    if num_block * block_size ≤ A.length ∧ num_block * block_size ≤ qA.length
        ∧ num_block ≤ sA.length then
      let bs := blocks_of block_size num_block A
      some ((bs.map quantize_block).flatten ++ qA.drop (num_block * block_size),
        bs.map block_scale ++ sA.drop num_block)
    else none

/-! ## The kernel (lines 12-115) -/

/-- What a run of the kernel leaves: the parameters, and the record of the
stores made to `C` (flat index and value, oldest first). -/
structure kernel_result where
  params : matmul_params
  writes : List (Nat × ℚ)
deriving DecidableEq

/-- The parameters after the quantization pass of line 17; its size argument is
the `int` product `A->row * A->column`. -/
def quantize_pass (params : matmul_params) : Option matmul_params :=
  (int_mul params.A.row params.A.column).bind fun size =>
  (quantize_fp32_to_int8 params.A.data_ptr params.A.int8_data_ptr params.A_scales
    size params.block_size).map fun q =>
    { params with A := { params.A with int8_data_ptr := q.1 }, A_scales := q.2 }

/-- `MatmulOperator::mat_mul_loop_unrolling(params)`, built with (`true`) or
without (`false`) `QM_x86`, every loop being allowed `fuel` passes. -/
def mat_mul_loop_unrolling (QM_x86 : Bool) (fuel : Nat) (params : matmul_params) :
    Outcome kernel_result :=
  (Outcome.ofOption (quantize_pass params)).bind fun params1 =>
  (accumulate QM_x86 fuel params1 ⟨params1.C.data_ptr, []⟩).bind fun r =>
  .done ⟨{ params1 with C := { params1.C with data_ptr := r.2.C_data } }, r.2.writes⟩

/-! ## The data-model invariants of the specification -/

/-- Section 3 of the specification: shapes, divisibility and buffer lengths. -/
def data_model_invariants (p : matmul_params) : Prop :=
  p.A.column = p.B.column ∧ p.C.row = p.A.row ∧ p.C.column = p.B.row
    ∧ p.A.column % p.block_size = 0 ∧ p.C.column % 4 = 0
    ∧ p.A.data_ptr.length = p.A.row * p.A.column
    ∧ p.A.int8_data_ptr.length = p.A.row * p.A.column
    ∧ p.B.int4_data_ptr.length = p.B.row * p.A.column / 2
    ∧ p.A_scales.length = p.A.row * p.A.column / p.block_size
    ∧ p.scales.length = p.B.row * p.A.column / p.block_size
    ∧ p.C.data_ptr.length = p.C.row * p.C.column

instance (p : matmul_params) : Decidable (data_model_invariants p) := by
  unfold data_model_invariants
  infer_instance

/-! ## Concrete inputs -/

/-- The end-to-end scenario of the specification: `A` is `1 × 32`, all ones;
`B` is `4 × 32`, every packed byte `0x99`; every weight scale is one. -/
def scenario_32 : matmul_params :=
  { A := ⟨1, 32, List.replicate 32 1, List.replicate 32 0, []⟩
    B := ⟨4, 32, [], [], List.replicate 64 0x99⟩
    C := ⟨1, 4, List.replicate 4 0, [], []⟩
    scales := List.replicate 4 1
    offset := []
    A_scales := List.replicate 1 0
    block_size := 32 }

/-- The same scenario with two blocks per row: `A` is `1 × 64`, `B` is `4 × 64`. -/
def scenario_64 : matmul_params :=
  { A := ⟨1, 64, List.replicate 64 1, List.replicate 64 0, []⟩
    B := ⟨4, 64, [], [], List.replicate 128 0x99⟩
    C := ⟨1, 4, List.replicate 4 0, [], []⟩
    scales := List.replicate 8 1
    offset := []
    A_scales := List.replicate 2 0
    block_size := 32 }

/-! ## What the loops compute -/

/-- The sum over `i < cnt` of `a8[a + i] * low_nibble(w4[w + i])`. -/
def low_dot (cnt : Nat) (a8 : List ℤ) (w4 : List (Fin 256)) (a w : Nat) : ℤ :=
  ∑ i in Finset.range cnt, a8.getD (a + i) 0 * w_de_0 (w4.getD (w + i) 0)

/-- The sum over `i < cnt` of `a8[a + 32 + i] * high_nibble(w4[w + i])`. -/
def high_dot (cnt : Nat) (a8 : List ℤ) (w4 : List (Fin 256)) (a w : Nat) : ℤ :=
  ∑ i in Finset.range cnt, a8.getD (a + (i + 32)) 0 * w_de_16 (w4.getD (w + i) 0)

/-- The eight partial sums after `cnt` passes of the loop over `qj`. -/
def sums_after (cnt : Nat) (a8 : List ℤ) (w4 : List (Fin 256))
    (a w0 w1 w2 w3 : Nat) : partial_sums :=
  { intermediate_sum0 := low_dot cnt a8 w4 a w0
    intermediate_sum1 := low_dot cnt a8 w4 a w1
    intermediate_sum2 := low_dot cnt a8 w4 a w2
    intermediate_sum3 := low_dot cnt a8 w4 a w3
    intermediate_sum0_2nd := high_dot cnt a8 w4 a w0
    intermediate_sum1_2nd := high_dot cnt a8 w4 a w1
    intermediate_sum2_2nd := high_dot cnt a8 w4 a w2
    intermediate_sum3_2nd := high_dot cnt a8 w4 a w3 }

/-- What the stride that starts at element `64 * s` adds to the accumulator of
weight row `c`, for blocks of 32 elements. -/
def stride_term (p : matmul_params) (row c s : Nat) : ℚ :=
  (low_dot 32 p.A.int8_data_ptr p.B.int4_data_ptr (row * p.A.column + 64 * s)
      ((c * p.A.column + 64 * s) / 2) : ℚ)
    * p.A_scales.getD ((row * p.A.column + 64 * s) / 32) 0
    * p.scales.getD ((c * p.A.column + 64 * s) / 32) 0
  + (high_dot 32 p.A.int8_data_ptr p.B.int4_data_ptr (row * p.A.column + 64 * s)
      ((c * p.A.column + 64 * s) / 2) : ℚ)
    * p.A_scales.getD ((row * p.A.column + 64 * s) / 32 + 1) 0
    * p.scales.getD ((c * p.A.column + 64 * s) / 32 + 1) 0

/-- The accumulator of weight row `c` after the first `cnt` strides. -/
def tile_sum (p : matmul_params) (row c cnt : Nat) : ℚ :=
  ∑ s in Finset.range cnt, stride_term p row c s

/-- The four accumulators of the tile at `col` after the first `cnt` strides. -/
def tile_acc (p : matmul_params) (row col cnt : Nat) : accumulators :=
  ⟨tile_sum p row col cnt, tile_sum p row (col + 1) cnt, tile_sum p row (col + 2) cnt,
    tile_sum p row (col + 3) cnt⟩

/-- The buffers that the accumulation pass reads have the lengths of the data
model, for `m = C.row`, `n = C.column`, `k = A.column` and blocks of 32. -/
def read_buffers_fit (p : matmul_params) : Prop :=
  p.block_size = 32
    ∧ p.A.int8_data_ptr.length = p.C.row * p.A.column
    ∧ p.B.int4_data_ptr.length = p.C.column * p.A.column / 2
    ∧ p.A_scales.length = p.C.row * p.A.column / 32
    ∧ p.scales.length = p.C.column * p.A.column / 32

/-- The value stored for column `c` of row `row`: accumulator `c % 4` of the
tile that starts at column `c / 4 * 4` (zero when that tile's loop does not end). -/
def stored_value (QM_x86 : Bool) (fuel : Nat) (p : matmul_params) (row c : Nat) : ℚ :=
  match ch_loop QM_x86 fuel p row (c / 4 * 4) with
  | .done r =>
    match c % 4 with
    | 0 => r.2.acc0
    | 1 => r.2.acc1
    | 2 => r.2.acc2
    | _ => r.2.acc3
  | _ => 0

/-- The stores of row `row` to its first `cnt` columns, in order. -/
def row_writes (QM_x86 : Bool) (fuel : Nat) (p : matmul_params) (row cnt : Nat) :
    List (Nat × ℚ) :=
  (List.range cnt).map fun c => (row * p.C.column + c, stored_value QM_x86 fuel p row c)

/-- The stores of the first `rows` rows, in order. -/
def all_writes (QM_x86 : Bool) (fuel : Nat) (p : matmul_params) (rows : Nat) :
    List (Nat × ℚ) :=
  (List.range rows).flatMap fun r => row_writes QM_x86 fuel p r p.C.column

/-- The state of the loop over `col` of row `row` that started from `o0`. -/
def col_inv (QM_x86 : Bool) (fuel : Nat) (p : matmul_params) (row : Nat) (o0 : out_state)
    (st : Nat × out_state) : Prop :=
  st.1 % 4 = 0 ∧ st.1 ≤ p.C.column ∧ st.2.C_data.length = o0.C_data.length
    ∧ (∀ c, c < st.1 → st.2.C_data[row * p.C.column + c]? = some (stored_value QM_x86 fuel p row c))
    ∧ (∀ i, (i < row * p.C.column ∨ row * p.C.column + st.1 ≤ i) →
        st.2.C_data[i]? = o0.C_data[i]?)
    ∧ st.2.writes = o0.writes ++ row_writes QM_x86 fuel p row st.1

/-- The state of the loop over `row` that started from `o0`. -/
def row_inv (QM_x86 : Bool) (fuel : Nat) (p : matmul_params) (o0 : out_state)
    (st : Nat × out_state) : Prop :=
  st.1 ≤ p.C.row ∧ st.2.C_data.length = o0.C_data.length
    ∧ (∀ r c, r < st.1 → c < p.C.column →
        st.2.C_data[r * p.C.column + c]? = some (stored_value QM_x86 fuel p r c))
    ∧ (∀ i, st.1 * p.C.column ≤ i → st.2.C_data[i]? = o0.C_data[i]?)
    ∧ st.2.writes = o0.writes ++ all_writes QM_x86 fuel p st.1

/-! ## The logical weight matrix and the reference product -/

/-- The logical decoded weight `w[c][e]` of the interleaved layout: weight row
`c` starts at byte `c * k / 2`; byte `i` of its `N`-th 32-byte run holds element
`64 * N + i` in the low nibble and element `64 * N + 32 + i` in the high nibble. -/
def logical_weight (w4 : List (Fin 256)) (k c e : Nat) : ℤ :=
  let byte := w4.getD (c * k / 2 + 32 * (e / 64) + e % 32) 0
  if e % 64 < 32 then w_de_0 byte else w_de_16 byte

/-- The integer dot product of block `b` of activation row `r` with block `b`
of logical weight row `c`. -/
def block_dot (p : matmul_params) (r c b : Nat) : ℤ :=
  ∑ i in Finset.range 32,
    p.A.int8_data_ptr.getD (r * p.A.column + (32 * b + i)) 0
      * logical_weight p.B.int4_data_ptr p.A.column c (32 * b + i)

/-- The value of the specification for `C[r][c]`: the sum over all blocks
`b < k / 32` of the block's integer dot product times `A_scales[r][b]` times
`scales[c][b]`. -/
def block_sum (p : matmul_params) (r c : Nat) : ℚ :=
  ∑ b in Finset.range (p.A.column / 32),
    (block_dot p r c b : ℚ) * p.A_scales.getD (r * (p.A.column / 32) + b) 0
      * p.scales.getD (c * (p.A.column / 32) + b) 0

/-- The reference of the specification, which handles one column and one block
at a time: for each block in turn, the integer dot product is accumulated
element by element, rescaled by the two scales of the block, and added to the
column's accumulator. -/
def reference_entry (p : matmul_params) (r c : Nat) : ℚ :=
  (List.range (p.A.column / 32)).foldl
    (fun acc b =>
      acc + (((List.range 32).foldl
          (fun sum i => sum + p.A.int8_data_ptr.getD (r * p.A.column + (32 * b + i)) 0
            * logical_weight p.B.int4_data_ptr p.A.column c (32 * b + i)) 0 : ℤ) : ℚ)
        * p.A_scales.getD (r * (p.A.column / 32) + b) 0
        * p.scales.getD (c * (p.A.column / 32) + b) 0)
    0

/-- The invariants under which the accumulation pass is run: the shapes, the
divisibility conditions with blocks of 32, and the lengths of the five buffers
that the pass reads or writes. -/
def accumulation_invariants (p : matmul_params) : Prop :=
  p.A.column = p.B.column ∧ p.C.row = p.A.row ∧ p.C.column = p.B.row
    ∧ p.A.column % p.block_size = 0 ∧ p.block_size = 32 ∧ p.C.column % 4 = 0
    ∧ p.A.int8_data_ptr.length = p.A.row * p.A.column
    ∧ p.B.int4_data_ptr.length = p.B.row * p.A.column / 2
    ∧ p.A_scales.length = p.A.row * p.A.column / p.block_size
    ∧ p.scales.length = p.B.row * p.A.column / p.block_size
    ∧ p.C.data_ptr.length = p.C.row * p.C.column

instance (p : matmul_params) : Decidable (accumulation_invariants p) := by
  unfold accumulation_invariants
  infer_instance

/-- An input of the accumulation pass with one block per row: `A` is `1 × 32`
with every quantized value 127 and scale `1 / 127`, `B` is `4 × 32`. -/
def quantized_32 : matmul_params :=
  { A := ⟨1, 32, List.replicate 32 1, List.replicate 32 127, []⟩
    B := ⟨4, 32, [], [], List.replicate 64 0x99⟩
    C := ⟨1, 4, List.replicate 4 0, [], []⟩
    scales := List.replicate 4 1
    offset := []
    A_scales := [1 / 127]
    block_size := 32 }

/-- An input of the accumulation pass with two blocks per row: `A` is `2 × 64`,
`B` is `8 × 64`. -/
def quantized_64 : matmul_params :=
  { A := ⟨2, 64, List.replicate 128 1, List.replicate 128 127, []⟩
    B := ⟨8, 64, [], [], List.replicate 256 0x99⟩
    C := ⟨2, 8, List.replicate 16 0, [], []⟩
    scales := List.replicate 16 1
    offset := []
    A_scales := List.replicate 4 (1 / 127)
    block_size := 32 }

/-- A well-formed input with `A` of shape `2 × 32` and `B` of shape `4 × 32`. -/
def two_rows_32 : matmul_params :=
  { A := ⟨2, 32, List.replicate 64 1, List.replicate 64 0, []⟩
    B := ⟨4, 32, [], [], List.replicate 64 0x99⟩
    C := ⟨2, 4, List.replicate 8 0, [], []⟩
    scales := List.replicate 4 1
    offset := []
    A_scales := List.replicate 2 0
    block_size := 32 }

/-- What the kernel leaves on `scenario_64`. -/
def scenario_64_result : kernel_result :=
  { params :=
      { scenario_64 with
        A := { scenario_64.A with int8_data_ptr := List.replicate 64 127 }
        A_scales := [1 / 127, 1 / 127]
        C := { scenario_64.C with data_ptr := [64, 64, 64, 64] } }
    writes := [(0, 64), (1, 64), (2, 64), (3, 64)] }

/-- Two states of a loop over the output: the same counter, and output buffers
of the same length. -/
def same_shape (s t : Nat × out_state) : Prop :=
  s.1 = t.1 ∧ s.2.C_data.length = t.2.C_data.length

/-- The parameters `p` with other contents `x`, `y`, `z` in the three buffers
that the kernel writes: the `int8` buffer of `A`, the activation scale table and
the `float` buffer of `C`. -/
def with_buffers (p : matmul_params) (x : List ℤ) (y z : List ℚ) : matmul_params :=
  { p with
    A := { p.A with int8_data_ptr := x }
    A_scales := y
    C := { p.C with data_ptr := z } }

/-- The value of a C `int` kept in 32 bits (two's complement). -/
def int32_wrap (z : ℤ) : ℤ :=
  (z + 2147483648) % 4294967296 - 2147483648

/-- All eight partial sums lie between `lo` and `hi`. -/
def sums_within (lo hi : ℤ) (s : partial_sums) : Prop :=
  (lo ≤ s.intermediate_sum0 ∧ s.intermediate_sum0 ≤ hi)
    ∧ (lo ≤ s.intermediate_sum1 ∧ s.intermediate_sum1 ≤ hi)
    ∧ (lo ≤ s.intermediate_sum2 ∧ s.intermediate_sum2 ≤ hi)
    ∧ (lo ≤ s.intermediate_sum3 ∧ s.intermediate_sum3 ≤ hi)
    ∧ (lo ≤ s.intermediate_sum0_2nd ∧ s.intermediate_sum0_2nd ≤ hi)
    ∧ (lo ≤ s.intermediate_sum1_2nd ∧ s.intermediate_sum1_2nd ≤ hi)
    ∧ (lo ≤ s.intermediate_sum2_2nd ∧ s.intermediate_sum2_2nd ≤ hi)
    ∧ (lo ≤ s.intermediate_sum3_2nd ∧ s.intermediate_sum3_2nd ≤ hi)

instance (lo hi : ℤ) (s : partial_sums) : Decidable (sums_within lo hi s) := by
  unfold sums_within
  infer_instance

/-- The eight partial sums as a list. -/
def sums_values (s : partial_sums) : List ℤ :=
  [s.intermediate_sum0, s.intermediate_sum1, s.intermediate_sum2, s.intermediate_sum3,
    s.intermediate_sum0_2nd, s.intermediate_sum1_2nd, s.intermediate_sum2_2nd,
    s.intermediate_sum3_2nd]

instance (p : matmul_params) : Decidable (read_buffers_fit p) := by
  unfold read_buffers_fit
  infer_instance

/-- What block `b` of the shared dimension adds to `C[r][c]`: the block's
integer dot product times `A_scales[r][b]` times `scales[c][b]`. -/
def block_term (p : matmul_params) (r c b : Nat) : ℚ :=
  (block_dot p r c b : ℚ) * p.A_scales.getD (r * (p.A.column / 32) + b) 0
    * p.scales.getD (c * (p.A.column / 32) + b) 0

/-- The accumulators `acc` after a stride over the blocks `b` and `b + 1` of row
`row` and the four weight rows from `col` on. -/
def add_two_blocks (p : matmul_params) (row col b : Nat) (acc : accumulators) : accumulators :=
  { acc0 := acc.acc0 + block_term p row col b + block_term p row col (b + 1)
    acc1 := acc.acc1 + block_term p row (col + 1) b + block_term p row (col + 1) (b + 1)
    acc2 := acc.acc2 + block_term p row (col + 2) b + block_term p row (col + 2) (b + 1)
    acc3 := acc.acc3 + block_term p row (col + 3) b + block_term p row (col + 3) (b + 1) }

/-- An input of the accumulation pass with blocks of 64 elements and two blocks
per row: every quantized activation is 1, every decoded weight is 1 (byte
`0x99`), every scale is 1. -/
def blocks_of_64_elements : matmul_params :=
  { A := ⟨1, 128, [], List.replicate 128 1, []⟩
    B := ⟨4, 128, [], [], List.replicate 256 0x99⟩
    C := ⟨1, 4, List.replicate 4 0, [], []⟩
    scales := List.replicate 8 1
    offset := []
    A_scales := List.replicate 2 1
    block_size := 64 }

/-- The input `blocks_of_64_elements` with 100 in place of 1 in the quantized
activations 64 to 127. -/
def blocks_of_64_elements_other_tail : matmul_params :=
  { blocks_of_64_elements with
    A := { blocks_of_64_elements.A with
      int8_data_ptr := List.replicate 64 1 ++ List.replicate 64 100 } }

/-- Block number `b` of `xs`: the `block_size` elements from `b * block_size` on. -/
def block_at (block_size : Nat) (xs : List ℚ) (b : Nat) : List ℚ :=
  (xs.drop (b * block_size)).take block_size

/-- The division `x / y` with the zero divisor made visible: it has no result. -/
def div_checked (x y : ℚ) : Option ℚ :=
  if y = 0 then none else some (x / y)

/-- Modelled from the spec: the quantized value of one element of a block with
scale `scale`, as in `quantize_block`, with the division made partial. -/
def quantize_value_checked (scale x : ℚ) : Option ℤ :=
  if scale = 0 then some 0
  else (div_checked x scale).map fun y => clamp127 (round_half_away y)

/-- Modelled from the spec: the quantized values of the elements `xs` of a block
with scale `scale`, with the division made partial. -/
def quantize_values_checked (scale : ℚ) : List ℚ → Option (List ℤ)
  | [] => some []
  | x :: xs =>
    (quantize_value_checked scale x).bind fun q =>
      (quantize_values_checked scale xs).map fun qs => q :: qs

/-- Modelled from the spec: `quantize_block` with the division made partial. -/
def quantize_block_checked (xs : List ℚ) : Option (List ℤ) :=
  quantize_values_checked (block_scale xs) xs

/-- An activation matrix `1 × 64` whose first block is all zero and whose second
block is all ones, with arbitrary prior contents in the two output buffers. -/
def zero_block_input : matmul_params :=
  { A := ⟨1, 64, List.replicate 32 0 ++ List.replicate 32 1, List.replicate 64 5, []⟩
    B := ⟨4, 64, [], [], List.replicate 128 0x99⟩
    C := ⟨1, 4, List.replicate 4 0, [], []⟩
    scales := List.replicate 8 1
    offset := []
    A_scales := [3, 3]
    block_size := 32 }

/-- The parameters `zero_block_input` after the quantization pass. -/
def zero_block_quantized : matmul_params :=
  { zero_block_input with
    A := { zero_block_input.A with
      int8_data_ptr := List.replicate 32 0 ++ List.replicate 32 127 }
    A_scales := [0, 1 / 127] }

/-- The parameters of the kernel for the top `m1` rows of `A`: the first `m1`
rows of the activation buffers, of the activation scale table and of `C`, with the same
`B`, weight scales and `block_size`. -/
def top_rows (p : matmul_params) (m1 : Nat) : matmul_params :=
  { p with
    A := { p.A with
      row := m1
      data_ptr := p.A.data_ptr.take (m1 * p.A.column)
      int8_data_ptr := p.A.int8_data_ptr.take (m1 * p.A.column) }
    C := { p.C with
      row := m1
      data_ptr := p.C.data_ptr.take (m1 * p.C.column) }
    A_scales := p.A_scales.take (m1 * p.A.column / p.block_size) }

/-- The parameters of the kernel for the rows of `A` from row `m1` on. -/
def bottom_rows (p : matmul_params) (m1 : Nat) : matmul_params :=
  { p with
    A := { p.A with
      row := p.A.row - m1
      data_ptr := p.A.data_ptr.drop (m1 * p.A.column)
      int8_data_ptr := p.A.int8_data_ptr.drop (m1 * p.A.column) }
    C := { p.C with
      row := p.C.row - m1
      data_ptr := p.C.data_ptr.drop (m1 * p.C.column) }
    A_scales := p.A_scales.drop (m1 * p.A.column / p.block_size) }

/-- A well-formed input with `A` of shape `2 × 64` (rows of ones and of twos)
and `B` of shape `4 × 64`. -/
def two_rows_64 : matmul_params :=
  { A := ⟨2, 64, List.replicate 64 1 ++ List.replicate 64 2, List.replicate 128 0, []⟩
    B := ⟨4, 64, [], [], List.replicate 128 0x99⟩
    C := ⟨2, 4, List.replicate 8 0, [], []⟩
    scales := List.replicate 8 1
    offset := []
    A_scales := List.replicate 4 0
    block_size := 32 }

/-- An input of the accumulation pass with one block per row: `A` is `2 × 32`
with quantized row 0 all 1 and quantized row 1 all 5, `B` is `8 × 32`, every
decoded weight and every scale is 1. -/
def cross_rows_32 : matmul_params :=
  { A := ⟨2, 32, [], List.replicate 32 1 ++ List.replicate 32 5, []⟩
    B := ⟨8, 32, [], [], List.replicate 128 0x99⟩
    C := ⟨2, 8, List.replicate 16 0, [], []⟩
    scales := List.replicate 8 1
    offset := []
    A_scales := [1, 1]
    block_size := 32 }

/-- The input `cross_rows_32` with 7 in place of 5 in the quantized row 1. -/
def cross_rows_32_other_row : matmul_params :=
  { cross_rows_32 with
    A := { cross_rows_32.A with
      int8_data_ptr := List.replicate 32 1 ++ List.replicate 32 7 } }

/-- The sizes fit the type `int` of the dimensions and of the indices: the number
of rows `m = C.row` and the element counts `m * k`, `n * k` and `m * n` of the
three matrices (`n = C.column`, `k = A.column`) are at most `INT_MAX`. -/
def int_sized (p : matmul_params) : Prop :=
  p.C.row ≤ 2147483647 ∧ p.C.row * p.A.column ≤ 2147483647
    ∧ p.C.column * p.A.column ≤ 2147483647 ∧ p.C.row * p.C.column ≤ 2147483647

instance (p : matmul_params) : Decidable (int_sized p) := by
  unfold int_sized
  infer_instance

/-- A well-formed input whose weight matrix has `2^32` elements: `A` is
`1 × 2^30`, `B` is `4 × 2^30`, blocks of 32. -/
def long_rows : matmul_params :=
  { A := ⟨1, 1073741824, List.replicate 1073741824 1, List.replicate 1073741824 0, []⟩
    B := ⟨4, 1073741824, [], [], List.replicate 2147483648 0x99⟩
    C := ⟨1, 4, List.replicate 4 0, [], []⟩
    scales := List.replicate 134217728 1
    offset := []
    A_scales := List.replicate 33554432 0
    block_size := 32 }

/-! ## Outcomes and loops: lemmas -/

@[simp] theorem Outcome.bind_done {α β : Type} (a : α) (f : α → Outcome β) :
    (Outcome.done a).bind f = f a := rfl

@[simp] theorem Outcome.bind_fault {α β : Type} (f : α → Outcome β) :
    (Outcome.fault : Outcome α).bind f = .fault := rfl

@[simp] theorem Outcome.bind_out_of_fuel {α β : Type} (f : α → Outcome β) :
    (Outcome.out_of_fuel : Outcome α).bind f = .out_of_fuel := rfl

@[simp] theorem Outcome.ofOption_some {α : Type} (a : α) :
    Outcome.ofOption (some a) = .done a := rfl

@[simp] theorem Outcome.ofOption_none {α : Type} :
    Outcome.ofOption (none : Option α) = .fault := rfl

theorem Outcome.ofOption_ne_out_of_fuel {α : Type} (x : Option α) :
    Outcome.ofOption x ≠ .out_of_fuel := by
  cases x <;> simp

theorem Outcome.ofOption_eq_done {α : Type} {x : Option α} {a : α}
    (h : Outcome.ofOption x = .done a) : x = some a := by
  cases x <;> simp_all

theorem Outcome.bind_eq_done {α β : Type} {x : Outcome α} {f : α → Outcome β} {b : β}
    (h : x.bind f = .done b) : ∃ a, x = .done a ∧ f a = .done b := by
  cases x <;> simp_all

theorem Outcome.bind_ne_out_of_fuel {α β : Type} {x : Outcome α} {f : α → Outcome β}
    (hx : x ≠ .out_of_fuel) (hf : ∀ a, x = .done a → f a ≠ .out_of_fuel) :
    x.bind f ≠ .out_of_fuel := by
  cases x <;> simp_all

/-- Total correctness of a loop: an invariant kept by every pass, and a measure
that every pass decreases and the iteration budget covers. -/
theorem loop_total {σ : Type} (cond : σ → Bool) (body : σ → Outcome σ)
    (inv : σ → Prop) (μ : σ → Nat)
    (step : ∀ s, inv s → cond s = true → ∃ s2, body s = .done s2 ∧ inv s2 ∧ μ s2 < μ s) :
    ∀ fuel s, inv s → μ s ≤ fuel →
      ∃ s2, loop cond body fuel s = .done s2 ∧ inv s2 ∧ cond s2 = false := by
  intro fuel
  induction fuel with
  | zero =>
    intro s hs hμ
    cases hc : cond s with
    | false => exact ⟨s, by simp [loop, hc], hs, hc⟩
    | true =>
      obtain ⟨s2, _, _, hlt⟩ := step s hs hc
      omega
  | succ fuel ih =>
    intro s hs hμ
    cases hc : cond s with
    | false => exact ⟨s, by simp [loop, hc], hs, hc⟩
    | true =>
      obtain ⟨s2, hb, hi, hlt⟩ := step s hs hc
      obtain ⟨s3, h3, hi3, hc3⟩ := ih s2 hi (by omega)
      exact ⟨s3, by simp [loop, hc, hb, h3], hi3, hc3⟩

/-- Partial correctness of a loop: what an invariant gives when the loop ends. -/
theorem loop_partial {σ : Type} (cond : σ → Bool) (body : σ → Outcome σ)
    (inv : σ → Prop)
    (step : ∀ s s2, inv s → cond s = true → body s = .done s2 → inv s2) :
    ∀ fuel s s2, inv s → loop cond body fuel s = .done s2 → inv s2 ∧ cond s2 = false := by
  intro fuel
  induction fuel with
  | zero =>
    intro s s2 hs h
    cases hc : cond s with
    | false =>
      simp [loop, hc] at h
      subst h
      exact ⟨hs, hc⟩
    | true => simp [loop, hc] at h
  | succ fuel ih =>
    intro s s2 hs h
    cases hc : cond s with
    | false =>
      simp [loop, hc] at h
      subst h
      exact ⟨hs, hc⟩
    | true =>
      simp only [loop, hc, if_true] at h
      obtain ⟨s1, hb, hl⟩ := Outcome.bind_eq_done h
      exact ih s1 s2 (step s s1 hs hc hb) hl

/-- A loop ends within its iteration budget when the measure is positive while
the loop runs, every pass decreases it, the budget covers it, and no pass runs
out of budget itself. -/
theorem loop_ne_out_of_fuel {σ : Type} (cond : σ → Bool) (body : σ → Outcome σ)
    (μ : σ → Nat)
    (pos : ∀ s, cond s = true → 0 < μ s)
    (dec : ∀ s s2, cond s = true → body s = .done s2 → μ s2 < μ s)
    (inner : ∀ s, cond s = true → body s ≠ .out_of_fuel) :
    ∀ fuel s, μ s ≤ fuel → loop cond body fuel s ≠ .out_of_fuel := by
  intro fuel
  induction fuel with
  | zero =>
    intro s hμ
    cases hc : cond s with
    | false => simp [loop, hc]
    | true => have := pos s hc; omega
  | succ fuel ih =>
    intro s hμ
    cases hc : cond s with
    | false => simp [loop, hc]
    | true =>
      simp only [loop, hc, if_true]
      apply Outcome.bind_ne_out_of_fuel (inner s hc)
      intro s2 hb
      have := dec s s2 hc hb
      exact ih s2 (by omega)

/-! ## `int` arithmetic: lemmas -/

theorem succ_mul_le_of_lt {r m : Nat} (k : Nat) (h : r < m) : r * k + k ≤ m * k := by
  calc r * k + k = (r + 1) * k := by ring
    _ ≤ m * k := Nat.mul_le_mul_right k h

theorem int_val_some {v : Nat} (h : v ≤ 2147483647) : int_val v = some v := by
  simp only [int_val, h, if_true]

theorem int_val_eq_some {v w : Nat} (h : int_val v = some w) : w = v ∧ v ≤ 2147483647 := by
  unfold int_val at h
  by_cases hv : v ≤ 2147483647
  · simp only [hv, if_true, Option.some.injEq] at h
    exact ⟨h.symm, hv⟩
  · simp [hv] at h

theorem int_add_some {a b : Nat} (h : a + b ≤ 2147483647) : int_add a b = some (a + b) :=
  int_val_some h

theorem int_add_eq_some {a b w : Nat} (h : int_add a b = some w) :
    w = a + b ∧ a + b ≤ 2147483647 :=
  int_val_eq_some h

theorem int_mul_some {a b : Nat} (h : a * b ≤ 2147483647) : int_mul a b = some (a * b) :=
  int_val_some h

theorem int_mul_eq_some {a b w : Nat} (h : int_mul a b = some w) :
    w = a * b ∧ a * b ≤ 2147483647 :=
  int_val_eq_some h

theorem linear_index_some {r k ch : Nat} (h : r * k + ch ≤ 2147483647) :
    linear_index r k ch = some (r * k + ch) := by
  have h1 : r * k ≤ 2147483647 := by omega
  simp only [linear_index, int_mul_some h1, Option.some_bind, int_add_some h]

theorem linear_index_eq_some {r k ch v : Nat} (h : linear_index r k ch = some v) :
    v = r * k + ch ∧ r * k + ch ≤ 2147483647 := by
  unfold linear_index at h
  rw [Option.bind_eq_some] at h
  obtain ⟨t, ht, hv⟩ := h
  obtain ⟨e1, _⟩ := int_mul_eq_some ht
  obtain ⟨e2, h2⟩ := int_add_eq_some hv
  subst e1
  exact ⟨e2, h2⟩

/-- The index expressions of one stride have their exact values when the largest
of them fits an `int`. -/
theorem tile_indices (k row col ch : Nat) (hr : row * k + ch ≤ 2147483647)
    (hc : (col + 3) * k + ch ≤ 2147483647) (hc3 : col + 3 ≤ 2147483647) :
    linear_index row k ch = some (row * k + ch)
      ∧ linear_index col k ch = some (col * k + ch)
      ∧ int_add col 1 = some (col + 1) ∧ int_add col 2 = some (col + 2)
      ∧ int_add col 3 = some (col + 3)
      ∧ linear_index (col + 1) k ch = some ((col + 1) * k + ch)
      ∧ linear_index (col + 2) k ch = some ((col + 2) * k + ch)
      ∧ linear_index (col + 3) k ch = some ((col + 3) * k + ch) := by
  have m0 : col * k ≤ (col + 3) * k := Nat.mul_le_mul_right k (by omega)
  have m1 : (col + 1) * k ≤ (col + 3) * k := Nat.mul_le_mul_right k (by omega)
  have m2 : (col + 2) * k ≤ (col + 3) * k := Nat.mul_le_mul_right k (by omega)
  exact ⟨linear_index_some hr, linear_index_some (by omega), int_add_some (by omega),
    int_add_some (by omega), int_add_some hc3, linear_index_some (by omega),
    linear_index_some (by omega), linear_index_some hc⟩

/-- The index expressions of the strides of a tile fit an `int` when the sizes do. -/
theorem index_bounds (p : matmul_params) (row col ch : Nat) (hsz : int_sized p)
    (hrow : row < p.C.row) (hcol : col + 3 < p.C.column) (hch : ch + 64 ≤ p.A.column) :
    row * p.A.column + ch ≤ 2147483647 ∧ (col + 3) * p.A.column + ch ≤ 2147483647
      ∧ col + 3 ≤ 2147483647 ∧ ch + 64 ≤ 2147483647 := by
  obtain ⟨_, h1, h2, _⟩ := hsz
  have hr := succ_mul_le_of_lt p.A.column hrow
  have hc := succ_mul_le_of_lt p.A.column hcol
  have hn : p.C.column ≤ p.C.column * p.A.column := Nat.le_mul_of_pos_right _ (by omega)
  have hk : p.A.column ≤ p.C.row * p.A.column := Nat.le_mul_of_pos_left _ (by omega)
  refine ⟨?_, ?_, ?_, ?_⟩ <;> omega

theorem pointers_eq (k row col ch : Nat) (hr : row * k + ch ≤ 2147483647)
    (hc : (col + 3) * k + ch ≤ 2147483647) (hc3 : col + 3 ≤ 2147483647) :
    pointers k row col ch = some ⟨row * k + ch, (col * k + ch) / 2, ((col + 1) * k + ch) / 2,
      ((col + 2) * k + ch) / 2, ((col + 3) * k + ch) / 2⟩ := by
  obtain ⟨lr, l0, a1, a2, a3, l1, l2, l3⟩ := tile_indices k row col ch hr hc hc3
  simp only [pointers, lr, l0, a1, a2, a3, l1, l2, l3, Option.pure_def, Option.bind_eq_bind,
    Option.some_bind]

/-- A stride whose third weight pointer is beyond `INT_MAX` has no pointers. -/
theorem pointers_overflow (k row col ch : Nat) (h : 2147483647 < (col + 2) * k + ch) :
    pointers k row col ch = none := by
  cases hp : pointers k row col ch with
  | none => rfl
  | some x =>
    simp only [pointers, Option.pure_def, Option.bind_eq_bind, Option.bind_eq_some] at hp
    obtain ⟨a, _, w0, _, c1, _, w1, _, c2, hc2, w2, hw2, _⟩ := hp
    obtain ⟨e, _⟩ := int_add_eq_some hc2
    subst e
    obtain ⟨_, hb⟩ := linear_index_eq_some hw2
    omega

/-! ## Decoding: lemmas -/

theorem signed_char_of_double_intCast (z : ℤ) (h1 : -128 ≤ z) (h2 : z ≤ 127) :
    signed_char_of_double ((z : ℤ) : ℚ) = z := by
  unfold signed_char_of_double
  simp only [Int.floor_intCast, Int.ceil_intCast, ite_self]
  omega

theorem land_15_lt (b : Nat) : b &&& 0x0F < 16 := by
  have h := @Nat.and_le_right b 15
  omega

theorem w_de_0_eq (b : Fin 256) : w_de_0 b = ((b.val &&& 0x0F : Nat) : ℤ) - 8 := by
  have h := land_15_lt b.val
  unfold w_de_0
  have e : (((b.val &&& 0x0F : Nat) : ℚ) - (8 : ℚ)) = (((((b.val &&& 0x0F : Nat) : ℤ) - 8 : ℤ)) : ℚ) := by
    push_cast; ring
  rw [e, signed_char_of_double_intCast] <;> omega

theorem w_de_16_eq (b : Fin 256) : w_de_16 b = ((b.val >>> 4 : Nat) : ℤ) - 8 := by
  have h : b.val >>> 4 < 16 := by
    have := b.isLt
    rw [Nat.shiftRight_eq_div_pow]
    omega
  unfold w_de_16
  have e : (((b.val >>> 4 : Nat) : ℚ) - (8 : ℚ)) = (((((b.val >>> 4 : Nat) : ℤ) - 8 : ℤ)) : ℚ) := by
    push_cast; ring
  rw [e, signed_char_of_double_intCast] <;> omega

/-! ## The loop over `qj` -/

theorem getElem?_getD {α : Type} (l : List α) (i : Nat) (d : α) (h : i < l.length) :
    l[i]? = some (l.getD i d) := by
  simp [List.getD_eq_getElem?_getD, List.getElem?_eq_getElem h]

theorem low_dot_succ (cnt : Nat) (a8 : List ℤ) (w4 : List (Fin 256)) (a w : Nat) :
    low_dot (cnt + 1) a8 w4 a w
      = low_dot cnt a8 w4 a w + a8.getD (a + cnt) 0 * w_de_0 (w4.getD (w + cnt) 0) := by
  simp [low_dot, Finset.sum_range_succ]

theorem high_dot_succ (cnt : Nat) (a8 : List ℤ) (w4 : List (Fin 256)) (a w : Nat) :
    high_dot (cnt + 1) a8 w4 a w
      = high_dot cnt a8 w4 a w + a8.getD (a + (cnt + 32)) 0 * w_de_16 (w4.getD (w + cnt) 0) := by
  simp [high_dot, Finset.sum_range_succ]

theorem mac_body_eq (a8 : List ℤ) (w4 : List (Fin 256)) (a w0 w1 w2 w3 qj : Nat)
    (hq : qj < 32) (ha : a + 64 ≤ a8.length) (h0 : w0 + 32 ≤ w4.length)
    (h1 : w1 + 32 ≤ w4.length) (h2 : w2 + 32 ≤ w4.length) (h3 : w3 + 32 ≤ w4.length) :
    mac_body a8 w4 a w0 w1 w2 w3 qj (sums_after qj a8 w4 a w0 w1 w2 w3)
      = some (sums_after (qj + 1) a8 w4 a w0 w1 w2 w3) := by
  have e0 := getElem?_getD w4 (w0 + qj) 0 (by omega)
  have e1 := getElem?_getD w4 (w1 + qj) 0 (by omega)
  have e2 := getElem?_getD w4 (w2 + qj) 0 (by omega)
  have e3 := getElem?_getD w4 (w3 + qj) 0 (by omega)
  have ea := getElem?_getD a8 (a + qj) 0 (by omega)
  have eb := getElem?_getD a8 (a + (qj + 32)) 0 (by omega)
  simp only [mac_body, e0, e1, e2, e3, ea, eb, Option.pure_def, Option.bind_eq_bind,
    Option.some_bind, sums_after, low_dot_succ, high_dot_succ]

theorem mac_loop_eq (fuel : Nat) (a8 : List ℤ) (w4 : List (Fin 256)) (a w0 w1 w2 w3 : Nat)
    (hf : 32 ≤ fuel) (ha : a + 64 ≤ a8.length) (h0 : w0 + 32 ≤ w4.length)
    (h1 : w1 + 32 ≤ w4.length) (h2 : w2 + 32 ≤ w4.length) (h3 : w3 + 32 ≤ w4.length) :
    mac_loop fuel a8 w4 a w0 w1 w2 w3 = .done (32, sums_after 32 a8 w4 a w0 w1 w2 w3) := by
  obtain ⟨s2, hl, ⟨hle, hs⟩, hc⟩ := loop_total (fun s : Nat × partial_sums => decide (s.1 < 32))
    (fun s => (Outcome.ofOption (mac_body a8 w4 a w0 w1 w2 w3 s.1 s.2)).bind
      fun s2 => .done (s.1 + 1, s2))
    (fun s => s.1 ≤ 32 ∧ s.2 = sums_after s.1 a8 w4 a w0 w1 w2 w3) (fun s => 32 - s.1)
    (by
      rintro ⟨qj, s⟩ ⟨_, hs⟩ hc
      simp only [decide_eq_true_eq] at hc
      simp only at hs
      subst hs
      refine ⟨(qj + 1, sums_after (qj + 1) a8 w4 a w0 w1 w2 w3), ?_, ⟨by simp only; omega, rfl⟩, ?_⟩
      · simp [mac_body_eq a8 w4 a w0 w1 w2 w3 qj hc ha h0 h1 h2 h3]
      · simp only; omega)
    fuel (0, ⟨0, 0, 0, 0, 0, 0, 0, 0⟩)
    ⟨by simp, by simp [sums_after, low_dot, high_dot]⟩ (by simpa using hf)
  simp only [decide_eq_false_iff_not] at hc
  have h32 : s2.1 = 32 := by omega
  unfold mac_loop
  rw [hl]
  congr 1
  rw [← h32]
  exact Prod.ext rfl hs

/-! ## The loop over `ch` -/

theorem tile_sum_succ (p : matmul_params) (row c cnt : Nat) :
    tile_sum p row c (cnt + 1) = tile_sum p row c cnt + stride_term p row c cnt := by
  simp [tile_sum, Finset.sum_range_succ]

theorem first_scales_eq (p : matmul_params) (row col ch : Nat) (hbs : p.block_size = 32)
    (hr : row * p.A.column + ch ≤ 2147483647) (hc : (col + 3) * p.A.column + ch ≤ 2147483647)
    (hc3 : col + 3 ≤ 2147483647)
    (ha : (row * p.A.column + ch) / 32 < p.A_scales.length)
    (h0 : (col * p.A.column + ch) / 32 < p.scales.length)
    (h1 : ((col + 1) * p.A.column + ch) / 32 < p.scales.length)
    (h2 : ((col + 2) * p.A.column + ch) / 32 < p.scales.length)
    (h3 : ((col + 3) * p.A.column + ch) / 32 < p.scales.length) :
    first_scales p row col ch = some
      ⟨p.A_scales.getD ((row * p.A.column + ch) / 32) 0,
        p.scales.getD ((col * p.A.column + ch) / 32) 0,
        p.scales.getD (((col + 1) * p.A.column + ch) / 32) 0,
        p.scales.getD (((col + 2) * p.A.column + ch) / 32) 0,
        p.scales.getD (((col + 3) * p.A.column + ch) / 32) 0⟩ := by
  have e32 : ∀ a, int_div a 32 = some (a / 32) := fun a => by simp [int_div]
  obtain ⟨lr, l0, a1, a2, a3, l1, l2, l3⟩ := tile_indices p.A.column row col ch hr hc hc3
  simp only [first_scales, scale_of_block, block_index, hbs, lr, l0, a1, a2, a3, l1, l2, l3,
    e32, getElem?_getD _ _ (0 : ℚ) ha,
    getElem?_getD _ _ (0 : ℚ) h0, getElem?_getD _ _ (0 : ℚ) h1, getElem?_getD _ _ (0 : ℚ) h2,
    getElem?_getD _ _ (0 : ℚ) h3, Option.pure_def, Option.bind_eq_bind, Option.some_bind]

theorem second_scales_eq (p : matmul_params) (row col ch : Nat) (hbs : p.block_size = 32)
    (hr : row * p.A.column + ch ≤ 2147483647) (hc : (col + 3) * p.A.column + ch ≤ 2147483647)
    (hc3 : col + 3 ≤ 2147483647)
    (ha : (row * p.A.column + ch) / 32 + 1 < p.A_scales.length)
    (h0 : (col * p.A.column + ch) / 32 + 1 < p.scales.length)
    (h1 : ((col + 1) * p.A.column + ch) / 32 + 1 < p.scales.length)
    (h2 : ((col + 2) * p.A.column + ch) / 32 + 1 < p.scales.length)
    (h3 : ((col + 3) * p.A.column + ch) / 32 + 1 < p.scales.length) :
    second_scales p row col ch = some
      ⟨p.A_scales.getD ((row * p.A.column + ch) / 32 + 1) 0,
        p.scales.getD ((col * p.A.column + ch) / 32 + 1) 0,
        p.scales.getD (((col + 1) * p.A.column + ch) / 32 + 1) 0,
        p.scales.getD (((col + 2) * p.A.column + ch) / 32 + 1) 0,
        p.scales.getD (((col + 3) * p.A.column + ch) / 32 + 1) 0⟩ := by
  have e32 : ∀ a, int_div a 32 = some (a / 32) := fun a => by simp [int_div]
  obtain ⟨lr, l0, a1, a2, a3, l1, l2, l3⟩ := tile_indices p.A.column row col ch hr hc hc3
  have m0 : col * p.A.column ≤ (col + 3) * p.A.column := Nat.mul_le_mul_right _ (by omega)
  have m1 : (col + 1) * p.A.column ≤ (col + 3) * p.A.column := Nat.mul_le_mul_right _ (by omega)
  have m2 : (col + 2) * p.A.column ≤ (col + 3) * p.A.column := Nat.mul_le_mul_right _ (by omega)
  have br := int_add_some (show (row * p.A.column + ch) / 32 + 1 ≤ 2147483647 by omega)
  have b0 := int_add_some (show (col * p.A.column + ch) / 32 + 1 ≤ 2147483647 by omega)
  have b1 := int_add_some (show ((col + 1) * p.A.column + ch) / 32 + 1 ≤ 2147483647 by omega)
  have b2 := int_add_some (show ((col + 2) * p.A.column + ch) / 32 + 1 ≤ 2147483647 by omega)
  have b3 := int_add_some (show ((col + 3) * p.A.column + ch) / 32 + 1 ≤ 2147483647 by omega)
  simp only [second_scales, scale_of_next_block, block_index, hbs, lr, l0, a1, a2, a3, l1, l2,
    l3, e32, br, b0, b1, b2, b3,
    getElem?_getD _ _ (0 : ℚ) ha,
    getElem?_getD _ _ (0 : ℚ) h0, getElem?_getD _ _ (0 : ℚ) h1, getElem?_getD _ _ (0 : ℚ) h2,
    getElem?_getD _ _ (0 : ℚ) h3, Option.pure_def, Option.bind_eq_bind, Option.some_bind]

theorem ch_body_eq (fuel : Nat) (p : matmul_params) (row col s t : Nat)
    (hfit : read_buffers_fit p) (hsz : int_sized p) (hk : p.A.column = 64 * t) (hf : 32 ≤ fuel)
    (hrow : row < p.C.row) (hcol : col + 3 < p.C.column) (hs : s < t) :
    ch_body true fuel p row col (64 * s, tile_acc p row col s)
      = .done (64 * (s + 1), tile_acc p row col (s + 1)) := by
  obtain ⟨i1, i2, i3, i4⟩ := index_bounds p row col (64 * s) hsz hrow hcol (by omega)
  obtain ⟨hbs, ha8, hw4, hsA, hsW⟩ := hfit
  have hr := succ_mul_le_of_lt p.A.column hrow
  have hc0 := succ_mul_le_of_lt p.A.column (show col < p.C.column by omega)
  have hc1 := succ_mul_le_of_lt p.A.column (show col + 1 < p.C.column by omega)
  have hc2 := succ_mul_le_of_lt p.A.column (show col + 2 < p.C.column by omega)
  have hc3 := succ_mul_le_of_lt p.A.column hcol
  have e0 := pointers_eq p.A.column row col (64 * s) i1 i2 i3
  have e1 := first_scales_eq p row col (64 * s) hbs i1 i2 i3 (by omega) (by omega) (by omega)
    (by omega) (by omega)
  have e2 := second_scales_eq p row col (64 * s) hbs i1 i2 i3 (by omega) (by omega) (by omega)
    (by omega) (by omega)
  have e3 := mac_loop_eq fuel p.A.int8_data_ptr p.B.int4_data_ptr (row * p.A.column + 64 * s)
    ((col * p.A.column + 64 * s) / 2) (((col + 1) * p.A.column + 64 * s) / 2)
    (((col + 2) * p.A.column + 64 * s) / 2) (((col + 3) * p.A.column + 64 * s) / 2)
    hf (by omega) (by omega) (by omega) (by omega) (by omega)
  have e4 : int_mul 32 2 = some 64 := int_mul_some (by omega)
  have e5 : int_add (64 * s) 64 = some (64 * (s + 1)) := by
    rw [int_add_some (by omega)]
    congr 1
  simp only [ch_body, e0, e1, e2, e3, e4, e5, Option.some_bind, Outcome.ofOption_some,
    Outcome.bind_done, if_true, hbs]
  simp only [dequantize, tile_acc, tile_sum_succ, stride_term, sums_after, add_assoc]

theorem ch_loop_eq (fuel : Nat) (p : matmul_params) (row col t : Nat)
    (hfit : read_buffers_fit p) (hsz : int_sized p) (hk : p.A.column = 64 * t) (hf : 32 ≤ fuel)
    (hft : t ≤ fuel)
    (hrow : row < p.C.row) (hcol : col + 3 < p.C.column) :
    ch_loop true fuel p row col = .done (p.A.column, tile_acc p row col t) := by
  obtain ⟨s2, hl, ⟨u, hu, h1, h2⟩, hc⟩ := loop_total
    (fun s : Nat × accumulators => decide (s.1 < p.A.column)) (ch_body true fuel p row col)
    (fun st => ∃ s, s ≤ t ∧ st.1 = 64 * s ∧ st.2 = tile_acc p row col s)
    (fun st => t - st.1 / 64)
    (by
      rintro ⟨ch, acc⟩ ⟨s, hs, h1, h2⟩ hc
      simp only [decide_eq_true_eq] at hc
      simp only at h1 h2
      subst h1 h2
      have hst : s < t := by omega
      refine ⟨_, ch_body_eq fuel p row col s t hfit hsz hk hf hrow hcol hst,
        ⟨s + 1, hst, rfl, rfl⟩, ?_⟩
      simp only
      omega)
    fuel (0, ⟨0, 0, 0, 0⟩) ⟨0, by omega, rfl, by simp [tile_acc, tile_sum]⟩
    (by simp only; omega)
  simp only [decide_eq_false_iff_not] at hc
  have hut : u = t := by omega
  subst hut
  unfold ch_loop
  rw [hl]
  congr 1
  exact Prod.ext (by omega) h2

/-! ## The stores to `C` -/

theorem write_tile_int {o o2 : out_state} {base : Nat} {acc : accumulators}
    (h : write_tile o base acc = some o2) : base + 3 ≤ 2147483647 := by
  simp only [write_tile, Option.pure_def, Option.bind_eq_bind, Option.bind_eq_some] at h
  obtain ⟨o0, _, b1, _, o1, _, b2, _, o3, _, b3, hb3, _⟩ := h
  exact (int_add_eq_some hb3).2

theorem write_tile_eq (o : out_state) (base : Nat) (acc : accumulators)
    (hm : base + 3 ≤ 2147483647) :
    write_tile o base acc
      = if base + 3 < o.C_data.length then
          some ⟨(((o.C_data.set base acc.acc0).set (base + 1) acc.acc1).set (base + 2)
              acc.acc2).set (base + 3) acc.acc3,
            o.writes ++ [(base, acc.acc0), (base + 1, acc.acc1), (base + 2, acc.acc2),
              (base + 3, acc.acc3)]⟩
        else none := by
  have a1 := int_add_some (show base + 1 ≤ 2147483647 by omega)
  have a2 := int_add_some (show base + 2 ≤ 2147483647 by omega)
  have a3 := int_add_some hm
  by_cases h : base + 3 < o.C_data.length
  · have h0 : base < o.C_data.length := by omega
    have h1 : base + 1 < o.C_data.length := by omega
    have h2 : base + 2 < o.C_data.length := by omega
    simp [write_tile, store, a1, a2, a3, h, h0, h1, h2]
  · simp only [write_tile, store, a1, a2, a3, h, if_false, Option.bind_eq_bind, Option.some_bind]
    by_cases h0 : base < o.C_data.length
    · by_cases h1 : base + 1 < o.C_data.length
      · by_cases h2 : base + 2 < o.C_data.length
        · simp [h0, h1, h2, h]
        · simp [h0, h1, h2]
      · simp [h0, h1]
    · simp [h0]

theorem write_tile_some {o o2 : out_state} {base : Nat} {acc : accumulators}
    (h : write_tile o base acc = some o2) :
    base + 3 < o.C_data.length ∧ o2.C_data.length = o.C_data.length
      ∧ o2.writes = o.writes ++ [(base, acc.acc0), (base + 1, acc.acc1), (base + 2, acc.acc2),
          (base + 3, acc.acc3)]
      ∧ o2.C_data[base]? = some acc.acc0 ∧ o2.C_data[base + 1]? = some acc.acc1
      ∧ o2.C_data[base + 2]? = some acc.acc2 ∧ o2.C_data[base + 3]? = some acc.acc3
      ∧ ∀ i, (i < base ∨ base + 4 ≤ i) → o2.C_data[i]? = o.C_data[i]? := by
  rw [write_tile_eq _ _ _ (write_tile_int h)] at h
  by_cases hb : base + 3 < o.C_data.length
  · simp only [hb, if_true, Option.some.injEq] at h
    subst h
    have h0 : base < o.C_data.length := by omega
    have h1 : base + 1 < o.C_data.length := by omega
    have h2 : base + 2 < o.C_data.length := by omega
    refine ⟨hb, by simp, rfl, ?_, ?_, ?_, ?_, ?_⟩
    · simp [List.getElem?_set, h0]
    · simp [List.getElem?_set, h1]
    · simp [List.getElem?_set, h2]
    · simp [List.getElem?_set, hb]
    · intro i hi
      have e0 : base ≠ i := by omega
      have e1 : base + 1 ≠ i := by omega
      have e2 : base + 2 ≠ i := by omega
      have e3 : base + 3 ≠ i := by omega
      simp [List.getElem?_set, e0, e1, e2, e3]
  · simp [hb] at h

theorem write_tile_of_lt (o : out_state) (base : Nat) (acc : accumulators)
    (h : base + 3 < o.C_data.length) (hm : base + 3 ≤ 2147483647) :
    ∃ o2, write_tile o base acc = some o2 ∧ o2.C_data.length = o.C_data.length := by
  rw [write_tile_eq _ _ _ hm]
  simp [h]

/-- What a finished pass of the loop over `col` is made of. -/
theorem col_body_eq_done {QM_x86 : Bool} {fuel : Nat} {p : matmul_params} {row : Nat}
    {st st2 : Nat × out_state} (h : col_body QM_x86 fuel p row st = .done st2) :
    ∃ r o, ch_loop QM_x86 fuel p row st.1 = .done r
      ∧ write_tile st.2 (row * p.C.column + st.1) r.2 = some o
      ∧ st2 = (st.1 + 4, o) ∧ st.1 + 4 ≤ 2147483647 := by
  simp only [col_body] at h
  obtain ⟨r, hr, h⟩ := Outcome.bind_eq_done h
  obtain ⟨o, ho, h⟩ := Outcome.bind_eq_done h
  obtain ⟨c2, hc2, h⟩ := Outcome.bind_eq_done h
  have ho := Outcome.ofOption_eq_done ho
  rw [Option.bind_eq_some] at ho
  obtain ⟨base, hb, hw⟩ := ho
  obtain ⟨eb, _⟩ := linear_index_eq_some hb
  obtain ⟨ec, hc⟩ := int_add_eq_some (Outcome.ofOption_eq_done hc2)
  simp only [Outcome.done.injEq] at h
  subst eb ec
  exact ⟨r, o, hr, hw, h.symm, hc⟩

theorem col_body_of_parts {QM_x86 : Bool} {fuel : Nat} {p : matmul_params} {row : Nat}
    {st : Nat × out_state} {r : Nat × accumulators} {o : out_state}
    (hr : ch_loop QM_x86 fuel p row st.1 = .done r)
    (hw : write_tile st.2 (row * p.C.column + st.1) r.2 = some o)
    (hc : st.1 + 4 ≤ 2147483647) :
    col_body QM_x86 fuel p row st = .done (st.1 + 4, o) := by
  have hb : row * p.C.column + st.1 ≤ 2147483647 := by
    have := write_tile_int hw
    omega
  simp only [col_body, hr, Outcome.bind_done, linear_index_some hb, Option.some_bind, hw,
    Outcome.ofOption_some, int_add_some hc]

/-- What a finished pass of the loop over `row` is made of. -/
theorem row_body_eq_done {QM_x86 : Bool} {fuel : Nat} {p : matmul_params}
    {st st2 : Nat × out_state} (h : row_body QM_x86 fuel p st = .done st2) :
    ∃ r, col_loop QM_x86 fuel p st.1 st.2 = .done r ∧ st2 = (st.1 + 1, r.2)
      ∧ st.1 + 1 ≤ 2147483647 := by
  simp only [row_body] at h
  obtain ⟨r, hr, h⟩ := Outcome.bind_eq_done h
  obtain ⟨r2, hr2, h⟩ := Outcome.bind_eq_done h
  obtain ⟨e, hc⟩ := int_add_eq_some (Outcome.ofOption_eq_done hr2)
  simp only [Outcome.done.injEq] at h
  subst e
  exact ⟨r, hr, h.symm, hc⟩

theorem row_body_of_parts {QM_x86 : Bool} {fuel : Nat} {p : matmul_params}
    {st r : Nat × out_state} (hr : col_loop QM_x86 fuel p st.1 st.2 = .done r)
    (hc : st.1 + 1 ≤ 2147483647) :
    row_body QM_x86 fuel p st = .done (st.1 + 1, r.2) := by
  simp only [row_body, hr, Outcome.bind_done, int_add_some hc, Outcome.ofOption_some]

theorem stored_value_eq (QM_x86 : Bool) (fuel : Nat) (p : matmul_params) (row col : Nat)
    (r : Nat × accumulators) (h4 : col % 4 = 0) (h : ch_loop QM_x86 fuel p row col = .done r) :
    stored_value QM_x86 fuel p row col = r.2.acc0
      ∧ stored_value QM_x86 fuel p row (col + 1) = r.2.acc1
      ∧ stored_value QM_x86 fuel p row (col + 2) = r.2.acc2
      ∧ stored_value QM_x86 fuel p row (col + 3) = r.2.acc3 := by
  have a0 : col / 4 * 4 = col := by omega
  have a1 : (col + 1) / 4 * 4 = col := by omega
  have a2 : (col + 2) / 4 * 4 = col := by omega
  have a3 : (col + 3) / 4 * 4 = col := by omega
  have b1 : (col + 1) % 4 = 1 := by omega
  have b2 : (col + 2) % 4 = 2 := by omega
  have b3 : (col + 3) % 4 = 3 := by omega
  simp only [stored_value, a0, a1, a2, a3, h, h4, b1, b2, b3, and_self]

theorem row_writes_add_four (QM_x86 : Bool) (fuel : Nat) (p : matmul_params) (row col : Nat) :
    row_writes QM_x86 fuel p row (col + 4)
      = row_writes QM_x86 fuel p row col
        ++ [(row * p.C.column + col, stored_value QM_x86 fuel p row col),
            (row * p.C.column + col + 1, stored_value QM_x86 fuel p row (col + 1)),
            (row * p.C.column + col + 2, stored_value QM_x86 fuel p row (col + 2)),
            (row * p.C.column + col + 3, stored_value QM_x86 fuel p row (col + 3))] := by
  simp [row_writes, List.range_succ, Nat.add_assoc]

theorem col_body_inv (QM_x86 : Bool) (fuel : Nat) (p : matmul_params) (row : Nat)
    (o0 : out_state) (hn : p.C.column % 4 = 0) (st st2 : Nat × out_state)
    (hi : col_inv QM_x86 fuel p row o0 st) (hc : st.1 < p.C.column)
    (hb : col_body QM_x86 fuel p row st = .done st2) :
    col_inv QM_x86 fuel p row o0 st2 := by
  obtain ⟨col, o⟩ := st
  obtain ⟨h4, hle, hlen, hval, hrest, hw⟩ := hi
  simp only at h4 hle hlen hval hrest hw hc
  obtain ⟨r, o2, hr, ho2, hb, _⟩ := col_body_eq_done hb
  simp only at hr ho2 hb
  subst hb
  obtain ⟨hbase, hlen2, hw2, g0, g1, g2, g3, gr⟩ := write_tile_some ho2
  obtain ⟨v0, v1, v2, v3⟩ := stored_value_eq QM_x86 fuel p row col r h4 hr
  refine ⟨by simp only; omega, by simp only; omega, by simp only; omega, ?_, ?_, ?_⟩
  · intro c hc2
    simp only at hc2 ⊢
    by_cases hlt : c < col
    · rw [gr _ (by omega)]
      exact hval c hlt
    · have hcases : c = col ∨ c = col + 1 ∨ c = col + 2 ∨ c = col + 3 := by omega
      rcases hcases with h | h | h | h <;> subst h
      · rw [g0, v0]
      · rw [← Nat.add_assoc, g1, v1]
      · rw [← Nat.add_assoc, g2, v2]
      · rw [← Nat.add_assoc, g3, v3]
  · intro i hi2
    simp only at hi2 ⊢
    rw [gr i (by omega)]
    exact hrest i (by omega)
  · simp only
    rw [hw2, hw, row_writes_add_four, v0, v1, v2, v3, List.append_assoc]

theorem col_loop_partial (QM_x86 : Bool) (fuel : Nat) (p : matmul_params) (row : Nat)
    (o0 : out_state) (r : Nat × out_state) (hn : p.C.column % 4 = 0)
    (h : col_loop QM_x86 fuel p row o0 = .done r) :
    col_inv QM_x86 fuel p row o0 r ∧ r.1 = p.C.column := by
  obtain ⟨hi, hc⟩ := loop_partial (fun s : Nat × out_state => decide (s.1 < p.C.column))
    (col_body QM_x86 fuel p row) (col_inv QM_x86 fuel p row o0)
    (fun st st2 hi hc hb =>
      col_body_inv QM_x86 fuel p row o0 hn st st2 hi (by simpa using hc) hb)
    fuel (0, o0) r
    ⟨rfl, Nat.zero_le _, rfl, fun c hc => absurd hc (Nat.not_lt_zero c), fun _ _ => rfl,
      by simp [row_writes]⟩
    h
  simp only [decide_eq_false_iff_not] at hc
  exact ⟨hi, by have := hi.2.1; omega⟩

theorem all_writes_succ (QM_x86 : Bool) (fuel : Nat) (p : matmul_params) (rows : Nat) :
    all_writes QM_x86 fuel p (rows + 1)
      = all_writes QM_x86 fuel p rows ++ row_writes QM_x86 fuel p rows p.C.column := by
  simp [all_writes, List.range_succ, List.flatMap_append]

theorem row_body_inv (QM_x86 : Bool) (fuel : Nat) (p : matmul_params)
    (o0 : out_state) (hn : p.C.column % 4 = 0) (st st2 : Nat × out_state)
    (hi : row_inv QM_x86 fuel p o0 st) (hc : st.1 < p.C.row)
    (hb : row_body QM_x86 fuel p st = .done st2) :
    row_inv QM_x86 fuel p o0 st2 := by
  obtain ⟨row, o⟩ := st
  obtain ⟨hle, hlen, hval, hrest, hw⟩ := hi
  simp only at hle hlen hval hrest hw hc
  obtain ⟨r, hr, hb, _⟩ := row_body_eq_done hb
  simp only at hr hb
  subst hb
  obtain ⟨⟨_, _, clen, cval, crest, cw⟩, hr1⟩ := col_loop_partial QM_x86 fuel p row o r hn hr
  rw [hr1] at cval crest cw
  have hsucc : (row + 1) * p.C.column = row * p.C.column + p.C.column := by ring
  refine ⟨by simp only; omega, by simp only; omega, ?_, ?_, ?_⟩
  · intro r2 c hr2 hc2
    simp only at hr2 ⊢
    by_cases hlt : r2 < row
    · have := succ_mul_le_of_lt p.C.column hlt
      rw [crest _ (by omega)]
      exact hval r2 c hlt hc2
    · have : r2 = row := by omega
      subst this
      exact cval c (by omega)
  · intro i hi2
    simp only at hi2 ⊢
    rw [crest i (by omega)]
    exact hrest i (by omega)
  · simp only
    rw [cw, hw, all_writes_succ, List.append_assoc]

theorem accumulate_partial (QM_x86 : Bool) (fuel : Nat) (p : matmul_params)
    (o0 : out_state) (r : Nat × out_state) (hn : p.C.column % 4 = 0)
    (h : accumulate QM_x86 fuel p o0 = .done r) :
    row_inv QM_x86 fuel p o0 r ∧ r.1 = p.C.row := by
  obtain ⟨hi, hc⟩ := loop_partial (fun s : Nat × out_state => decide (s.1 < p.C.row))
    (row_body QM_x86 fuel p) (row_inv QM_x86 fuel p o0)
    (fun st st2 hi hc hb =>
      row_body_inv QM_x86 fuel p o0 hn st st2 hi (by simpa using hc) hb)
    fuel (0, o0) r
    ⟨Nat.zero_le _, rfl, fun r c hr => absurd hr (Nat.not_lt_zero r), fun _ _ => rfl,
      by simp [all_writes]⟩
    h
  simp only [decide_eq_false_iff_not] at hc
  exact ⟨hi, by have := hi.1; omega⟩

/-! ## The accumulation pass ends without a fault -/

theorem col_loop_done (fuel : Nat) (p : matmul_params) (row t : Nat) (o : out_state)
    (hfit : read_buffers_fit p) (hsz : int_sized p) (hk : p.A.column = 64 * t)
    (hn : p.C.column % 4 = 0)
    (hf : 32 ≤ fuel) (hft : t ≤ fuel) (hfn : p.C.column ≤ fuel)
    (hrow : row < p.C.row) (hlen : p.C.row * p.C.column ≤ o.C_data.length) :
    ∃ r, col_loop true fuel p row o = .done r ∧ r.2.C_data.length = o.C_data.length := by
  obtain ⟨r, hl, ⟨_, hlen2⟩, _⟩ := loop_total
    (fun s : Nat × out_state => decide (s.1 < p.C.column)) (col_body true fuel p row)
    (fun st => st.1 % 4 = 0 ∧ st.2.C_data.length = o.C_data.length)
    (fun st => p.C.column - st.1)
    (by
      rintro ⟨col, o1⟩ ⟨h4, hl1⟩ hc
      simp only [decide_eq_true_eq] at hc
      simp only at h4 hl1
      have hcol : col + 3 < p.C.column := by omega
      have hr := succ_mul_le_of_lt p.C.column hrow
      have hb : row * p.C.column + col + 3 < o1.C_data.length := by omega
      have hmn := hsz.2.2.2
      obtain ⟨o2, ho2, hl2⟩ := write_tile_of_lt o1 (row * p.C.column + col)
        (tile_acc p row col t) hb (by omega)
      have hn4 : p.C.column ≤ p.C.row * p.C.column := Nat.le_mul_of_pos_left _ (by omega)
      refine ⟨(col + 4, o2), ?_, ⟨by simp only; omega, by simp only; omega⟩,
        by simp only; omega⟩
      exact col_body_of_parts (ch_loop_eq fuel p row col t hfit hsz hk hf hft hrow hcol) ho2
        (by simp only; omega))
    fuel (0, o) ⟨rfl, rfl⟩ (by simpa using hfn)
  exact ⟨r, hl, hlen2⟩

theorem accumulate_done (fuel : Nat) (p : matmul_params) (t : Nat) (o : out_state)
    (hfit : read_buffers_fit p) (hsz : int_sized p) (hk : p.A.column = 64 * t)
    (hn : p.C.column % 4 = 0)
    (hf : 32 ≤ fuel) (hft : t ≤ fuel) (hfn : p.C.column ≤ fuel) (hfm : p.C.row ≤ fuel)
    (hlen : p.C.row * p.C.column ≤ o.C_data.length) :
    ∃ r, accumulate true fuel p o = .done r := by
  obtain ⟨r, hl, _, _⟩ := loop_total
    (fun s : Nat × out_state => decide (s.1 < p.C.row)) (row_body true fuel p)
    (fun st => st.2.C_data.length = o.C_data.length)
    (fun st => p.C.row - st.1)
    (by
      rintro ⟨row, o1⟩ hl1 hc
      simp only [decide_eq_true_eq] at hc
      simp only at hl1
      obtain ⟨r, hr, hrl⟩ := col_loop_done fuel p row t o1 hfit hsz hk hn hf hft hfn hc
        (by omega)
      have hm := hsz.1
      refine ⟨(row + 1, r.2), ?_, by simp only; omega, by simp only; omega⟩
      exact row_body_of_parts hr (by simp only; omega))
    fuel (0, o) rfl (by simpa using hfm)
  exact ⟨r, hl⟩

theorem stored_value_eq_tile_sum (fuel : Nat) (p : matmul_params) (row c t : Nat)
    (hfit : read_buffers_fit p) (hsz : int_sized p) (hk : p.A.column = 64 * t)
    (hn : p.C.column % 4 = 0)
    (hf : 32 ≤ fuel) (hft : t ≤ fuel) (hrow : row < p.C.row) (hc : c < p.C.column) :
    stored_value true fuel p row c = tile_sum p row c t := by
  have hcol : c / 4 * 4 + 3 < p.C.column := by omega
  have h := ch_loop_eq fuel p row (c / 4 * 4) t hfit hsz hk hf hft hrow hcol
  have hcases : c % 4 = 0 ∨ c % 4 = 1 ∨ c % 4 = 2 ∨ c % 4 = 3 := by omega
  simp only [stored_value, h, tile_acc]
  rcases hcases with h4 | h4 | h4 | h4 <;> simp only [h4] <;> congr 1 <;> omega

/-! ## The quantization pass -/

theorem quantize_block_length (xs : List ℚ) : (quantize_block xs).length = xs.length := by
  simp [quantize_block]

theorem blocks_of_length (block_size : Nat) (num_block : Nat) (xs : List ℚ) :
    (blocks_of block_size num_block xs).length = num_block := by
  induction num_block generalizing xs with
  | zero => rfl
  | succ n ih => simp [blocks_of, ih]

theorem quantized_length (block_size : Nat) (num_block : Nat) (xs : List ℚ)
    (h : num_block * block_size ≤ xs.length) :
    ((blocks_of block_size num_block xs).map quantize_block).flatten.length
      = num_block * block_size := by
  induction num_block generalizing xs with
  | zero => simp [blocks_of]
  | succ n ih =>
    have hs : (n + 1) * block_size = n * block_size + block_size := by ring
    have h1 : block_size ≤ xs.length := by omega
    have h2 : n * block_size ≤ (xs.drop block_size).length := by
      rw [List.length_drop]; omega
    simp only [blocks_of, List.map_cons, List.flatten_cons, List.length_append,
      quantize_block_length, List.length_take, ih _ h2]
    omega

theorem quantize_fp32_to_int8_some {A : List ℚ} {qA : List ℤ} {sA : List ℚ}
    {size block_size : Nat} {q : List ℤ × List ℚ}
    (h : quantize_fp32_to_int8 A qA sA size block_size = some q) :
    q.1.length = qA.length ∧ q.2.length = sA.length
      ∧ quantize_fp32_to_int8 A q.1 q.2 size block_size = some q := by
  unfold quantize_fp32_to_int8 at h ⊢
  by_cases hb : block_size = 0
  · simp [hb] at h
  · simp only [hb, if_false] at h ⊢
    by_cases hc : size / block_size * block_size ≤ A.length
        ∧ size / block_size * block_size ≤ qA.length ∧ size / block_size ≤ sA.length
    · simp only [hc, and_self, if_true, Option.some.injEq] at h
      obtain ⟨hA, hq, hs⟩ := hc
      have hQ := quantized_length block_size (size / block_size) A hA
      have hS : ((blocks_of block_size (size / block_size) A).map block_scale).length
          = size / block_size := by
        simp [blocks_of_length]
      subst h
      have l1 : (((blocks_of block_size (size / block_size) A).map quantize_block).flatten
          ++ qA.drop (size / block_size * block_size)).length = qA.length := by
        rw [List.length_append, hQ, List.length_drop]; omega
      have l2 : ((blocks_of block_size (size / block_size) A).map block_scale
          ++ sA.drop (size / block_size)).length = sA.length := by
        rw [List.length_append, hS, List.length_drop]; omega
      refine ⟨l1, l2, ?_⟩
      simp only
      rw [if_pos ⟨hA, by rw [l1]; exact hq, by rw [l2]; exact hs⟩]
      congr 2
      · congr 1
        rw [← hQ, List.drop_left]
      · congr 1
        have := @List.drop_left _ ((blocks_of block_size (size / block_size) A).map block_scale)
          (sA.drop (size / block_size))
        rw [hS] at this
        exact this
    · simp [hc] at h

theorem quantize_fp32_to_int8_total (A : List ℚ) (qA : List ℤ) (sA : List ℚ)
    (size block_size : Nat) (hb : block_size ≠ 0)
    (hA : size / block_size * block_size ≤ A.length)
    (hq : size / block_size * block_size ≤ qA.length) (hs : size / block_size ≤ sA.length) :
    ∃ q, quantize_fp32_to_int8 A qA sA size block_size = some q := by
  unfold quantize_fp32_to_int8
  simp [hb, hA, hq, hs]

/-! ## The strides add up to the block sum -/

theorem foldl_add_range {α : Type} [AddCommMonoid α] (f : Nat → α) (n : Nat) (a : α) :
    (List.range n).foldl (fun acc i => acc + f i) a = a + ∑ i in Finset.range n, f i := by
  induction n with
  | zero => simp
  | succ n ih => simp [List.range_succ, List.foldl_append, ih, Finset.sum_range_succ, add_assoc]

theorem reference_entry_eq (p : matmul_params) (r c : Nat) :
    reference_entry p r c = block_sum p r c := by
  simp only [reference_entry, block_sum, block_dot, foldl_add_range, zero_add]

theorem sum_range_two_mul (f : Nat → ℚ) (t : Nat) :
    ∑ b in Finset.range (2 * t), f b = ∑ s in Finset.range t, (f (2 * s) + f (2 * s + 1)) := by
  induction t with
  | zero => simp
  | succ t ih =>
    have h : 2 * (t + 1) = 2 * t + 1 + 1 := by ring
    rw [h, Finset.sum_range_succ, Finset.sum_range_succ, ih, Finset.sum_range_succ, add_assoc]

theorem low_dot_eq_block_dot (p : matmul_params) (r c s t : Nat) (hk : p.A.column = 64 * t) :
    low_dot 32 p.A.int8_data_ptr p.B.int4_data_ptr (r * p.A.column + 64 * s)
      ((c * p.A.column + 64 * s) / 2) = block_dot p r c (2 * s) := by
  have hc : c * p.A.column = 64 * (c * t) := by rw [hk]; ring
  unfold low_dot block_dot
  apply Finset.sum_congr rfl
  intro i hi
  have hi := Finset.mem_range.mp hi
  have e1 : r * p.A.column + 64 * s + i = r * p.A.column + (32 * (2 * s) + i) := by omega
  have e2 : c * p.A.column / 2 + 32 * ((32 * (2 * s) + i) / 64) + (32 * (2 * s) + i) % 32
      = (c * p.A.column + 64 * s) / 2 + i := by omega
  have e3 : (32 * (2 * s) + i) % 64 < 32 := by omega
  simp only [logical_weight, e1, e2, e3, if_true]

theorem high_dot_eq_block_dot (p : matmul_params) (r c s t : Nat) (hk : p.A.column = 64 * t) :
    high_dot 32 p.A.int8_data_ptr p.B.int4_data_ptr (r * p.A.column + 64 * s)
      ((c * p.A.column + 64 * s) / 2) = block_dot p r c (2 * s + 1) := by
  have hc : c * p.A.column = 64 * (c * t) := by rw [hk]; ring
  unfold high_dot block_dot
  apply Finset.sum_congr rfl
  intro i hi
  have hi := Finset.mem_range.mp hi
  have e1 : r * p.A.column + 64 * s + (i + 32) = r * p.A.column + (32 * (2 * s + 1) + i) := by
    omega
  have e2 : c * p.A.column / 2 + 32 * ((32 * (2 * s + 1) + i) / 64)
      + (32 * (2 * s + 1) + i) % 32 = (c * p.A.column + 64 * s) / 2 + i := by omega
  have e3 : ¬ (32 * (2 * s + 1) + i) % 64 < 32 := by omega
  simp only [logical_weight, e1, e2, e3, if_false]

theorem tile_sum_eq_block_sum (p : matmul_params) (r c t : Nat) (hk : p.A.column = 64 * t) :
    tile_sum p r c t = block_sum p r c := by
  have hk32 : p.A.column / 32 = 2 * t := by omega
  have hr : r * p.A.column = 32 * (r * (2 * t)) := by rw [hk]; ring
  have hc : c * p.A.column = 32 * (c * (2 * t)) := by rw [hk]; ring
  unfold tile_sum block_sum
  rw [hk32, sum_range_two_mul]
  apply Finset.sum_congr rfl
  intro s _
  have a1 : (r * p.A.column + 64 * s) / 32 = r * (2 * t) + 2 * s := by omega
  have a2 : (c * p.A.column + 64 * s) / 32 = c * (2 * t) + 2 * s := by omega
  simp only [stride_term, low_dot_eq_block_dot p r c s t hk, high_dot_eq_block_dot p r c s t hk,
    a1, a2, Nat.add_assoc]

/-! ## The kernel as a whole -/

/-- What a finished quantization pass is made of. -/
theorem quantize_pass_eq_some {p p1 : matmul_params} (h : quantize_pass p = some p1) :
    ∃ q, p.A.row * p.A.column ≤ 2147483647
      ∧ quantize_fp32_to_int8 p.A.data_ptr p.A.int8_data_ptr p.A_scales
          (p.A.row * p.A.column) p.block_size = some q
      ∧ { p with A := { p.A with int8_data_ptr := q.1 }, A_scales := q.2 } = p1 := by
  unfold quantize_pass at h
  rw [Option.bind_eq_some] at h
  obtain ⟨size, hs, h⟩ := h
  obtain ⟨e, hm⟩ := int_mul_eq_some hs
  subst e
  rw [Option.map_eq_some'] at h
  obtain ⟨q, hq, hp⟩ := h
  exact ⟨q, hm, hq, hp⟩

theorem quantize_pass_of_parts (p : matmul_params) {q : List ℤ × List ℚ}
    (hm : p.A.row * p.A.column ≤ 2147483647)
    (hq : quantize_fp32_to_int8 p.A.data_ptr p.A.int8_data_ptr p.A_scales
      (p.A.row * p.A.column) p.block_size = some q) :
    quantize_pass p
      = some { p with A := { p.A with int8_data_ptr := q.1 }, A_scales := q.2 } := by
  simp only [quantize_pass, int_mul_some hm, Option.some_bind, hq, Option.map_some']

theorem quantize_pass_some {p p1 : matmul_params} (h : quantize_pass p = some p1) :
    p1 = { p with A := { p.A with int8_data_ptr := p1.A.int8_data_ptr }, A_scales := p1.A_scales }
      ∧ p1.A.int8_data_ptr.length = p.A.int8_data_ptr.length
      ∧ p1.A_scales.length = p.A_scales.length
      ∧ quantize_pass p1 = some p1 := by
  obtain ⟨q, hm, hq, hp⟩ := quantize_pass_eq_some h
  obtain ⟨l1, l2, hidem⟩ := quantize_fp32_to_int8_some hq
  subst hp
  refine ⟨rfl, l1, l2, ?_⟩
  exact quantize_pass_of_parts _ hm hidem

theorem quantize_pass_total (p : matmul_params) (hb : p.block_size ≠ 0)
    (hm : p.A.row * p.A.column ≤ 2147483647)
    (hA : p.A.row * p.A.column ≤ p.A.data_ptr.length)
    (hq : p.A.row * p.A.column ≤ p.A.int8_data_ptr.length)
    (hs : p.A.row * p.A.column / p.block_size ≤ p.A_scales.length) :
    ∃ p1, quantize_pass p = some p1 := by
  have hle := Nat.div_mul_le_self (p.A.row * p.A.column) p.block_size
  obtain ⟨q, hq⟩ := quantize_fp32_to_int8_total p.A.data_ptr p.A.int8_data_ptr p.A_scales
    (p.A.row * p.A.column) p.block_size hb (by omega) (by omega) hs
  exact ⟨{ p with A := { p.A with int8_data_ptr := q.1 }, A_scales := q.2 },
    quantize_pass_of_parts p hm hq⟩

theorem kernel_done {QM_x86 : Bool} {fuel : Nat} {p : matmul_params} {r : kernel_result}
    (h : mat_mul_loop_unrolling QM_x86 fuel p = .done r) :
    ∃ p1 a, quantize_pass p = some p1
      ∧ accumulate QM_x86 fuel p1 ⟨p1.C.data_ptr, []⟩ = .done a
      ∧ r = ⟨{ p1 with C := { p1.C with data_ptr := a.2.C_data } }, a.2.writes⟩ := by
  unfold mat_mul_loop_unrolling at h
  obtain ⟨p1, h1, h⟩ := Outcome.bind_eq_done h
  obtain ⟨a, h2, h⟩ := Outcome.bind_eq_done h
  simp only [Outcome.done.injEq] at h
  exact ⟨p1, a, Outcome.ofOption_eq_done h1, h2, h.symm⟩

theorem kernel_of_parts {QM_x86 : Bool} {fuel : Nat} {p p1 : matmul_params}
    {a : Nat × out_state} (h1 : quantize_pass p = some p1)
    (h2 : accumulate QM_x86 fuel p1 ⟨p1.C.data_ptr, []⟩ = .done a) :
    mat_mul_loop_unrolling QM_x86 fuel p
      = .done ⟨{ p1 with C := { p1.C with data_ptr := a.2.C_data } }, a.2.writes⟩ := by
  simp only [mat_mul_loop_unrolling, h1, Outcome.ofOption_some, Outcome.bind_done, h2]

theorem accumulate_ignores_C_data (QM_x86 : Bool) (fuel : Nat) (p : matmul_params)
    (x : List ℚ) (o : out_state) :
    accumulate QM_x86 fuel { p with C := { p.C with data_ptr := x } } o
      = accumulate QM_x86 fuel p o := rfl

/-- The facts about the parameters after the quantization pass that the
accumulation pass needs. -/
theorem fit_after_quantize {p p1 : matmul_params} (hwf : data_model_invariants p)
    (hbs : p.block_size = 32) (h : quantize_pass p = some p1) :
    read_buffers_fit p1 ∧ p1.C = p.C ∧ p1.A.column = p.A.column ∧ p1.A.row = p.A.row
      ∧ p1.B = p.B ∧ p1.scales = p.scales := by
  obtain ⟨hp1, l1, l2, _⟩ := quantize_pass_some h
  obtain ⟨h1, h2, h3, h4, h5, h6, h7, h8, h9, h10, h11⟩ := hwf
  have eC : p1.C = p.C := by rw [hp1]
  have eB : p1.B = p.B := by rw [hp1]
  have eS : p1.scales = p.scales := by rw [hp1]
  have ek : p1.A.column = p.A.column := by rw [hp1]
  have er : p1.A.row = p.A.row := by rw [hp1]
  have eb : p1.block_size = p.block_size := by rw [hp1]
  refine ⟨⟨by rw [eb, hbs], ?_, ?_, ?_, ?_⟩, eC, ek, er, eB, eS⟩
  · rw [l1, h7, eC, ek, h2]
  · rw [eB, h8, eC, ek, h3]
  · rw [l2, h9, eC, ek, h2, hbs]
  · rw [eS, h10, eC, ek, h3, hbs]

theorem kernel_total (p : matmul_params) (fuel : Nat) (hwf : data_model_invariants p)
    (hbs : p.block_size = 32) (h64 : p.A.column % 64 = 0) (hsz : int_sized p) (hf : 32 ≤ fuel)
    (hfk : p.A.column ≤ fuel) (hfm : p.C.row ≤ fuel) (hfn : p.C.column ≤ fuel) :
    ∃ r, mat_mul_loop_unrolling true fuel p = .done r
      ∧ quantize_pass p = some { r.params with C := p.C }
      ∧ r.params.C.row = p.C.row ∧ r.params.C.column = p.C.column
      ∧ r.params.A.column = p.A.column
      ∧ r.params.C.data_ptr.length = p.C.data_ptr.length
      ∧ (∀ row c, row < p.C.row → c < p.C.column →
          r.params.C.data_ptr[row * p.C.column + c]? = some (block_sum r.params row c)) := by
  have hwf2 := hwf
  obtain ⟨h1, h2, h3, h4, h5, h6, h7, h8, h9, h10, h11⟩ := hwf2
  obtain ⟨p1, hq⟩ := quantize_pass_total p (by omega) (by rw [← h2]; exact hsz.2.1) (by omega)
    (by omega) (by omega)
  obtain ⟨hfit, eC, ek, er, eB, eS⟩ := fit_after_quantize hwf hbs hq
  have hsz1 : int_sized p1 := by
    unfold int_sized at hsz ⊢
    rw [eC, ek]
    exact hsz
  have hk : p1.A.column = 64 * (p1.A.column / 64) := by omega
  have hn : p1.C.column % 4 = 0 := by rw [eC]; exact h5
  obtain ⟨a, ha⟩ := accumulate_done fuel p1 (p1.A.column / 64) ⟨p1.C.data_ptr, []⟩ hfit hsz1
    hk hn hf
    (by omega) (by rw [eC]; exact hfn) (by rw [eC]; exact hfm)
    (by rw [eC]; exact Nat.le_of_eq h11.symm)
  obtain ⟨⟨_, hlen, hval, _, _⟩, ha1⟩ := accumulate_partial true fuel p1 _ a hn ha
  rw [ha1] at hval
  refine ⟨_, kernel_of_parts hq ha, by rw [hq, ← eC], by rw [← eC], by rw [← eC], ek, ?_, ?_⟩
  · simp only [hlen, eC]
  · intro row c hrow hc
    rw [← eC] at hrow hc ⊢
    have hv := hval row c hrow hc
    rw [stored_value_eq_tile_sum fuel p1 row c (p1.A.column / 64) hfit hsz1 hk hn hf (by omega)
      hrow hc, tile_sum_eq_block_sum p1 row c _ hk] at hv
    exact hv

/-! ## The loops end -/

theorem mac_loop_ne_out_of_fuel (fuel : Nat) (a8 : List ℤ) (w4 : List (Fin 256))
    (a w0 w1 w2 w3 : Nat) (hf : 32 ≤ fuel) :
    mac_loop fuel a8 w4 a w0 w1 w2 w3 ≠ .out_of_fuel := by
  unfold mac_loop
  apply loop_ne_out_of_fuel _ _ (fun s => 32 - s.1)
  · intro s hc
    simp only [decide_eq_true_eq] at hc
    omega
  · intro s s2 hc hb
    simp only [decide_eq_true_eq] at hc
    obtain ⟨x, _, hx⟩ := Outcome.bind_eq_done hb
    simp only [Outcome.done.injEq] at hx
    subst hx
    simp only
    omega
  · intro s _
    exact Outcome.bind_ne_out_of_fuel (Outcome.ofOption_ne_out_of_fuel _) (fun _ _ => by simp)
  · simpa using hf

theorem ch_body_step {fuel : Nat} {p : matmul_params} {row col : Nat}
    {st st2 : Nat × accumulators} (h : ch_body true fuel p row col st = .done st2) :
    st2.1 = st.1 + p.block_size * 2 := by
  simp only [ch_body, if_true] at h
  obtain ⟨_, _, h⟩ := Outcome.bind_eq_done h
  obtain ⟨_, _, h⟩ := Outcome.bind_eq_done h
  obtain ⟨_, _, h⟩ := Outcome.bind_eq_done h
  obtain ⟨_, _, h⟩ := Outcome.bind_eq_done h
  obtain ⟨c2, hc2, h⟩ := Outcome.bind_eq_done h
  have hc2 := Outcome.ofOption_eq_done hc2
  rw [Option.bind_eq_some] at hc2
  obtain ⟨step, h1, h2⟩ := hc2
  obtain ⟨e1, _⟩ := int_mul_eq_some h1
  obtain ⟨e2, _⟩ := int_add_eq_some h2
  simp only [Outcome.done.injEq] at h
  rw [← h, e2, e1]

theorem ch_body_ne_out_of_fuel (fuel : Nat) (p : matmul_params) (row col : Nat)
    (st : Nat × accumulators) (hf : 32 ≤ fuel) :
    ch_body true fuel p row col st ≠ .out_of_fuel := by
  simp only [ch_body, if_true]
  apply Outcome.bind_ne_out_of_fuel (Outcome.ofOption_ne_out_of_fuel _)
  intro _ _
  apply Outcome.bind_ne_out_of_fuel (Outcome.ofOption_ne_out_of_fuel _)
  intro _ _
  apply Outcome.bind_ne_out_of_fuel (Outcome.ofOption_ne_out_of_fuel _)
  intro _ _
  apply Outcome.bind_ne_out_of_fuel (mac_loop_ne_out_of_fuel fuel _ _ _ _ _ _ _ hf)
  intro _ _
  apply Outcome.bind_ne_out_of_fuel (Outcome.ofOption_ne_out_of_fuel _)
  intro _ _
  simp

theorem ch_loop_ne_out_of_fuel (fuel : Nat) (p : matmul_params) (row col : Nat)
    (hb : 1 ≤ p.block_size) (hf : 32 ≤ fuel) (hfk : p.A.column ≤ fuel) :
    ch_loop true fuel p row col ≠ .out_of_fuel := by
  unfold ch_loop
  apply loop_ne_out_of_fuel _ _ (fun s => p.A.column - s.1)
  · intro s hc
    simp only [decide_eq_true_eq] at hc
    omega
  · intro s s2 hc h
    simp only [decide_eq_true_eq] at hc
    have := ch_body_step h
    omega
  · intro s _
    exact ch_body_ne_out_of_fuel fuel p row col s hf
  · simpa using hfk

theorem col_loop_ne_out_of_fuel (fuel : Nat) (p : matmul_params) (row : Nat) (o : out_state)
    (hb : 1 ≤ p.block_size) (hf : 32 ≤ fuel) (hfk : p.A.column ≤ fuel)
    (hfn : p.C.column ≤ fuel) :
    col_loop true fuel p row o ≠ .out_of_fuel := by
  unfold col_loop
  apply loop_ne_out_of_fuel _ _ (fun s => p.C.column - s.1)
  · intro s hc
    simp only [decide_eq_true_eq] at hc
    omega
  · intro s s2 hc h
    simp only [decide_eq_true_eq] at hc
    obtain ⟨_, _, _, _, h, _⟩ := col_body_eq_done h
    subst h
    simp only
    omega
  · intro s _
    simp only [col_body]
    apply Outcome.bind_ne_out_of_fuel (ch_loop_ne_out_of_fuel fuel p row s.1 hb hf hfk)
    intro _ _
    apply Outcome.bind_ne_out_of_fuel (Outcome.ofOption_ne_out_of_fuel _)
    intro _ _
    apply Outcome.bind_ne_out_of_fuel (Outcome.ofOption_ne_out_of_fuel _)
    intro _ _
    simp
  · simpa using hfn

theorem accumulate_ne_out_of_fuel (fuel : Nat) (p : matmul_params) (o : out_state)
    (hb : 1 ≤ p.block_size) (hf : 32 ≤ fuel) (hfk : p.A.column ≤ fuel)
    (hfn : p.C.column ≤ fuel) (hfm : p.C.row ≤ fuel) :
    accumulate true fuel p o ≠ .out_of_fuel := by
  unfold accumulate
  apply loop_ne_out_of_fuel _ _ (fun s => p.C.row - s.1)
  · intro s hc
    simp only [decide_eq_true_eq] at hc
    omega
  · intro s s2 hc h
    simp only [decide_eq_true_eq] at hc
    obtain ⟨_, _, h, _⟩ := row_body_eq_done h
    subst h
    simp only
    omega
  · intro s _
    simp only [row_body]
    apply Outcome.bind_ne_out_of_fuel (col_loop_ne_out_of_fuel fuel p s.1 s.2 hb hf hfk hfn)
    intro _ _
    apply Outcome.bind_ne_out_of_fuel (Outcome.ofOption_ne_out_of_fuel _)
    intro _ _
    simp
  · simpa using hfm

theorem kernel_ne_out_of_fuel (fuel : Nat) (p : matmul_params)
    (hb : 1 ≤ p.block_size) (hf : 32 ≤ fuel) (hfk : p.A.column ≤ fuel)
    (hfn : p.C.column ≤ fuel) (hfm : p.C.row ≤ fuel) :
    mat_mul_loop_unrolling true fuel p ≠ .out_of_fuel := by
  unfold mat_mul_loop_unrolling
  apply Outcome.bind_ne_out_of_fuel (Outcome.ofOption_ne_out_of_fuel _)
  intro p1 h1
  obtain ⟨hp1, _, _, _⟩ := quantize_pass_some (Outcome.ofOption_eq_done h1)
  have eC : p1.C = p.C := by rw [hp1]
  have ek : p1.A.column = p.A.column := by rw [hp1]
  have eb : p1.block_size = p.block_size := by rw [hp1]
  apply Outcome.bind_ne_out_of_fuel
    (accumulate_ne_out_of_fuel fuel p1 _ (by omega) hf (by omega) (by rw [eC]; exact hfn)
      (by rw [eC]; exact hfm))
  intro _ _
  simp

/-! ## A first stride that does not end -/

theorem loop_first {σ : Type} {cond : σ → Bool} {body : σ → Outcome σ} {fuel : Nat} {s s2 : σ}
    (h : loop cond body fuel s = .done s2) (hc : cond s = true) : ∃ s1, body s = .done s1 := by
  cases fuel with
  | zero => simp [loop, hc] at h
  | succ fuel =>
    simp only [loop, hc, if_true] at h
    obtain ⟨s1, h1, _⟩ := Outcome.bind_eq_done h
    exact ⟨s1, h1⟩

/-- The accumulation pass does not reach its end when the first stride of the
first tile overflows in its pointers or reads past a scale table. -/
theorem accumulate_not_done (fuel : Nat) (p : matmul_params) (o : out_state)
    (hm : 0 < p.C.row) (hn : 0 < p.C.column) (hk : 0 < p.A.column)
    (h : pointers p.A.column 0 0 0 = none ∨ second_scales p 0 0 0 = none)
    (a : Nat × out_state) :
    accumulate true fuel p o ≠ .done a := by
  intro ha
  obtain ⟨s1, h1⟩ := loop_first ha (by simpa using hm)
  obtain ⟨s2, h2, _⟩ := Outcome.bind_eq_done h1
  obtain ⟨s3, h3⟩ := loop_first h2 (by simpa using hn)
  obtain ⟨s4, h4, _⟩ := Outcome.bind_eq_done h3
  obtain ⟨s5, h5⟩ := loop_first h4 (by simpa using hk)
  simp only [ch_body, if_true] at h5
  obtain ⟨_, h6, h7⟩ := Outcome.bind_eq_done h5
  rcases h with h | h
  · rw [h] at h6
    simp at h6
  · obtain ⟨_, _, h8⟩ := Outcome.bind_eq_done h7
    rw [h] at h8
    simp at h8

theorem kernel_not_done (fuel : Nat) (p : matmul_params)
    (hm : 0 < p.C.row) (hn : 0 < p.C.column) (hk : 0 < p.A.column)
    (h : pointers p.A.column 0 0 0 = none ∨ ∀ x y, second_scales
      { p with A := { p.A with int8_data_ptr := x }, A_scales := y } 0 0 0 = none)
    (r : kernel_result) :
    mat_mul_loop_unrolling true fuel p ≠ .done r := by
  intro hr
  obtain ⟨p1, a, hq, ha, _⟩ := kernel_done hr
  obtain ⟨hp1, _, _, _⟩ := quantize_pass_some hq
  have eC : p1.C = p.C := by rw [hp1]
  have ek : p1.A.column = p.A.column := by rw [hp1]
  refine accumulate_not_done fuel p1 _ (by rw [eC]; exact hm) (by rw [eC]; exact hn)
    (by rw [ek]; exact hk) ?_ a ha
  rcases h with h | h
  · exact Or.inl (by rw [ek]; exact h)
  · refine Or.inr ?_
    rw [hp1]
    exact h _ _

theorem scenario_32_not_done (fuel : Nat) (r : kernel_result) :
    mat_mul_loop_unrolling true fuel scenario_32 ≠ .done r := by
  apply kernel_not_done fuel scenario_32 (by decide) (by decide) (by decide)
  refine Or.inr fun x y => ?_
  simp [second_scales, scale_of_next_block, block_index, int_div, linear_index, int_mul,
    int_add, int_val, scenario_32]

theorem fit_of_accumulation_invariants {p : matmul_params} (h : accumulation_invariants p) :
    read_buffers_fit p ∧ p.C.column % 4 = 0
      ∧ p.C.data_ptr.length = p.C.row * p.C.column := by
  obtain ⟨h1, h2, h3, h4, h5, h6, h7, h8, h9, h10, h11⟩ := h
  refine ⟨⟨h5, ?_, ?_, ?_, ?_⟩, h6, h11⟩
  · rw [h7, h2]
  · rw [h8, h3]
  · rw [h9, h2, h5]
  · rw [h10, h3, h5]

theorem ch_loop_exit {fuel : Nat} {p : matmul_params} {row col : Nat} {r : Nat × accumulators}
    (h : ch_loop true fuel p row col = .done r) : p.A.column ≤ r.1 := by
  obtain ⟨_, hc⟩ := loop_partial (fun s : Nat × accumulators => decide (s.1 < p.A.column))
    (ch_body true fuel p row col) (fun _ => True) (fun _ _ _ _ _ => trivial) fuel _ r trivial h
  simpa using hc

theorem quantized_32_not_done (fuel : Nat) (a : Nat × out_state) :
    accumulate true fuel quantized_32 ⟨quantized_32.C.data_ptr, []⟩ ≠ .done a :=
  accumulate_not_done fuel quantized_32 _ (by decide) (by decide) (by decide)
    (Or.inr (by simp [second_scales, scale_of_next_block, block_index, int_div, linear_index,
      int_mul, int_add, int_val, quantized_32])) a

theorem two_rows_32_not_done (fuel : Nat) (r : kernel_result) :
    mat_mul_loop_unrolling true fuel two_rows_32 ≠ .done r := by
  apply kernel_not_done fuel two_rows_32 (by decide) (by decide) (by decide)
  refine Or.inr fun x y => ?_
  simp [second_scales, scale_of_next_block, block_index, int_div, linear_index, int_mul,
    int_add, int_val, two_rows_32]

/-! ## The record of stores -/

theorem row_writes_fst (QM_x86 : Bool) (fuel : Nat) (p : matmul_params) (row cnt : Nat) :
    (row_writes QM_x86 fuel p row cnt).map Prod.fst
      = (List.range cnt).map fun c => row * p.C.column + c := by
  simp [row_writes, Function.comp_def]

theorem all_writes_fst (QM_x86 : Bool) (fuel : Nat) (p : matmul_params) (rows : Nat) :
    (all_writes QM_x86 fuel p rows).map Prod.fst = List.range (rows * p.C.column) := by
  induction rows with
  | zero => simp [all_writes]
  | succ rows ih =>
    have h : (rows + 1) * p.C.column = rows * p.C.column + p.C.column := by ring
    rw [all_writes_succ, List.map_append, ih, row_writes_fst, h, List.range_add]

theorem flat_index_iff (m n i : Nat) :
    i < m * n ↔ ∃ row c, row < m ∧ c < n ∧ i = row * n + c := by
  constructor
  · intro h
    have hn : 0 < n := by
      rcases Nat.eq_zero_or_pos n with h0 | h0
      · subst h0; simp at h
      · exact h0
    refine ⟨i / n, i % n, ?_, Nat.mod_lt _ hn, ?_⟩
    · exact (Nat.div_lt_iff_lt_mul hn).mpr h
    · rw [Nat.mul_comm]; exact (Nat.div_add_mod i n).symm
  · rintro ⟨row, c, hr, hc, rfl⟩
    have := succ_mul_le_of_lt n hr
    omega

/-! ## Two runs of the accumulation pass -/

/-- A loop started from two related states ends from both or from neither, in
related states, when the condition agrees on related states and the body keeps
them related. -/
theorem loop_sim_done {σ : Type} (cond : σ → Bool) (body : σ → Outcome σ) (R : σ → σ → Prop)
    (hc : ∀ s t, R s t → cond t = cond s)
    (hb : ∀ s t s2, R s t → cond s = true → body s = .done s2 →
      ∃ t2, body t = .done t2 ∧ R s2 t2) :
    ∀ fuel s t s2, R s t → loop cond body fuel s = .done s2 →
      ∃ t2, loop cond body fuel t = .done t2 ∧ R s2 t2 := by
  intro fuel
  induction fuel with
  | zero =>
    intro s t s2 hR h
    cases hcs : cond s with
    | false =>
      simp [loop, hcs] at h
      subst h
      exact ⟨t, by simp [loop, hc s t hR, hcs], hR⟩
    | true => simp [loop, hcs] at h
  | succ fuel ih =>
    intro s t s2 hR h
    cases hcs : cond s with
    | false =>
      simp [loop, hcs] at h
      subst h
      exact ⟨t, by simp [loop, hc s t hR, hcs], hR⟩
    | true =>
      simp only [loop, hcs, if_true] at h
      obtain ⟨s1, hb1, hl⟩ := Outcome.bind_eq_done h
      obtain ⟨t1, ht1, hR1⟩ := hb s t s1 hR hcs hb1
      obtain ⟨t2, ht2, hR2⟩ := ih s1 t1 s2 hR1 hl
      exact ⟨t2, by simp [loop, hc s t hR, hcs, ht1, ht2], hR2⟩

theorem col_loop_transfer (QM_x86 : Bool) (fuel : Nat) (p : matmul_params) (row : Nat)
    (o o2 : out_state) (r : Nat × out_state) (hlen : o.C_data.length = o2.C_data.length)
    (h : col_loop QM_x86 fuel p row o = .done r) :
    ∃ r2, col_loop QM_x86 fuel p row o2 = .done r2 ∧ same_shape r r2 := by
  refine loop_sim_done _ _ same_shape ?_ ?_ fuel (0, o) (0, o2) r ⟨rfl, hlen⟩ h
  · rintro ⟨c, s⟩ ⟨c2, s2⟩ ⟨h1, _⟩
    simp only at h1
    subst h1
    rfl
  · rintro ⟨c, s⟩ ⟨c2, t⟩ s2 ⟨h1, h2⟩ _ hb
    simp only at h1 h2
    subst h1
    obtain ⟨x, y, hx, hy, hb, hc4⟩ := col_body_eq_done hb
    simp only at hx hy hb hc4
    subst hb
    obtain ⟨hlt, hl2, _⟩ := write_tile_some hy
    obtain ⟨y2, hy2, hl3⟩ := write_tile_of_lt t (row * p.C.column + c) x.2 (by omega)
      (write_tile_int hy)
    exact ⟨(c + 4, y2), col_body_of_parts hx hy2 hc4, rfl, by simp only; omega⟩

theorem accumulate_transfer (QM_x86 : Bool) (fuel : Nat) (p : matmul_params)
    (o o2 : out_state) (r : Nat × out_state) (hlen : o.C_data.length = o2.C_data.length)
    (h : accumulate QM_x86 fuel p o = .done r) :
    ∃ r2, accumulate QM_x86 fuel p o2 = .done r2 := by
  obtain ⟨r2, h2, _⟩ := loop_sim_done (fun s : Nat × out_state => decide (s.1 < p.C.row))
    (row_body QM_x86 fuel p) same_shape
    (by
      rintro ⟨c, s⟩ ⟨c2, s2⟩ ⟨h1, _⟩
      simp only at h1
      subst h1
      rfl)
    (by
      rintro ⟨c, s⟩ ⟨c2, t⟩ s2 ⟨h1, h2⟩ _ hb
      simp only at h1 h2
      subst h1
      obtain ⟨x, hx, hb, hc1⟩ := row_body_eq_done hb
      simp only at hx hb hc1
      subst hb
      obtain ⟨x2, hx2, _, hs⟩ := col_loop_transfer QM_x86 fuel p c s t x h2 hx
      exact ⟨(c + 1, x2.2), row_body_of_parts hx2 hc1, rfl, hs⟩)
    fuel (0, o) (0, o2) r ⟨rfl, hlen⟩ h
  exact ⟨r2, h2⟩

/-! ## What a finished run leaves -/

theorem stored_value_ignores_C_data (QM_x86 : Bool) (fuel : Nat) (p : matmul_params)
    (x : List ℚ) (row c : Nat) :
    stored_value QM_x86 fuel { p with C := { p.C with data_ptr := x } } row c
      = stored_value QM_x86 fuel p row c := rfl

theorem all_writes_ignores_C_data (QM_x86 : Bool) (fuel : Nat) (p : matmul_params)
    (x : List ℚ) (rows : Nat) :
    all_writes QM_x86 fuel { p with C := { p.C with data_ptr := x } } rows
      = all_writes QM_x86 fuel p rows := rfl

theorem kernel_partial {QM_x86 : Bool} {fuel : Nat} {p : matmul_params} {r : kernel_result}
    (hn : p.C.column % 4 = 0) (h : mat_mul_loop_unrolling QM_x86 fuel p = .done r) :
    r.params.C.row = p.C.row ∧ r.params.C.column = p.C.column
      ∧ r.params.C.data_ptr.length = p.C.data_ptr.length
      ∧ r.writes = all_writes QM_x86 fuel r.params p.C.row
      ∧ (∀ row c, row < p.C.row → c < p.C.column →
          r.params.C.data_ptr[row * p.C.column + c]?
            = some (stored_value QM_x86 fuel r.params row c))
      ∧ (∀ i, p.C.row * p.C.column ≤ i → r.params.C.data_ptr[i]? = p.C.data_ptr[i]?) := by
  obtain ⟨p1, a, hq, ha, hr⟩ := kernel_done h
  obtain ⟨hp1, _, _, _⟩ := quantize_pass_some hq
  have eC : p1.C = p.C := by rw [hp1]
  obtain ⟨⟨_, hlen, hval, hrest, hw⟩, ha1⟩ := accumulate_partial QM_x86 fuel p1 _ a
    (by rw [eC]; exact hn) ha
  rw [ha1] at hval hrest hw
  subst hr
  simp only [stored_value_ignores_C_data, all_writes_ignores_C_data]
  rw [eC] at hval hrest hw hlen
  simp only [List.nil_append] at hw
  exact ⟨by rw [eC], by rw [eC], hlen, hw, hval, hrest⟩

theorem quantize_pass_with_C (p : matmul_params) (c : matrix) :
    quantize_pass { p with C := c } = (quantize_pass p).map fun q => { q with C := c } := by
  simp only [quantize_pass]
  cases int_mul p.A.row p.A.column with
  | none => rfl
  | some size =>
    simp only [Option.some_bind, Option.map_map]
    rfl

theorem kernel_idempotent {QM_x86 : Bool} {fuel : Nat} {p : matmul_params} {r : kernel_result}
    (hn : p.C.column % 4 = 0) (h : mat_mul_loop_unrolling QM_x86 fuel p = .done r) :
    mat_mul_loop_unrolling QM_x86 fuel r.params = .done r := by
  obtain ⟨p1, a, hq, ha, hr⟩ := kernel_done h
  obtain ⟨hp1, _, _, hq1⟩ := quantize_pass_some hq
  have eC : p1.C = p.C := by rw [hp1]
  have hn1 : p1.C.column % 4 = 0 := by rw [eC]; exact hn
  obtain ⟨⟨_, hlen, hval, hrest, hw⟩, ha1⟩ := accumulate_partial QM_x86 fuel p1 _ a hn1 ha
  -- the second run: its quantization pass changes nothing
  have hq2 : quantize_pass r.params = some r.params := by
    rw [hr]
    simp only
    rw [quantize_pass_with_C, hq1]
    rfl
  -- its accumulation pass ends, since the first one did
  obtain ⟨a2, ha2⟩ := accumulate_transfer QM_x86 fuel p1 ⟨p1.C.data_ptr, []⟩
    ⟨a.2.C_data, []⟩ a hlen.symm ha
  obtain ⟨⟨_, hlen2, hval2, hrest2, hw2⟩, ha21⟩ :=
    accumulate_partial QM_x86 fuel p1 _ a2 hn1 ha2
  rw [ha1] at hval hrest hw
  rw [ha21] at hval2 hrest2 hw2
  simp only [List.nil_append] at hw hw2
  have hC : a2.2.C_data = a.2.C_data := by
    apply List.ext_getElem?
    intro i
    by_cases hi : i < p1.C.row * p1.C.column
    · obtain ⟨row, c, hrow, hc, rfl⟩ := (flat_index_iff _ _ _).mp hi
      rw [hval row c hrow hc, hval2 row c hrow hc]
    · exact hrest2 i (by omega)
  have ha2' : accumulate QM_x86 fuel r.params ⟨r.params.C.data_ptr, []⟩ = .done a2 := by
    rw [hr]
    exact ha2
  rw [kernel_of_parts hq2 ha2', hC, hw2, ← hw]
  rw [hr]

theorem quantize_fp32_to_int8_indep {A : List ℚ} {qA : List ℤ} {sA : List ℚ}
    {size block_size : Nat} {q : List ℤ × List ℚ} (qA2 : List ℤ) (sA2 : List ℚ)
    (hq : qA.length = size / block_size * block_size) (hs : sA.length = size / block_size)
    (hq2 : qA2.length = qA.length) (hs2 : sA2.length = sA.length)
    (h : quantize_fp32_to_int8 A qA sA size block_size = some q) :
    quantize_fp32_to_int8 A qA2 sA2 size block_size = some q := by
  unfold quantize_fp32_to_int8 at h ⊢
  by_cases hb : block_size = 0
  · simp [hb] at h
  · simp only [hb, if_false] at h ⊢
    by_cases hc : size / block_size * block_size ≤ A.length
        ∧ size / block_size * block_size ≤ qA.length ∧ size / block_size ≤ sA.length
    · have hc2 : size / block_size * block_size ≤ A.length
          ∧ size / block_size * block_size ≤ qA2.length ∧ size / block_size ≤ sA2.length :=
        ⟨hc.1, by omega, by omega⟩
      simp only [hc, hc2, and_self, if_true, Option.some.injEq] at h ⊢
      have d1 : qA.drop (size / block_size * block_size) = [] :=
        List.drop_eq_nil_of_le (by omega)
      have d2 : sA.drop (size / block_size) = [] := List.drop_eq_nil_of_le (by omega)
      have d3 : qA2.drop (size / block_size * block_size) = [] :=
        List.drop_eq_nil_of_le (by omega)
      have d4 : sA2.drop (size / block_size) = [] := List.drop_eq_nil_of_le (by omega)
      rw [← h, d1, d2, d3, d4]
    · simp [hc] at h

theorem kernel_independent {QM_x86 : Bool} {fuel : Nat} {p : matmul_params} {r : kernel_result}
    (hwf : data_model_invariants p) (x : List ℤ) (y z : List ℚ)
    (hx : x.length = p.A.int8_data_ptr.length) (hy : y.length = p.A_scales.length)
    (hz : z.length = p.C.data_ptr.length)
    (h : mat_mul_loop_unrolling QM_x86 fuel p = .done r) :
    mat_mul_loop_unrolling QM_x86 fuel (with_buffers p x y z) = .done r := by
  obtain ⟨h1, h2, h3, h4, h5, h6, h7, h8, h9, h10, h11⟩ := hwf
  obtain ⟨p1, a, hq, ha, hr⟩ := kernel_done h
  obtain ⟨q, hmk, hq0, hp1⟩ := quantize_pass_eq_some hq
  -- the quantization pass overwrites the two activation buffers completely
  have hdvd : p.A.row * p.A.column / p.block_size * p.block_size = p.A.row * p.A.column :=
    Nat.div_mul_cancel (Dvd.dvd.mul_left (Nat.dvd_of_mod_eq_zero h4) _)
  have hq1 := quantize_fp32_to_int8_indep x y (by rw [h7, hdvd]) h9 hx hy hq0
  have hq2 : quantize_pass (with_buffers p x y z)
      = some { p1 with C := { p1.C with data_ptr := z } } := by
    rw [quantize_pass_of_parts (with_buffers p x y z) hmk hq1, ← hp1]
    rfl
  have eC : p1.C = p.C := by rw [← hp1]
  have hn1 : p1.C.column % 4 = 0 := by rw [eC]; exact h5
  obtain ⟨⟨_, hlen, hval, hrest, hw⟩, ha1⟩ := accumulate_partial QM_x86 fuel p1 _ a hn1 ha
  obtain ⟨a2, ha2⟩ := accumulate_transfer QM_x86 fuel p1 ⟨p1.C.data_ptr, []⟩ ⟨z, []⟩ a
    (by simp only; rw [eC, hz]) ha
  obtain ⟨⟨_, hlen2, hval2, hrest2, hw2⟩, ha21⟩ :=
    accumulate_partial QM_x86 fuel p1 _ a2 hn1 ha2
  rw [ha1] at hval hrest hw
  rw [ha21] at hval2 hrest2 hw2
  simp only [List.nil_append] at hw hw2
  simp only at hlen hlen2
  have hC : a2.2.C_data = a.2.C_data := by
    apply List.ext_getElem?
    intro i
    by_cases hi : i < p1.C.row * p1.C.column
    · obtain ⟨row, c, hrow, hc, rfl⟩ := (flat_index_iff _ _ _).mp hi
      rw [hval row c hrow hc, hval2 row c hrow hc]
    · rw [List.getElem?_eq_none (by rw [hlen2, hz, h11, ← eC]; omega),
        List.getElem?_eq_none (by rw [hlen, eC, h11, ← eC]; omega)]
  have ha2' : accumulate QM_x86 fuel { p1 with C := { p1.C with data_ptr := z } }
      ⟨({ p1 with C := { p1.C with data_ptr := z } } : matmul_params).C.data_ptr, []⟩
      = .done a2 := ha2
  rw [kernel_of_parts hq2 ha2', hC, hw2, ← hw, hr]

theorem col_body_writes {QM_x86 : Bool} {fuel : Nat} {p : matmul_params} {row : Nat}
    {st st2 : Nat × out_state} (h : col_body QM_x86 fuel p row st = .done st2) :
    ∃ acc : accumulators, st2.1 = st.1 + 4
      ∧ st2.2.writes = st.2.writes
          ++ [(row * p.C.column + st.1, acc.acc0), (row * p.C.column + st.1 + 1, acc.acc1),
              (row * p.C.column + st.1 + 2, acc.acc2), (row * p.C.column + st.1 + 3, acc.acc3)] := by
  obtain ⟨x, y, _, hy, h, _⟩ := col_body_eq_done h
  subst h
  obtain ⟨_, _, hw, _⟩ := write_tile_some hy
  exact ⟨x.2, rfl, hw⟩

theorem scenario_64_run :
    mat_mul_loop_unrolling true 64 scenario_64 = .done scenario_64_result := by
  decide!

/-! ## The range of the partial sums -/

theorem w_de_0_range (b : Fin 256) : -8 ≤ w_de_0 b ∧ w_de_0 b ≤ 7 := by
  have h := land_15_lt b.val
  rw [w_de_0_eq]
  omega

theorem w_de_16_range (b : Fin 256) : -8 ≤ w_de_16 b ∧ w_de_16 b ≤ 7 := by
  have h : b.val >>> 4 < 16 := by
    have := b.isLt
    rw [Nat.shiftRight_eq_div_pow]
    omega
  rw [w_de_16_eq]
  omega

theorem int8_mul_int4_range (a w : ℤ) (ha : -128 ≤ a ∧ a ≤ 127) (hw : -8 ≤ w ∧ w ≤ 7) :
    -1016 ≤ a * w ∧ a * w ≤ 1024 := by
  obtain ⟨ha1, ha2⟩ := ha
  obtain ⟨hw1, hw2⟩ := hw
  constructor <;> nlinarith

theorem mac_body_range (a8 : List ℤ) (w4 : List (Fin 256)) (a w0 w1 w2 w3 qj : Nat)
    (s s2 : partial_sums) (h8 : ∀ x ∈ a8, -128 ≤ x ∧ x ≤ 127) (lo hi : ℤ)
    (hs : sums_within lo hi s) (h : mac_body a8 w4 a w0 w1 w2 w3 qj s = some s2) :
    sums_within (lo - 1016) (hi + 1024) s2 := by
  simp only [mac_body, Option.pure_def, Option.bind_eq_bind, Option.bind_eq_some,
    Option.some.injEq] at h
  obtain ⟨b0, _, b1, _, b2, _, b3, _, x, hx, y, hy, h⟩ := h
  have hx := h8 x (List.getElem?_mem hx)
  have hy := h8 y (List.getElem?_mem hy)
  have p0 := int8_mul_int4_range x _ hx (w_de_0_range b0)
  have p1 := int8_mul_int4_range x _ hx (w_de_0_range b1)
  have p2 := int8_mul_int4_range x _ hx (w_de_0_range b2)
  have p3 := int8_mul_int4_range x _ hx (w_de_0_range b3)
  have q0 := int8_mul_int4_range y _ hy (w_de_16_range b0)
  have q1 := int8_mul_int4_range y _ hy (w_de_16_range b1)
  have q2 := int8_mul_int4_range y _ hy (w_de_16_range b2)
  have q3 := int8_mul_int4_range y _ hy (w_de_16_range b3)
  subst h
  obtain ⟨⟨_, _⟩, ⟨_, _⟩, ⟨_, _⟩, ⟨_, _⟩, ⟨_, _⟩, ⟨_, _⟩, ⟨_, _⟩, ⟨_, _⟩⟩ := hs
  simp only [sums_within]
  refine ⟨⟨?_, ?_⟩, ⟨?_, ?_⟩, ⟨?_, ?_⟩, ⟨?_, ?_⟩, ⟨?_, ?_⟩, ⟨?_, ?_⟩, ⟨?_, ?_⟩, ⟨?_, ?_⟩⟩ <;> omega

theorem mac_loop_range (fuel : Nat) (a8 : List ℤ) (w4 : List (Fin 256)) (a w0 w1 w2 w3 : Nat)
    (r : Nat × partial_sums) (h8 : ∀ x ∈ a8, -128 ≤ x ∧ x ≤ 127)
    (h : mac_loop fuel a8 w4 a w0 w1 w2 w3 = .done r) :
    r.1 = 32 ∧ sums_within (-32512) 32768 r.2 := by
  obtain ⟨⟨hle, hin⟩, hc⟩ := loop_partial (fun s : Nat × partial_sums => decide (s.1 < 32))
    (fun s => (Outcome.ofOption (mac_body a8 w4 a w0 w1 w2 w3 s.1 s.2)).bind
      fun s2 => .done (s.1 + 1, s2))
    (fun s => s.1 ≤ 32 ∧ sums_within (-(1016 * (s.1 : ℤ))) (1024 * (s.1 : ℤ)) s.2)
    (by
      rintro ⟨qj, s⟩ s2 ⟨hq, hs⟩ hc hb
      simp only [decide_eq_true_eq] at hc
      obtain ⟨x, hx, hb⟩ := Outcome.bind_eq_done hb
      simp only [Outcome.done.injEq] at hb
      subst hb
      have := mac_body_range a8 w4 a w0 w1 w2 w3 qj s x h8 _ _ hs (Outcome.ofOption_eq_done hx)
      refine ⟨by simp only; omega, ?_⟩
      have e1 : -(1016 * ((qj + 1 : Nat) : ℤ)) = -(1016 * (qj : ℤ)) - 1016 := by push_cast; ring
      have e2 : 1024 * ((qj + 1 : Nat) : ℤ) = 1024 * (qj : ℤ) + 1024 := by push_cast; ring
      simp only [e1, e2]
      exact this)
    fuel (0, ⟨0, 0, 0, 0, 0, 0, 0, 0⟩) r
    ⟨Nat.zero_le _, by simp [sums_within]⟩ h
  simp only [decide_eq_false_iff_not] at hc
  have h32 : r.1 = 32 := by omega
  rw [h32] at hin
  exact ⟨h32, by simpa using hin⟩

theorem int32_wrap_of_range (z : ℤ) (h1 : -32512 ≤ z) (h2 : z ≤ 32768) : int32_wrap z = z := by
  unfold int32_wrap
  omega

theorem sums_values_exact (s : partial_sums) (h : sums_within (-32512) 32768 s) :
    ∀ z ∈ sums_values s, int32_wrap z = z ∧ |z| < 16777216 := by
  obtain ⟨⟨_, _⟩, ⟨_, _⟩, ⟨_, _⟩, ⟨_, _⟩, ⟨_, _⟩, ⟨_, _⟩, ⟨_, _⟩, ⟨_, _⟩⟩ := h
  intro z hz
  simp only [sums_values, List.mem_cons, List.mem_singleton, List.not_mem_nil, or_false] at hz
  have hr : -32512 ≤ z ∧ z ≤ 32768 := by
    rcases hz with h | h | h | h | h | h | h | h <;> subst h <;> constructor <;> assumption
  exact ⟨int32_wrap_of_range z hr.1 hr.2, abs_lt.mpr ⟨by omega, by omega⟩⟩

/-! ## What the kernel leaves untouched -/

theorem kernel_frame {QM_x86 : Bool} {fuel : Nat} {p : matmul_params} {r : kernel_result}
    (h : mat_mul_loop_unrolling QM_x86 fuel p = .done r) :
    r.params = with_buffers p r.params.A.int8_data_ptr r.params.A_scales r.params.C.data_ptr := by
  obtain ⟨p1, a, hq, _, hr⟩ := kernel_done h
  obtain ⟨hp1, _, _, _⟩ := quantize_pass_some hq
  rw [hr]
  simp only [with_buffers]
  rw [hp1]

/-! ## The build without `QM_x86` -/

theorem loop_no_progress {σ : Type} (cond : σ → Bool) (body : σ → Outcome σ) (s : σ)
    (hc : cond s = true) (hb : ∀ s2, body s = .done s2 → s2 = s) (r : σ) :
    ∀ fuel, loop cond body fuel s ≠ .done r := by
  intro fuel
  induction fuel with
  | zero => simp [loop, hc]
  | succ fuel ih =>
    intro h
    simp only [loop, hc, if_true] at h
    obtain ⟨s1, h1, h2⟩ := Outcome.bind_eq_done h
    rw [hb s1 h1] at h2
    exact ih h2

theorem ch_body_sequential {fuel : Nat} {p : matmul_params} {row col : Nat}
    {st st2 : Nat × accumulators} (h : ch_body false fuel p row col st = .done st2) :
    st2 = st := by
  simp only [ch_body, Bool.false_eq_true, if_false] at h
  obtain ⟨_, _, h⟩ := Outcome.bind_eq_done h
  obtain ⟨_, _, h⟩ := Outcome.bind_eq_done h
  simp only [Outcome.done.injEq] at h
  exact h.symm

theorem ch_loop_sequential_not_done (fuel : Nat) (p : matmul_params) (row col : Nat)
    (hk : 0 < p.A.column) (r : Nat × accumulators) :
    ch_loop false fuel p row col ≠ .done r :=
  loop_no_progress _ _ _ (by simpa using hk) (fun _ h => ch_body_sequential h) r fuel

theorem accumulate_sequential_not_done (fuel : Nat) (p : matmul_params) (o : out_state)
    (hm : 0 < p.C.row) (hn : 0 < p.C.column) (hk : 0 < p.A.column) (a : Nat × out_state) :
    accumulate false fuel p o ≠ .done a := by
  intro ha
  obtain ⟨s1, h1⟩ := loop_first ha (by simpa using hm)
  obtain ⟨s2, h2, _⟩ := Outcome.bind_eq_done h1
  obtain ⟨s3, h3⟩ := loop_first h2 (by simpa using hn)
  obtain ⟨s4, h4, _⟩ := Outcome.bind_eq_done h3
  exact ch_loop_sequential_not_done fuel p _ _ hk s4 h4

theorem kernel_sequential_not_done (fuel : Nat) (p : matmul_params)
    (hm : 0 < p.C.row) (hn : 0 < p.C.column) (hk : 0 < p.A.column) (r : kernel_result) :
    mat_mul_loop_unrolling false fuel p ≠ .done r := by
  intro hr
  obtain ⟨p1, a, hq, ha, _⟩ := kernel_done hr
  obtain ⟨hp1, _, _, _⟩ := quantize_pass_some hq
  have eC : p1.C = p.C := by rw [hp1]
  have ek : p1.A.column = p.A.column := by rw [hp1]
  exact accumulate_sequential_not_done fuel p1 _ (by rw [eC]; exact hm) (by rw [eC]; exact hn)
    (by rw [ek]; exact hk) a ha

/-! ## One stride: what is fetched and what is added -/

theorem ch_body_fetch (fuel : Nat) (p : matmul_params) (row col s t : Nat)
    (hfit : read_buffers_fit p) (hsz : int_sized p) (hk : p.A.column = 64 * t) (hf : 32 ≤ fuel)
    (hrow : row < p.C.row) (hcol : col + 3 < p.C.column) (hs : s < t)
    (acc : accumulators) :
    ch_body true fuel p row col (64 * s, acc)
      = .done (64 * s + 2 * 32,
          dequantize acc
            (sums_after 32 p.A.int8_data_ptr p.B.int4_data_ptr (row * p.A.column + 64 * s)
              ((col * p.A.column + 64 * s) / 2) (((col + 1) * p.A.column + 64 * s) / 2)
              (((col + 2) * p.A.column + 64 * s) / 2) (((col + 3) * p.A.column + 64 * s) / 2))
            ⟨p.A_scales.getD ((row * p.A.column + 64 * s) / 32) 0,
              p.scales.getD ((col * p.A.column + 64 * s) / 32) 0,
              p.scales.getD (((col + 1) * p.A.column + 64 * s) / 32) 0,
              p.scales.getD (((col + 2) * p.A.column + 64 * s) / 32) 0,
              p.scales.getD (((col + 3) * p.A.column + 64 * s) / 32) 0⟩
            ⟨p.A_scales.getD ((row * p.A.column + 64 * s) / 32 + 1) 0,
              p.scales.getD ((col * p.A.column + 64 * s) / 32 + 1) 0,
              p.scales.getD (((col + 1) * p.A.column + 64 * s) / 32 + 1) 0,
              p.scales.getD (((col + 2) * p.A.column + 64 * s) / 32 + 1) 0,
              p.scales.getD (((col + 3) * p.A.column + 64 * s) / 32 + 1) 0⟩) := by
  obtain ⟨i1, i2, i3, i4⟩ := index_bounds p row col (64 * s) hsz hrow hcol (by omega)
  obtain ⟨hbs, ha8, hw4, hsA, hsW⟩ := hfit
  have hr := succ_mul_le_of_lt p.A.column hrow
  have hc0 := succ_mul_le_of_lt p.A.column (show col < p.C.column by omega)
  have hc1 := succ_mul_le_of_lt p.A.column (show col + 1 < p.C.column by omega)
  have hc2 := succ_mul_le_of_lt p.A.column (show col + 2 < p.C.column by omega)
  have hc3 := succ_mul_le_of_lt p.A.column hcol
  have e0 := pointers_eq p.A.column row col (64 * s) i1 i2 i3
  have e1 := first_scales_eq p row col (64 * s) hbs i1 i2 i3 (by omega) (by omega) (by omega)
    (by omega) (by omega)
  have e2 := second_scales_eq p row col (64 * s) hbs i1 i2 i3 (by omega) (by omega) (by omega)
    (by omega) (by omega)
  have e3 := mac_loop_eq fuel p.A.int8_data_ptr p.B.int4_data_ptr (row * p.A.column + 64 * s)
    ((col * p.A.column + 64 * s) / 2) (((col + 1) * p.A.column + 64 * s) / 2)
    (((col + 2) * p.A.column + 64 * s) / 2) (((col + 3) * p.A.column + 64 * s) / 2)
    hf (by omega) (by omega) (by omega) (by omega) (by omega)
  have e4 : int_mul 32 2 = some 64 := int_mul_some (by omega)
  have e5 : int_add (64 * s) 64 = some (64 * s + 2 * 32) := int_add_some (by omega)
  simp only [ch_body, e0, e1, e2, e3, e4, e5, Option.some_bind, Outcome.ofOption_some,
    Outcome.bind_done, if_true, hbs]

/-- The indices that one stride uses stay inside the row of the activations and
inside the weight row they are fetched for. -/
theorem stride_indices (k t s x : Nat) (hk : k = 64 * t) (hs : s < t) :
    (x * k + 64 * s) / 32 + 1 = (x * k + 64 * s + 32) / 32
      ∧ x * (k / 32) ≤ (x * k + 64 * s) / 32
      ∧ (x * k + 64 * s + 32) / 32 < (x + 1) * (k / 32)
      ∧ (x * k + 64 * s) / 2 = x * k / 2 + 64 * s / 2
      ∧ x * (k / 2) ≤ (x * k + 64 * s) / 2
      ∧ (x * k + 64 * s) / 2 + 31 < (x + 1) * (k / 2) := by
  have h32 : k / 32 = 2 * t := by omega
  have h2 : k / 2 = 32 * t := by omega
  have hx : x * k = 64 * (x * t) := by rw [hk]; ring
  have hx32 : x * (2 * t) = 2 * (x * t) := by ring
  have hx2 : x * (32 * t) = 32 * (x * t) := by ring
  have hs32 : (x + 1) * (2 * t) = 2 * (x * t) + 2 * t := by ring
  have hs2 : (x + 1) * (32 * t) = 32 * (x * t) + 32 * t := by ring
  rw [h32, h2, hx32, hx2, hs32, hs2, hx]
  refine ⟨?_, ?_, ?_, ?_, ?_, ?_⟩ <;> omega

theorem block_sum_eq_sum_block_term (p : matmul_params) (r c : Nat) :
    block_sum p r c = ∑ b in Finset.range (p.A.column / 32), block_term p r c b := rfl

theorem stride_term_eq_two_blocks (p : matmul_params) (r c s t : Nat)
    (hk : p.A.column = 64 * t) :
    stride_term p r c s = block_term p r c (2 * s) + block_term p r c (2 * s + 1) := by
  have hk32 : p.A.column / 32 = 2 * t := by omega
  have hr : r * p.A.column = 32 * (r * (2 * t)) := by rw [hk]; ring
  have hc : c * p.A.column = 32 * (c * (2 * t)) := by rw [hk]; ring
  have a1 : (r * p.A.column + 64 * s) / 32 = r * (2 * t) + 2 * s := by omega
  have a2 : (c * p.A.column + 64 * s) / 32 = c * (2 * t) + 2 * s := by omega
  simp only [stride_term, block_term, low_dot_eq_block_dot p r c s t hk,
    high_dot_eq_block_dot p r c s t hk, a1, a2, hk32, Nat.add_assoc]

theorem ch_body_two_blocks (fuel : Nat) (p : matmul_params) (row col s t : Nat)
    (hfit : read_buffers_fit p) (hsz : int_sized p) (hk : p.A.column = 64 * t) (hf : 32 ≤ fuel)
    (hrow : row < p.C.row) (hcol : col + 3 < p.C.column) (hs : s < t)
    (acc : accumulators) :
    ch_body true fuel p row col (64 * s, acc)
      = .done (64 * s + 2 * 32, add_two_blocks p row col (2 * s) acc) := by
  rw [ch_body_fetch fuel p row col s t hfit hsz hk hf hrow hcol hs acc]
  have t0 := stride_term_eq_two_blocks p row col s t hk
  have t1 := stride_term_eq_two_blocks p row (col + 1) s t hk
  have t2 := stride_term_eq_two_blocks p row (col + 2) s t hk
  have t3 := stride_term_eq_two_blocks p row (col + 3) s t hk
  simp only [stride_term] at t0 t1 t2 t3
  simp only [dequantize, sums_after, add_two_blocks, add_assoc, t0, t1, t2, t3]

theorem ch_loop_block_sum (fuel : Nat) (p : matmul_params) (row col t : Nat)
    (hfit : read_buffers_fit p) (hsz : int_sized p) (hk : p.A.column = 64 * t) (hf : 32 ≤ fuel)
    (hft : t ≤ fuel)
    (hrow : row < p.C.row) (hcol : col + 3 < p.C.column) :
    ch_loop true fuel p row col
      = .done (p.A.column, ⟨block_sum p row col, block_sum p row (col + 1),
          block_sum p row (col + 2), block_sum p row (col + 3)⟩) := by
  rw [ch_loop_eq fuel p row col t hfit hsz hk hf hft hrow hcol]
  simp only [tile_acc, tile_sum_eq_block_sum _ _ _ t hk]

theorem stride_in_bounds (p : matmul_params) (row x s t : Nat)
    (hfit : read_buffers_fit p) (hk : p.A.column = 64 * t)
    (hrow : row < p.C.row) (hx : x < p.C.column) (hs : s < t) :
    (row * p.A.column + 64 * s + 32) / 32 < p.A_scales.length
      ∧ (x * p.A.column + 64 * s + 32) / 32 < p.scales.length
      ∧ (x * p.A.column + 64 * s) / 2 + 31 < p.B.int4_data_ptr.length
      ∧ row * p.A.column + 64 * s + 63 < p.A.int8_data_ptr.length := by
  obtain ⟨hbs, ha8, hw4, hsA, hsW⟩ := hfit
  have hr := succ_mul_le_of_lt p.A.column hrow
  have hc := succ_mul_le_of_lt p.A.column hx
  refine ⟨?_, ?_, ?_, ?_⟩ <;> omega

theorem second_scales_fetch (p : matmul_params) (row col s t : Nat)
    (hfit : read_buffers_fit p) (hsz : int_sized p) (hk : p.A.column = 64 * t)
    (hrow : row < p.C.row) (hcol : col + 3 < p.C.column) (hs : s < t) :
    second_scales p row col (64 * s) = some
      ⟨p.A_scales.getD ((row * p.A.column + 64 * s + 32) / 32) 0,
        p.scales.getD ((col * p.A.column + 64 * s + 32) / 32) 0,
        p.scales.getD (((col + 1) * p.A.column + 64 * s + 32) / 32) 0,
        p.scales.getD (((col + 2) * p.A.column + 64 * s + 32) / 32) 0,
        p.scales.getD (((col + 3) * p.A.column + 64 * s + 32) / 32) 0⟩ := by
  have b0 := stride_in_bounds p row col s t hfit hk hrow (by omega) hs
  have b1 := stride_in_bounds p row (col + 1) s t hfit hk hrow (by omega) hs
  have b2 := stride_in_bounds p row (col + 2) s t hfit hk hrow (by omega) hs
  have b3 := stride_in_bounds p row (col + 3) s t hfit hk hrow (by omega) hs
  have i0 := (stride_indices p.A.column t s row hk hs).1
  have j0 := (stride_indices p.A.column t s col hk hs).1
  have j1 := (stride_indices p.A.column t s (col + 1) hk hs).1
  have j2 := (stride_indices p.A.column t s (col + 2) hk hs).1
  have j3 := (stride_indices p.A.column t s (col + 3) hk hs).1
  obtain ⟨i1, i2, i3, i4⟩ := index_bounds p row col (64 * s) hsz hrow hcol (by omega)
  rw [second_scales_eq p row col (64 * s) hfit.1 i1 i2 i3 (by omega) (by omega) (by omega)
    (by omega) (by omega), i0, j0, j1, j2, j3]

theorem first_scales_fetch (p : matmul_params) (row col s t : Nat)
    (hfit : read_buffers_fit p) (hsz : int_sized p) (hk : p.A.column = 64 * t)
    (hrow : row < p.C.row) (hcol : col + 3 < p.C.column) (hs : s < t) :
    first_scales p row col (64 * s) = some
      ⟨p.A_scales.getD ((row * p.A.column + 64 * s) / 32) 0,
        p.scales.getD ((col * p.A.column + 64 * s) / 32) 0,
        p.scales.getD (((col + 1) * p.A.column + 64 * s) / 32) 0,
        p.scales.getD (((col + 2) * p.A.column + 64 * s) / 32) 0,
        p.scales.getD (((col + 3) * p.A.column + 64 * s) / 32) 0⟩ := by
  have b0 := stride_in_bounds p row col s t hfit hk hrow (by omega) hs
  have b1 := stride_in_bounds p row (col + 1) s t hfit hk hrow (by omega) hs
  have b2 := stride_in_bounds p row (col + 2) s t hfit hk hrow (by omega) hs
  have b3 := stride_in_bounds p row (col + 3) s t hfit hk hrow (by omega) hs
  obtain ⟨i1, i2, i3, i4⟩ := index_bounds p row col (64 * s) hsz hrow hcol (by omega)
  exact first_scales_eq p row col (64 * s) hfit.1 i1 i2 i3 (by omega) (by omega) (by omega)
    (by omega) (by omega)

theorem block_dot_elements (p : matmul_params) (r c b : Nat) :
    block_dot p r c b = ∑ i in Finset.range 32,
      p.A.int8_data_ptr.getD (r * p.A.column + (32 * b + i)) 0
        * logical_weight p.B.int4_data_ptr p.A.column c (32 * b + i) := rfl

/-! ## The quantization pass, block by block -/

theorem blocks_of_getElem? (block_size : Nat) (num_block : Nat) (xs : List ℚ) (b : Nat)
    (hb : b < num_block) :
    (blocks_of block_size num_block xs)[b]? = some (block_at block_size xs b) := by
  induction num_block generalizing xs b with
  | zero => omega
  | succ n ih =>
    cases b with
    | zero => simp [blocks_of, block_at]
    | succ b =>
      have h : (b + 1) * block_size = block_size + b * block_size := by ring
      simp only [blocks_of, List.getElem?_cons_succ, ih (xs.drop block_size) b (by omega),
        block_at, List.drop_drop, h]

theorem blocks_of_block_length (block_size : Nat) (num_block : Nat) (xs : List ℚ)
    (h : num_block * block_size ≤ xs.length) :
    ∀ l ∈ blocks_of block_size num_block xs, l.length = block_size := by
  induction num_block generalizing xs with
  | zero => simp [blocks_of]
  | succ n ih =>
    have hs : (n + 1) * block_size = n * block_size + block_size := by ring
    intro l hl
    simp only [blocks_of, List.mem_cons] at hl
    rcases hl with hl | hl
    · subst hl
      rw [List.length_take]
      omega
    · exact ih (xs.drop block_size) (by rw [List.length_drop]; omega) l hl

theorem flatten_getElem?_uniform {α : Type} (ls : List (List α)) (n : Nat)
    (h : ∀ l ∈ ls, l.length = n) (b j : Nat) (hj : j < n) :
    ls.flatten[b * n + j]? = (ls[b]?).bind fun l => l[j]? := by
  induction ls generalizing b with
  | nil => simp
  | cons l ls ih =>
    have hl : l.length = n := h l (List.mem_cons_self _ _)
    have hrest : ∀ l2 ∈ ls, l2.length = n := fun l2 h2 => h l2 (List.mem_cons_of_mem _ h2)
    cases b with
    | zero =>
      simp only [List.flatten_cons, Nat.zero_mul, Nat.zero_add, List.getElem?_cons_zero,
        Option.some_bind]
      exact List.getElem?_append_left (by omega)
    | succ b =>
      have e : (b + 1) * n + j = l.length + (b * n + j) := by rw [hl]; ring
      simp only [List.flatten_cons, List.getElem?_cons_succ, e]
      rw [List.getElem?_append_right (by omega), Nat.add_sub_cancel_left]
      exact ih hrest b

theorem block_at_getElem? (block_size : Nat) (xs : List ℚ) (b j : Nat) (hj : j < block_size) :
    (block_at block_size xs b)[j]? = xs[b * block_size + j]? := by
  simp only [block_at, List.getElem?_take, hj, if_true, List.getElem?_drop]

theorem quantize_entry {A : List ℚ} {qA : List ℤ} {sA : List ℚ} {size block_size : Nat}
    {q : List ℤ × List ℚ} (h : quantize_fp32_to_int8 A qA sA size block_size = some q)
    (b j : Nat) (hb : b < size / block_size) (hj : j < block_size) :
    q.2[b]? = some (block_scale (block_at block_size A b))
      ∧ q.1[b * block_size + j]? = (quantize_block (block_at block_size A b))[j]?
      ∧ (block_at block_size A b)[j]? = A[b * block_size + j]?
      ∧ (block_at block_size A b).length = block_size := by
  unfold quantize_fp32_to_int8 at h
  by_cases h0 : block_size = 0
  · omega
  · simp only [h0, if_false] at h
    by_cases hc : size / block_size * block_size ≤ A.length
        ∧ size / block_size * block_size ≤ qA.length ∧ size / block_size ≤ sA.length
    · simp only [hc, and_self, if_true, Option.some.injEq] at h
      obtain ⟨hA, _, _⟩ := hc
      have hblk := blocks_of_getElem? block_size (size / block_size) A b hb
      have hlen := blocks_of_block_length block_size (size / block_size) A hA
      have hQ := quantized_length block_size (size / block_size) A hA
      have hbl : (block_at block_size A b).length = block_size :=
        hlen _ (List.getElem?_mem hblk)
      have hidx : b * block_size + j < size / block_size * block_size := by
        have := succ_mul_le_of_lt block_size hb
        omega
      subst h
      refine ⟨?_, ?_, block_at_getElem? block_size A b j hj, hbl⟩
      · simp only
        rw [List.getElem?_append_left (by simpa [blocks_of_length] using hb),
          List.getElem?_map, hblk]
        rfl
      · simp only
        rw [List.getElem?_append_left (by rw [hQ]; exact hidx),
          flatten_getElem?_uniform _ block_size
            (by
              intro l hl
              obtain ⟨l0, hl0, rfl⟩ := List.mem_map.mp hl
              rw [quantize_block_length]
              exact hlen l0 hl0)
            b j hj,
          List.getElem?_map, hblk]
        rfl
    · simp [hc] at h

theorem quantize_value_checked_eq (scale x : ℚ) :
    quantize_value_checked scale x
      = some (if scale = 0 then 0 else clamp127 (round_half_away (x / scale))) := by
  unfold quantize_value_checked div_checked
  by_cases h : scale = 0 <;> simp [h]

theorem quantize_values_checked_eq (scale : ℚ) (xs : List ℚ) :
    quantize_values_checked scale xs
      = some (xs.map fun x =>
          if scale = 0 then 0 else clamp127 (round_half_away (x / scale))) := by
  induction xs with
  | nil => rfl
  | cons x xs ih => simp [quantize_values_checked, quantize_value_checked_eq, ih]

theorem quantize_block_checked_eq (xs : List ℚ) :
    quantize_block_checked xs = some (quantize_block xs) :=
  quantize_values_checked_eq (block_scale xs) xs

theorem foldl_max_abs_ge (xs : List ℚ) (a : ℚ) :
    a ≤ xs.foldl (fun a x => max a |x|) a
      ∧ ∀ x ∈ xs, |x| ≤ xs.foldl (fun a x => max a |x|) a := by
  induction xs generalizing a with
  | nil => simp
  | cons y ys ih =>
    obtain ⟨h1, h2⟩ := ih (max a |y|)
    refine ⟨le_trans (le_max_left _ _) h1, ?_⟩
    intro x hx
    rcases List.mem_cons.mp hx with hx | hx
    · subst hx
      exact le_trans (le_max_right _ _) h1
    · exact h2 x hx

theorem foldl_max_abs_zero (xs : List ℚ) (h : ∀ x ∈ xs, x = 0) :
    xs.foldl (fun a x => max a |x|) 0 = 0 := by
  induction xs with
  | nil => rfl
  | cons y ys ih =>
    have hy : y = 0 := h y (List.mem_cons_self _ _)
    subst hy
    simp only [List.foldl_cons, abs_zero, max_self]
    exact ih fun x hx => h x (List.mem_cons_of_mem _ hx)

theorem block_scale_nonneg (xs : List ℚ) : 0 ≤ block_scale xs := by
  unfold block_scale
  exact div_nonneg (foldl_max_abs_ge xs 0).1 (by norm_num)

theorem abs_le_block_scale (xs : List ℚ) (x : ℚ) (hx : x ∈ xs) :
    |x| ≤ 127 * block_scale xs := by
  unfold block_scale
  have := (foldl_max_abs_ge xs 0).2 x hx
  linarith [mul_div_cancel₀ (xs.foldl (fun a x => max a |x|) 0) (show (127 : ℚ) ≠ 0 by norm_num)]

theorem block_scale_zero (xs : List ℚ) (h : ∀ x ∈ xs, x = 0) : block_scale xs = 0 := by
  unfold block_scale
  rw [foldl_max_abs_zero xs h]
  simp

theorem round_half_away_error (y : ℚ) : |y - (round_half_away y : ℚ)| ≤ 1 / 2 := by
  unfold round_half_away
  by_cases h : 0 ≤ y
  · simp only [h, if_true]
    have h1 := Int.floor_le (y + 1 / 2)
    have h2 := Int.lt_floor_add_one (y + 1 / 2)
    rw [abs_le]
    constructor <;> linarith
  · simp only [h, if_false]
    have h1 := Int.le_ceil (y - 1 / 2)
    have h2 := Int.ceil_lt_add_one (y - 1 / 2)
    rw [abs_le]
    constructor <;> linarith

theorem round_half_away_range (y : ℚ) (h : |y| ≤ 127) :
    -127 ≤ round_half_away y ∧ round_half_away y ≤ 127 := by
  have he := abs_le.mp (round_half_away_error y)
  have hy := abs_le.mp h
  have h1 : ((round_half_away y : ℤ) : ℚ) < 128 := by linarith
  have h2 : (-128 : ℚ) < ((round_half_away y : ℤ) : ℚ) := by linarith
  have h1' : round_half_away y < 128 := by exact_mod_cast h1
  have h2' : -128 < round_half_away y := by exact_mod_cast h2
  omega

theorem clamp127_of_range (z : ℤ) (h : -127 ≤ z ∧ z ≤ 127) : clamp127 z = z := by
  unfold clamp127
  omega

theorem quantize_block_getElem? (xs : List ℚ) (j : Nat) (x : ℚ) (hx : xs[j]? = some x) :
    (quantize_block xs)[j]?
      = some (if block_scale xs = 0 then 0
          else clamp127 (round_half_away (x / block_scale xs))) := by
  simp only [quantize_block, List.getElem?_map, hx, Option.map_some']

theorem quantize_error (xs : List ℚ) (x : ℚ) (hx : x ∈ xs) :
    |x - ((if block_scale xs = 0 then 0
        else clamp127 (round_half_away (x / block_scale xs)) : ℤ) : ℚ) * block_scale xs|
      ≤ block_scale xs / 2 := by
  have hn := block_scale_nonneg xs
  have hb := abs_le_block_scale xs x hx
  by_cases h0 : block_scale xs = 0
  · rw [h0] at hb ⊢
    have : x = 0 := by
      have := abs_nonneg x
      exact abs_eq_zero.mp (by linarith)
    simp [this]
  · have hpos : 0 < block_scale xs := lt_of_le_of_ne hn (Ne.symm h0)
    have hy : |x / block_scale xs| ≤ 127 := by
      rw [abs_div, abs_of_pos hpos, div_le_iff₀ hpos]
      exact hb
    simp only [h0, if_false]
    rw [clamp127_of_range _ (round_half_away_range _ hy)]
    have he := round_half_away_error (x / block_scale xs)
    have e : x - (round_half_away (x / block_scale xs) : ℚ) * block_scale xs
        = (x / block_scale xs - (round_half_away (x / block_scale xs) : ℚ)) * block_scale xs := by
      rw [sub_mul, div_mul_cancel₀ _ h0]
    rw [e, abs_mul, abs_of_pos hpos]
    calc |x / block_scale xs - (round_half_away (x / block_scale xs) : ℚ)| * block_scale xs
        ≤ 1 / 2 * block_scale xs := mul_le_mul_of_nonneg_right he hn
      _ = block_scale xs / 2 := by ring

theorem quantize_value_eq_formula (xs : List ℚ) (x : ℚ) :
    (if block_scale xs = 0 then 0 else clamp127 (round_half_away (x / block_scale xs)))
      = clamp127 (round_half_away (x / block_scale xs)) := by
  by_cases h0 : block_scale xs = 0
  · simp only [h0, if_true, div_zero]
    decide!
  · simp only [h0, if_false]

theorem zero_block_input_quantized : quantize_pass zero_block_input = some zero_block_quantized := by
  decide!

theorem quantize_pass_entry {p p1 : matmul_params} (hq : quantize_pass p = some p1)
    (b j : Nat) (hb : b < p.A.row * p.A.column / p.block_size) (hj : j < p.block_size) :
    p1.A_scales[b]? = some (block_scale (block_at p.block_size p.A.data_ptr b))
      ∧ p1.A.int8_data_ptr[b * p.block_size + j]?
          = (quantize_block (block_at p.block_size p.A.data_ptr b))[j]?
      ∧ (block_at p.block_size p.A.data_ptr b)[j]? = p.A.data_ptr[b * p.block_size + j]?
      ∧ (block_at p.block_size p.A.data_ptr b).length = p.block_size := by
  obtain ⟨q, _, hq0, hp1⟩ := quantize_pass_eq_some hq
  subst hp1
  exact quantize_entry hq0 b j hb hj

theorem zero_block_quantized_to_zero {p p1 : matmul_params} (hq : quantize_pass p = some p1)
    (b : Nat) (hb : b < p.A.row * p.A.column / p.block_size)
    (hz : ∀ j, j < p.block_size → p.A.data_ptr[b * p.block_size + j]? = some 0) :
    p1.A_scales[b]? = some 0
      ∧ (∀ j, j < p.block_size → p1.A.int8_data_ptr[b * p.block_size + j]? = some 0)
      ∧ quantize_block_checked (block_at p.block_size p.A.data_ptr b)
          = some (List.replicate p.block_size 0) := by
  have hpos : 0 < p.block_size := by
    rcases Nat.eq_zero_or_pos p.block_size with h0 | h0
    · rw [h0, Nat.div_zero] at hb; omega
    · exact h0
  obtain ⟨hs, _, _, hlen⟩ := quantize_pass_entry hq b 0 hb hpos
  have hall : ∀ x ∈ block_at p.block_size p.A.data_ptr b, x = 0 := by
    intro x hx
    obtain ⟨j, hj⟩ := List.mem_iff_getElem?.mp hx
    have hjlt : j < p.block_size := by
      rw [← hlen]
      exact (List.getElem?_eq_some.mp hj).1
    have := (quantize_pass_entry hq b j hb hjlt).2.2.1
    rw [hj, hz j hjlt] at this
    exact (Option.some.inj this)
  have hscale := block_scale_zero _ hall
  have hblock : quantize_block (block_at p.block_size p.A.data_ptr b)
      = List.replicate p.block_size 0 := by
    simp only [quantize_block, hscale, if_true, List.map_const', hlen]
  refine ⟨by rw [hs, hscale], ?_, by rw [quantize_block_checked_eq, hblock]⟩
  intro j hj
  rw [(quantize_pass_entry hq b j hb hj).2.1, hblock, List.getElem?_replicate]
  simp [hj]

/-! ## Splitting the rows of `A` -/

theorem blocks_of_take (block_size : Nat) (n : Nat) (xs : List ℚ) :
    blocks_of block_size n (xs.take (n * block_size)) = blocks_of block_size n xs := by
  induction n generalizing xs with
  | zero => rfl
  | succ n ih =>
    have h1 : min block_size ((n + 1) * block_size) = block_size := by
      have : (n + 1) * block_size = n * block_size + block_size := by ring
      omega
    have h2 : (n + 1) * block_size - block_size = n * block_size := by
      have : (n + 1) * block_size = n * block_size + block_size := by ring
      omega
    simp only [blocks_of, List.take_take, h1, List.drop_take, h2, ih]

theorem blocks_of_add (block_size : Nat) (n1 n2 : Nat) (xs : List ℚ) :
    blocks_of block_size (n1 + n2) xs
      = blocks_of block_size n1 xs ++ blocks_of block_size n2 (xs.drop (n1 * block_size)) := by
  induction n1 generalizing xs with
  | zero => simp [blocks_of]
  | succ n ih =>
    have h1 : n + 1 + n2 = (n + n2) + 1 := by omega
    have h2 : (n + 1) * block_size = block_size + n * block_size := by ring
    rw [h1]
    simp only [blocks_of, ih, List.drop_drop, h2, List.cons_append]

theorem quantize_fp32_to_int8_exact (A : List ℚ) (qA : List ℤ) (sA : List ℚ)
    (nb block_size : Nat) (hb : block_size ≠ 0) (hA : nb * block_size ≤ A.length)
    (hq : qA.length = nb * block_size) (hs : sA.length = nb) :
    quantize_fp32_to_int8 A qA sA (nb * block_size) block_size
      = some (((blocks_of block_size nb A).map quantize_block).flatten,
          (blocks_of block_size nb A).map block_scale) := by
  have hd : nb * block_size / block_size = nb := Nat.mul_div_cancel _ (Nat.pos_of_ne_zero hb)
  unfold quantize_fp32_to_int8
  simp only [hb, if_false, hd]
  rw [if_pos ⟨hA, by omega, by omega⟩, List.drop_eq_nil_of_le (by omega),
    List.drop_eq_nil_of_le (by omega), List.append_nil, List.append_nil]

theorem block_sum_congr (p q : matmul_params) (r r2 c : Nat)
    (hk : q.A.column = p.A.column) (hB : q.B = p.B) (hS : q.scales = p.scales)
    (h32 : p.A.column % 32 = 0)
    (ha : ∀ e, e < p.A.column →
      q.A.int8_data_ptr.getD (r2 * p.A.column + e) 0 = p.A.int8_data_ptr.getD (r * p.A.column + e) 0)
    (hs : ∀ b, b < p.A.column / 32 →
      q.A_scales.getD (r2 * (p.A.column / 32) + b) 0 = p.A_scales.getD (r * (p.A.column / 32) + b) 0) :
    block_sum q r2 c = block_sum p r c := by
  unfold block_sum block_dot
  rw [hk, hB, hS]
  apply Finset.sum_congr rfl
  intro b hb
  have hb := Finset.mem_range.mp hb
  rw [hs b hb]
  congr 2
  congr 1
  apply Finset.sum_congr rfl
  intro i hi
  have hi := Finset.mem_range.mp hi
  rw [ha (32 * b + i) (by omega)]

theorem getD_append_left_of_lt {α : Type} (l1 l2 : List α) (d : α) (i : Nat)
    (h : i < l1.length) : (l1 ++ l2).getD i d = l1.getD i d := by
  simp only [List.getD_eq_getElem?_getD, List.getElem?_append_left h]

theorem getD_append_right_add {α : Type} (l1 l2 : List α) (d : α) (i : Nat) :
    (l1 ++ l2).getD (l1.length + i) d = l2.getD i d := by
  simp only [List.getD_eq_getElem?_getD,
    List.getElem?_append_right (Nat.le_add_right l1.length i), Nat.add_sub_cancel_left]

/-- What a run on a well-formed input with blocks of 32 and `k = 32 * k32`
leaves, with the quantized activations and their scales spelled out. -/
theorem kernel_total_explicit (p : matmul_params) (fuel k32 : Nat)
    (hwf : data_model_invariants p) (hbs : p.block_size = 32) (hk : p.A.column = 32 * k32)
    (h64 : p.A.column % 64 = 0) (hsz : int_sized p) (hf : 32 ≤ fuel)
    (hfk : p.A.column ≤ fuel) (hfm : p.C.row ≤ fuel) (hfn : p.C.column ≤ fuel) :
    ∃ r, mat_mul_loop_unrolling true fuel p = .done r
      ∧ r.params.A.int8_data_ptr
          = ((blocks_of 32 (p.A.row * k32) p.A.data_ptr).map quantize_block).flatten
      ∧ r.params.A_scales = (blocks_of 32 (p.A.row * k32) p.A.data_ptr).map block_scale
      ∧ r.params.B = p.B ∧ r.params.scales = p.scales ∧ r.params.A.column = p.A.column
      ∧ r.params.C.data_ptr.length = p.A.row * p.C.column
      ∧ (∀ row c, row < p.A.row → c < p.C.column →
          r.params.C.data_ptr[row * p.C.column + c]? = some (block_sum r.params row c)) := by
  obtain ⟨r, hr, hq, _, _, ek, hlen, hval⟩ := kernel_total p fuel hwf hbs h64 hsz hf hfk hfm hfn
  obtain ⟨h1, h2, h3, h4, h5, h6, h7, h8, h9, h10, h11⟩ := hwf
  have hsize : p.A.row * p.A.column = p.A.row * k32 * 32 := by rw [hk]; ring
  have hex := quantize_fp32_to_int8_exact p.A.data_ptr p.A.int8_data_ptr p.A_scales
    (p.A.row * k32) 32 (by omega) (by omega) (by omega) (by rw [h9, hbs]; omega)
  obtain ⟨q, _, hq0, hq⟩ := quantize_pass_eq_some hq
  rw [hbs, hsize, hex, Option.some.injEq] at hq0
  subst hq0
  have e1 : r.params.A.int8_data_ptr
      = ((blocks_of 32 (p.A.row * k32) p.A.data_ptr).map quantize_block).flatten := by
    have := congrArg (fun x : matmul_params => x.A.int8_data_ptr) hq
    exact this.symm
  have e2 : r.params.A_scales = (blocks_of 32 (p.A.row * k32) p.A.data_ptr).map block_scale := by
    have := congrArg (fun x : matmul_params => x.A_scales) hq
    exact this.symm
  have e3 : r.params.B = p.B := by
    have := congrArg (fun x : matmul_params => x.B) hq
    exact this.symm
  have e4 : r.params.scales = p.scales := by
    have := congrArg (fun x : matmul_params => x.scales) hq
    exact this.symm
  refine ⟨r, hr, e1, e2, e3, e4, ek, by rw [hlen, h11, h2], ?_⟩
  intro row c hrow hc
  exact hval row c (by rw [h2]; exact hrow) hc

theorem top_rows_wf (p : matmul_params) (m1 : Nat) (hwf : data_model_invariants p)
    (hbs : p.block_size = 32) (hm : m1 ≤ p.A.row) :
    data_model_invariants (top_rows p m1) := by
  obtain ⟨h1, h2, h3, h4, h5, h6, h7, h8, h9, h10, h11⟩ := hwf
  have a1 : m1 * p.A.column ≤ p.A.row * p.A.column := Nat.mul_le_mul_right _ hm
  have a2 : m1 * p.C.column ≤ p.A.row * p.C.column := Nat.mul_le_mul_right _ hm
  simp only [data_model_invariants, top_rows, List.length_take]
  rw [hbs] at h4 h9 h10 ⊢
  rw [h2] at h11
  refine ⟨h1, trivial, h3, h4, h5, ?_, ?_, h8, ?_, h10, ?_⟩ <;> omega

theorem bottom_rows_wf (p : matmul_params) (m1 k32 : Nat) (hwf : data_model_invariants p)
    (hbs : p.block_size = 32) (hk : p.A.column = 32 * k32) (hm : m1 ≤ p.A.row) :
    data_model_invariants (bottom_rows p m1) := by
  obtain ⟨h1, h2, h3, h4, h5, h6, h7, h8, h9, h10, h11⟩ := hwf
  have a1 : (p.A.row - m1) * p.A.column = p.A.row * p.A.column - m1 * p.A.column :=
    Nat.sub_mul _ _ _
  have a2 : (p.A.row - m1) * p.C.column = p.A.row * p.C.column - m1 * p.C.column :=
    Nat.sub_mul _ _ _
  have b1 : p.A.row * p.A.column = 32 * (p.A.row * k32) := by rw [hk]; ring
  have b2 : m1 * p.A.column = 32 * (m1 * k32) := by rw [hk]; ring
  have b3 : m1 * k32 ≤ p.A.row * k32 := Nat.mul_le_mul_right _ hm
  simp only [data_model_invariants, bottom_rows, List.length_drop]
  rw [hbs] at h4 h9 h10 ⊢
  rw [h2] at h11 ⊢
  refine ⟨h1, rfl, h3, h4, h5, ?_, ?_, h8, ?_, h10, ?_⟩ <;> omega

theorem top_rows_sized (p : matmul_params) (m1 : Nat) (hsz : int_sized p)
    (hm : m1 ≤ p.C.row) : int_sized (top_rows p m1) := by
  obtain ⟨s1, s2, s3, s4⟩ := hsz
  have a1 : m1 * p.A.column ≤ p.C.row * p.A.column := Nat.mul_le_mul_right _ hm
  have a2 : m1 * p.C.column ≤ p.C.row * p.C.column := Nat.mul_le_mul_right _ hm
  simp only [int_sized, top_rows]
  refine ⟨?_, ?_, s3, ?_⟩ <;> omega

theorem bottom_rows_sized (p : matmul_params) (m1 : Nat) (hsz : int_sized p) :
    int_sized (bottom_rows p m1) := by
  obtain ⟨s1, s2, s3, s4⟩ := hsz
  have a1 : (p.C.row - m1) * p.A.column ≤ p.C.row * p.A.column :=
    Nat.mul_le_mul_right _ (Nat.sub_le _ _)
  have a2 : (p.C.row - m1) * p.C.column ≤ p.C.row * p.C.column :=
    Nat.mul_le_mul_right _ (Nat.sub_le _ _)
  simp only [int_sized, bottom_rows]
  refine ⟨?_, ?_, s3, ?_⟩ <;> omega

theorem kernel_rows_split (p : matmul_params) (fuel m1 : Nat)
    (hwf : data_model_invariants p) (hbs : p.block_size = 32) (h64 : p.A.column % 64 = 0)
    (hsz : int_sized p) (hm : m1 ≤ p.A.row) (hf : 32 ≤ fuel)
    (hfk : p.A.column ≤ fuel) (hfm : p.C.row ≤ fuel) (hfn : p.C.column ≤ fuel) :
    ∃ r r1 r2, mat_mul_loop_unrolling true fuel p = .done r
      ∧ mat_mul_loop_unrolling true fuel (top_rows p m1) = .done r1
      ∧ mat_mul_loop_unrolling true fuel (bottom_rows p m1) = .done r2
      ∧ r.params.C.data_ptr = r1.params.C.data_ptr ++ r2.params.C.data_ptr
      ∧ r.params.A.int8_data_ptr = r1.params.A.int8_data_ptr ++ r2.params.A.int8_data_ptr
      ∧ r.params.A_scales = r1.params.A_scales ++ r2.params.A_scales := by
  have hk : p.A.column = 32 * (p.A.column / 32) := by omega
  have hCr : p.C.row = p.A.row := hwf.2.1
  have hA6 : p.A.data_ptr.length = p.A.row * p.A.column := hwf.2.2.2.2.2.1
  obtain ⟨r, hr, q, s, eB, eS, ek, hlen, hval⟩ :=
    kernel_total_explicit p fuel (p.A.column / 32) hwf hbs hk h64 hsz hf hfk hfm hfn
  obtain ⟨r1, hr1, q1, s1, eB1, eS1, ek1, hlen1, hval1⟩ :=
    kernel_total_explicit (top_rows p m1) fuel (p.A.column / 32) (top_rows_wf p m1 hwf hbs hm)
      hbs hk h64 (top_rows_sized p m1 hsz (by omega)) hf hfk (by show m1 ≤ fuel; omega) hfn
  obtain ⟨r2, hr2, q2, s2, eB2, eS2, ek2, hlen2, hval2⟩ :=
    kernel_total_explicit (bottom_rows p m1) fuel (p.A.column / 32)
      (bottom_rows_wf p m1 (p.A.column / 32) hwf hbs hk hm)
      hbs hk h64 (bottom_rows_sized p m1 hsz) hf hfk (by show p.C.row - m1 ≤ fuel; omega) hfn
  -- the blocks of the whole matrix are those of the top part, then those of the bottom part
  have hm1k : m1 * p.A.column = m1 * (p.A.column / 32) * 32 := by
    rw [Nat.mul_assoc, Nat.mul_comm (p.A.column / 32) 32, ← hk]
  have hsplit : p.A.row * (p.A.column / 32)
      = m1 * (p.A.column / 32) + (p.A.row - m1) * (p.A.column / 32) := by
    rw [← Nat.add_mul, Nat.add_sub_cancel' hm]
  have hblocks : blocks_of 32 (p.A.row * (p.A.column / 32)) p.A.data_ptr
      = blocks_of 32 (m1 * (p.A.column / 32)) (p.A.data_ptr.take (m1 * p.A.column))
        ++ blocks_of 32 ((p.A.row - m1) * (p.A.column / 32))
            (p.A.data_ptr.drop (m1 * p.A.column)) := by
    rw [hsplit, blocks_of_add, hm1k, blocks_of_take]
  have q1' : r1.params.A.int8_data_ptr
      = ((blocks_of 32 (m1 * (p.A.column / 32)) (p.A.data_ptr.take (m1 * p.A.column))).map
          quantize_block).flatten := q1
  have q2' : r2.params.A.int8_data_ptr
      = ((blocks_of 32 ((p.A.row - m1) * (p.A.column / 32))
          (p.A.data_ptr.drop (m1 * p.A.column))).map quantize_block).flatten := q2
  have s1' : r1.params.A_scales
      = (blocks_of 32 (m1 * (p.A.column / 32)) (p.A.data_ptr.take (m1 * p.A.column))).map
          block_scale := s1
  have s2' : r2.params.A_scales
      = (blocks_of 32 ((p.A.row - m1) * (p.A.column / 32))
          (p.A.data_ptr.drop (m1 * p.A.column))).map block_scale := s2
  have hQ : r.params.A.int8_data_ptr
      = r1.params.A.int8_data_ptr ++ r2.params.A.int8_data_ptr := by
    rw [q, q1', q2', hblocks, List.map_append, List.flatten_append]
  have hS : r.params.A_scales = r1.params.A_scales ++ r2.params.A_scales := by
    rw [s, s1', s2', hblocks, List.map_append]
  have hm1le : m1 * p.A.column ≤ p.A.data_ptr.length := by
    rw [hA6]; exact Nat.mul_le_mul_right _ hm
  have lQ1 : r1.params.A.int8_data_ptr.length = m1 * p.A.column := by
    rw [q1', quantized_length 32 _ _ (by rw [List.length_take]; omega), hm1k]
  have lS1 : r1.params.A_scales.length = m1 * (p.A.column / 32) := by
    rw [s1', List.length_map, blocks_of_length]
  have ek1' : r1.params.A.column = p.A.column := ek1
  have ek2' : r2.params.A.column = p.A.column := ek2
  have eB1' : r1.params.B = p.B := eB1
  have eB2' : r2.params.B = p.B := eB2
  have eS1' : r1.params.scales = p.scales := eS1
  have eS2' : r2.params.scales = p.scales := eS2
  have hlen1' : r1.params.C.data_ptr.length = m1 * p.C.column := hlen1
  have hlen2' : r2.params.C.data_ptr.length = (p.A.row - m1) * p.C.column := hlen2
  have h32 : r.params.A.column % 32 = 0 := by rw [ek]; omega
  -- the rows of the top part
  have top_eq : ∀ row c, row < m1 → block_sum r1.params row c = block_sum r.params row c := by
    intro row c hrow
    apply block_sum_congr r.params r1.params row row c (by rw [ek1', ek]) (by rw [eB1', eB])
      (by rw [eS1', eS]) h32
    · intro e he
      rw [ek] at he ⊢
      have := succ_mul_le_of_lt p.A.column hrow
      rw [hQ, getD_append_left_of_lt _ _ _ _ (by rw [lQ1]; omega)]
    · intro b hb
      rw [ek] at hb ⊢
      have := succ_mul_le_of_lt (p.A.column / 32) hrow
      rw [hS, getD_append_left_of_lt _ _ _ _ (by rw [lS1]; omega)]
  -- the rows of the bottom part
  have bottom_eq : ∀ row c, block_sum r2.params row c = block_sum r.params (m1 + row) c := by
    intro row c
    apply block_sum_congr r.params r2.params (m1 + row) row c (by rw [ek2', ek])
      (by rw [eB2', eB]) (by rw [eS2', eS]) h32
    · intro e he
      rw [ek] at he ⊢
      have e1 : (m1 + row) * p.A.column + e
          = r1.params.A.int8_data_ptr.length + (row * p.A.column + e) := by
        rw [lQ1, Nat.add_mul, Nat.add_assoc]
      rw [hQ, e1, getD_append_right_add]
    · intro b hb
      rw [ek] at hb ⊢
      have e1 : (m1 + row) * (p.A.column / 32) + b
          = r1.params.A_scales.length + (row * (p.A.column / 32) + b) := by
        rw [lS1, Nat.add_mul, Nat.add_assoc]
      rw [hS, e1, getD_append_right_add]
  refine ⟨r, r1, r2, hr, hr1, hr2, ?_, hQ, hS⟩
  apply List.ext_getElem?
  intro i
  have hsub : (p.A.row - m1) * p.C.column = p.A.row * p.C.column - m1 * p.C.column :=
    Nat.sub_mul _ _ _
  have hle : m1 * p.C.column ≤ p.A.row * p.C.column := Nat.mul_le_mul_right _ hm
  by_cases h1 : i < m1 * p.C.column
  · obtain ⟨row, c, hrow, hc, rfl⟩ := (flat_index_iff _ _ _).mp h1
    rw [List.getElem?_append_left (by rw [hlen1']; exact h1), hval row c (by omega) hc]
    have := hval1 row c hrow hc
    rw [show (top_rows p m1).C.column = p.C.column from rfl] at this
    rw [this, top_eq row c hrow]
  · rw [List.getElem?_append_right (by rw [hlen1']; omega), hlen1']
    by_cases h2 : i < p.A.row * p.C.column
    · have h3 : i - m1 * p.C.column < (p.A.row - m1) * p.C.column := by omega
      obtain ⟨row, c, hrow, hc, hi⟩ := (flat_index_iff _ _ _).mp h3
      have hi2 : i = (m1 + row) * p.C.column + c := by
        rw [Nat.add_mul]; omega
      have := hval2 row c hrow hc
      rw [show (bottom_rows p m1).C.column = p.C.column from rfl] at this
      rw [hi, this, bottom_eq row c, hi2, hval (m1 + row) c (by omega) hc]
    · rw [List.getElem?_eq_none (by rw [hlen]; omega),
        List.getElem?_eq_none (by rw [hlen2']; omega)]

/-- The running maximum of absolute values is its start value or is attained
by an element. -/
theorem foldl_max_abs_attained (xs : List ℚ) (a : ℚ) :
    xs.foldl (fun a x => max a |x|) a = a
      ∨ ∃ y ∈ xs, |y| = xs.foldl (fun a x => max a |x|) a := by
  induction xs generalizing a with
  | nil => exact Or.inl rfl
  | cons y ys ih =>
    rcases ih (max a |y|) with h | ⟨z, hz, hz2⟩
    · rcases max_choice a |y| with hm | hm
      · exact Or.inl (by rw [List.foldl_cons, h, hm])
      · exact Or.inr ⟨y, List.mem_cons_self _ _, by rw [List.foldl_cons, h, hm]⟩
    · exact Or.inr ⟨z, List.mem_cons_of_mem _ hz, hz2⟩

/-- The scale of a non-empty block is attained: some element has absolute value
`127 * scale`. -/
theorem block_scale_attained (xs : List ℚ) (hne : xs ≠ []) :
    ∃ y ∈ xs, |y| = 127 * block_scale xs := by
  have hmul : 127 * block_scale xs = xs.foldl (fun a x => max a |x|) 0 := by
    unfold block_scale
    exact mul_div_cancel₀ _ (by norm_num)
  rcases foldl_max_abs_attained xs 0 with h | ⟨y, hy, hy2⟩
  · obtain ⟨y, hy⟩ := List.exists_mem_of_ne_nil xs hne
    have h1 := (foldl_max_abs_ge xs 0).2 y hy
    rw [h] at h1
    refine ⟨y, hy, ?_⟩
    rw [hmul, h]
    exact le_antisymm h1 (abs_nonneg y)
  · exact ⟨y, hy, by rw [hmul]; exact hy2⟩

/-! ## An input whose indices leave the range of `int` -/

/-- A stride whose third weight scale index is beyond `INT_MAX` fetches no
scales. -/
theorem first_scales_overflow (p : matmul_params) (row col ch : Nat)
    (h : 2147483647 < (col + 2) * p.A.column + ch) : first_scales p row col ch = none := by
  cases hp : first_scales p row col ch with
  | none => rfl
  | some x =>
    simp only [first_scales, Option.pure_def, Option.bind_eq_bind, Option.bind_eq_some] at hp
    obtain ⟨sa, _, s0, _, c1, _, s1, _, c2, hc2, s2, hs2, _⟩ := hp
    obtain ⟨e, _⟩ := int_add_eq_some hc2
    subst e
    simp only [scale_of_block, block_index, Option.bind_eq_some] at hs2
    obtain ⟨b, ⟨i, hi, _⟩, _⟩ := hs2
    obtain ⟨_, hb⟩ := linear_index_eq_some hi
    omega

theorem ch_body_overflow (QM_x86 : Bool) (fuel : Nat) (p : matmul_params) (row col : Nat)
    (st : Nat × accumulators) (h : 2147483647 < (col + 2) * p.A.column + st.1) :
    ch_body QM_x86 fuel p row col st = .fault := by
  simp only [ch_body, pointers_overflow _ _ _ _ h, Outcome.ofOption_none, Outcome.bind_fault]

theorem long_rows_wf : data_model_invariants long_rows := by
  simp only [data_model_invariants, long_rows, List.length_replicate]
  decide

theorem long_rows_invariants : accumulation_invariants long_rows := by
  simp only [accumulation_invariants, long_rows, List.length_replicate]
  decide

theorem long_rows_fit : read_buffers_fit long_rows := by
  simp only [read_buffers_fit, long_rows, List.length_replicate]
  decide

theorem long_rows_overflow : 2147483647 < (0 + 2) * long_rows.A.column + 0 := by
  decide

theorem long_rows_not_done (fuel : Nat) (r : kernel_result) :
    mat_mul_loop_unrolling true fuel long_rows ≠ .done r :=
  kernel_not_done fuel long_rows (by decide) (by decide) (by decide)
    (Or.inl (pointers_overflow _ 0 0 0 long_rows_overflow)) r

theorem long_rows_accumulate_not_done (fuel : Nat) (a : Nat × out_state) :
    accumulate true fuel long_rows ⟨long_rows.C.data_ptr, []⟩ ≠ .done a :=
  accumulate_not_done fuel long_rows _ (by decide) (by decide) (by decide)
    (Or.inl (pointers_overflow _ 0 0 0 long_rows_overflow)) a

/-! ## The properties stated by the specification -/

/-- C2: for every byte value `b` in `0..255` the decoding step yields the pair
`((b & 0xF) - 8, (b >> 4) - 8)` as signed 8-bit values, both components lie in
`[-8, 7]`, and the detour through `double` and back to `signed char` loses
nothing. -/
theorem decode_byte_pair (b : Fin 256) :
    (w_de_0 b, w_de_16 b) = (((b.val &&& 0x0F : Nat) : ℤ) - 8, ((b.val >>> 4 : Nat) : ℤ) - 8)
      ∧ (-8 ≤ w_de_0 b ∧ w_de_0 b ≤ 7) ∧ (-8 ≤ w_de_16 b ∧ w_de_16 b ≤ 7) := by
  have h0 := land_15_lt b.val
  have h1 : b.val >>> 4 < 16 := by
    have := b.isLt
    rw [Nat.shiftRight_eq_div_pow]
    omega
  rw [w_de_0_eq, w_de_16_eq]
  refine ⟨rfl, ⟨?_, ?_⟩, ⟨?_, ?_⟩⟩ <;> omega

/-- C5: the weight byte `0xF0` decodes to low-nibble value `-8` and high-nibble
value `7`. -/
theorem decode_byte_0xF0 : w_de_0 0xF0 = -8 ∧ w_de_16 0xF0 = 7 := by
  rw [w_de_0_eq, w_de_16_eq]
  decide

/-- C3: in the interleaved layout, for a stride whose activation pointer is
`a` (`row * k + ch`) and whose four weight pointers are `w0 .. w3`, the loop over
`qj` ends after its 32 passes and leaves, for each of the four unrolled columns,
a first partial sum equal to the sum over `i < 32` of
`a_q[a + i] * low_nibble(byte i)` and a second partial sum equal to the sum over
`i < 32` of `a_q[a + 32 + i] * high_nibble(byte i)`, where byte `i` is the `i`-th
byte of that column's 32-byte run: the low nibbles meet only the first block of
activations and the high nibbles only the second. -/
theorem stride_partial_sums (fuel : Nat) (a8 : List ℤ) (w4 : List (Fin 256))
    (a w0 w1 w2 w3 : Nat) (hf : 32 ≤ fuel) (ha : a + 64 ≤ a8.length)
    (h0 : w0 + 32 ≤ w4.length) (h1 : w1 + 32 ≤ w4.length) (h2 : w2 + 32 ≤ w4.length)
    (h3 : w3 + 32 ≤ w4.length) :
    ∃ s, mac_loop fuel a8 w4 a w0 w1 w2 w3 = .done (32, s)
      ∧ s.intermediate_sum0
          = ∑ i in Finset.range 32, a8.getD (a + i) 0 * w_de_0 (w4.getD (w0 + i) 0)
      ∧ s.intermediate_sum0_2nd
          = ∑ i in Finset.range 32, a8.getD (a + 32 + i) 0 * w_de_16 (w4.getD (w0 + i) 0)
      ∧ s.intermediate_sum1
          = ∑ i in Finset.range 32, a8.getD (a + i) 0 * w_de_0 (w4.getD (w1 + i) 0)
      ∧ s.intermediate_sum1_2nd
          = ∑ i in Finset.range 32, a8.getD (a + 32 + i) 0 * w_de_16 (w4.getD (w1 + i) 0)
      ∧ s.intermediate_sum2
          = ∑ i in Finset.range 32, a8.getD (a + i) 0 * w_de_0 (w4.getD (w2 + i) 0)
      ∧ s.intermediate_sum2_2nd
          = ∑ i in Finset.range 32, a8.getD (a + 32 + i) 0 * w_de_16 (w4.getD (w2 + i) 0)
      ∧ s.intermediate_sum3
          = ∑ i in Finset.range 32, a8.getD (a + i) 0 * w_de_0 (w4.getD (w3 + i) 0)
      ∧ s.intermediate_sum3_2nd
          = ∑ i in Finset.range 32, a8.getD (a + 32 + i) 0 * w_de_16 (w4.getD (w3 + i) 0) := by
  have e : ∀ i, a + 32 + i = a + (i + 32) := fun i => by omega
  refine ⟨_, mac_loop_eq fuel a8 w4 a w0 w1 w2 w3 hf ha h0 h1 h2 h3, ?_⟩
  simp only [sums_after, low_dot, high_dot, e, and_self]

/-- Witness of C3: a stride over 64 activations equal to 3 and four runs of 32
bytes `0xF0`. -/
theorem stride_partial_sums_witness :
    (32 ≤ 32 ∧ 0 + 64 ≤ (List.replicate 64 (3 : ℤ)).length
      ∧ 0 + 32 ≤ (List.replicate 128 (0xF0 : Fin 256)).length
      ∧ 32 + 32 ≤ (List.replicate 128 (0xF0 : Fin 256)).length
      ∧ 64 + 32 ≤ (List.replicate 128 (0xF0 : Fin 256)).length
      ∧ 96 + 32 ≤ (List.replicate 128 (0xF0 : Fin 256)).length)
    ∧ ∃ s, mac_loop 32 (List.replicate 64 (3 : ℤ)) (List.replicate 128 (0xF0 : Fin 256))
          0 0 32 64 96 = .done (32, s)
      ∧ s.intermediate_sum0
          = ∑ i in Finset.range 32, (List.replicate 64 (3 : ℤ)).getD (0 + i) 0
              * w_de_0 ((List.replicate 128 (0xF0 : Fin 256)).getD (0 + i) 0)
      ∧ s.intermediate_sum0_2nd
          = ∑ i in Finset.range 32, (List.replicate 64 (3 : ℤ)).getD (0 + 32 + i) 0
              * w_de_16 ((List.replicate 128 (0xF0 : Fin 256)).getD (0 + i) 0)
      ∧ s.intermediate_sum1
          = ∑ i in Finset.range 32, (List.replicate 64 (3 : ℤ)).getD (0 + i) 0
              * w_de_0 ((List.replicate 128 (0xF0 : Fin 256)).getD (32 + i) 0)
      ∧ s.intermediate_sum1_2nd
          = ∑ i in Finset.range 32, (List.replicate 64 (3 : ℤ)).getD (0 + 32 + i) 0
              * w_de_16 ((List.replicate 128 (0xF0 : Fin 256)).getD (32 + i) 0)
      ∧ s.intermediate_sum2
          = ∑ i in Finset.range 32, (List.replicate 64 (3 : ℤ)).getD (0 + i) 0
              * w_de_0 ((List.replicate 128 (0xF0 : Fin 256)).getD (64 + i) 0)
      ∧ s.intermediate_sum2_2nd
          = ∑ i in Finset.range 32, (List.replicate 64 (3 : ℤ)).getD (0 + 32 + i) 0
              * w_de_16 ((List.replicate 128 (0xF0 : Fin 256)).getD (64 + i) 0)
      ∧ s.intermediate_sum3
          = ∑ i in Finset.range 32, (List.replicate 64 (3 : ℤ)).getD (0 + i) 0
              * w_de_0 ((List.replicate 128 (0xF0 : Fin 256)).getD (96 + i) 0)
      ∧ s.intermediate_sum3_2nd
          = ∑ i in Finset.range 32, (List.replicate 64 (3 : ℤ)).getD (0 + 32 + i) 0
              * w_de_16 ((List.replicate 128 (0xF0 : Fin 256)).getD (96 + i) 0) :=
  ⟨by simp,
    stride_partial_sums 32 (List.replicate 64 (3 : ℤ)) (List.replicate 128 (0xF0 : Fin 256))
      0 0 32 64 96 (by simp) (by simp) (by simp) (by simp) (by simp) (by simp)⟩


/-- C1 as stated fails: `two_rows_32` satisfies the data-model invariants with
`block_size = 32` (its shared dimension `k = 32` is one block), and no run of the
kernel on it reaches its end: in the first stride the kernel fetches the scale
of a second block behind the end of the weight scale table and stops at that
out-of-range read, so it leaves no value in `C`.  It also fails on `long_rows`,
which satisfies the invariants with `k = 2^30` a multiple of 64: the index
`(col + 2) * k + ch` of line 34 is `2^31` in the first stride, above `INT_MAX`,
and no run reaches its end. -/
theorem one_block_row_leaves_no_value :
    data_model_invariants two_rows_32 ∧ two_rows_32.block_size = 32
      ∧ mat_mul_loop_unrolling true 64 two_rows_32 = .fault
      ∧ (¬ ∃ fuel r, mat_mul_loop_unrolling true fuel two_rows_32 = .done r)
      ∧ data_model_invariants long_rows ∧ long_rows.block_size = 32
      ∧ long_rows.A.column % 64 = 0
      ∧ 2147483647 < (0 + 2) * long_rows.A.column + 0
      ∧ ¬ ∃ fuel r, mat_mul_loop_unrolling true fuel long_rows = .done r := by
  refine ⟨by decide, rfl, by decide!, ?_, long_rows_wf, rfl, by decide, long_rows_overflow, ?_⟩
  · rintro ⟨fuel, r, h⟩
    exact two_rows_32_not_done fuel r h
  · rintro ⟨fuel, r, h⟩
    exact long_rows_not_done fuel r h

/-- C1, amended: in the interleaved-layout build with `block_size = 32`, for
every input that satisfies the data-model invariants, whose shared dimension
`k` is a multiple of 64 and whose sizes `m`, `m * k`, `n * k`, `m * n` are at
most `INT_MAX`, the kernel ends and leaves in `C[r][c]`, for every
`r < m` and `c < n`, the sum over all blocks `b < k / 32` of the block's integer
dot product of the quantized activations with the logical decoded weights,
times `A_scales[r][b]` times `scales[c][b]`; this is the value of the reference
that handles one column and one block at a time.  The quantized activations and
the activation scales are those the quantization pass of line 17 leaves. -/
theorem kernel_computes_block_sums (p : matmul_params) (fuel : Nat)
    (hwf : data_model_invariants p) (hbs : p.block_size = 32) (h64 : p.A.column % 64 = 0)
    (hsz : int_sized p) (hf : 32 ≤ fuel) (hfk : p.A.column ≤ fuel) (hfm : p.C.row ≤ fuel)
    (hfn : p.C.column ≤ fuel) :
    ∃ r, mat_mul_loop_unrolling true fuel p = .done r
      ∧ quantize_pass p = some { r.params with C := p.C }
      ∧ ∀ row c, row < p.C.row → c < p.C.column →
          r.params.C.data_ptr[row * p.C.column + c]? = some (block_sum r.params row c)
            ∧ block_sum r.params row c = reference_entry r.params row c := by
  obtain ⟨r, hr, hq, _, _, _, _, hval⟩ := kernel_total p fuel hwf hbs h64 hsz hf hfk hfm hfn
  exact ⟨r, hr, hq,
    fun row c hrow hc => ⟨hval row c hrow hc, (reference_entry_eq _ _ _).symm⟩⟩

/-- Witness of C1 (amended): the two-block scenario. -/
theorem kernel_computes_block_sums_witness :
    (data_model_invariants scenario_64 ∧ scenario_64.block_size = 32
      ∧ scenario_64.A.column % 64 = 0 ∧ int_sized scenario_64 ∧ 32 ≤ 64
      ∧ scenario_64.A.column ≤ 64 ∧ scenario_64.C.row ≤ 64 ∧ scenario_64.C.column ≤ 64)
    ∧ ∃ r, mat_mul_loop_unrolling true 64 scenario_64 = .done r
      ∧ quantize_pass scenario_64 = some { r.params with C := scenario_64.C }
      ∧ ∀ row c, row < scenario_64.C.row → c < scenario_64.C.column →
          r.params.C.data_ptr[row * scenario_64.C.column + c]?
              = some (block_sum r.params row c)
            ∧ block_sum r.params row c = reference_entry r.params row c :=
  ⟨by simp [data_model_invariants, int_sized, scenario_64],
    kernel_computes_block_sums scenario_64 64 (by simp [data_model_invariants, scenario_64])
      (by decide) (by decide) (by decide) (by decide) (by decide) (by decide) (by decide)⟩

/-- C4 as stated fails: in the scenario of the specification (`A` of shape
`1 × 32`, all ones, `B` of shape `4 × 32`, every byte `0x99`, every weight scale
one) the single block is quantized to 32 values of 127 with scale `1 / 127`, but
the kernel then reads the scale of a second block of weight row 3 behind the end
of the scale table; every run stops at that out-of-range read, none reaches its
end, and nothing is written to `C`. -/
theorem scenario_32_faults :
    quantize_fp32_to_int8 scenario_32.A.data_ptr scenario_32.A.int8_data_ptr
        scenario_32.A_scales 32 32 = some (List.replicate 32 127, [1 / 127])
      ∧ mat_mul_loop_unrolling true 64 scenario_32 = .fault
      ∧ ¬ ∃ fuel r, mat_mul_loop_unrolling true fuel scenario_32 = .done r
          ∧ r.params.C.data_ptr = [32, 32, 32, 32] := by
  refine ⟨by decide!, by decide!, ?_⟩
  rintro ⟨fuel, r, h, _⟩
  exact scenario_32_not_done fuel r h

/-- C4, amended: for `A` of shape `1 × 64`, all ones, whose two blocks are
quantized to 64 values of 127 with activation scales `1 / 127`, `B` of shape
`4 × 64` whose packed weight bytes are all `0x99` (every decoded weight is 1)
with every weight scale one, and `block_size = 32`, the kernel writes
`64 * 127 * (1 / 127) * 1 = 64` into each of the 4 output columns. -/
theorem scenario_64_result_eq :
    mat_mul_loop_unrolling true 64 scenario_64 = .done scenario_64_result
      ∧ scenario_64_result.params.A.int8_data_ptr = List.replicate 64 127
      ∧ scenario_64_result.params.A_scales = [1 / 127, 1 / 127]
      ∧ scenario_64_result.params.C.data_ptr = [64, 64, 64, 64]
      ∧ (64 : ℚ) = 64 * 127 * (1 / 127) * 1 := by
  refine ⟨scenario_64_run, rfl, rfl, rfl, by norm_num⟩


/-- C6 as stated fails: `quantized_32` satisfies every listed invariant (shapes,
`k % block_size = 0` with `block_size = 32`, `C.cols % 4 = 0`, the five buffer
lengths), and in the first stride of its first tile the accumulation pass reads
`scales[4]` of a weight scale table of length 4 and `a_int8[32]` of a quantized
activation buffer of length 32: the out-of-range branch is taken.  It also
fails on `long_rows`, which satisfies every listed invariant with `k = 2^30` a
multiple of 64: the `int` index `(col + 2) * k + ch` of line 34 is `2^31` in the
first stride, above `INT_MAX`, so no index inside the buffer is computed and the
pass does not reach its end. -/
theorem one_block_row_reads_out_of_range :
    accumulation_invariants quantized_32
      ∧ quantized_32.scales[(3 * quantized_32.A.column + 0) / quantized_32.block_size + 1]? = none
      ∧ quantized_32.A.int8_data_ptr[0 * quantized_32.A.column + 0 + (0 + 32)]? = none
      ∧ accumulate true 64 quantized_32 ⟨quantized_32.C.data_ptr, []⟩ = .fault
      ∧ (¬ ∃ fuel a, accumulate true fuel quantized_32 ⟨quantized_32.C.data_ptr, []⟩ = .done a)
      ∧ accumulation_invariants long_rows ∧ long_rows.A.column % 64 = 0
      ∧ 2147483647 < (0 + 2) * long_rows.A.column + 0
      ∧ pointers long_rows.A.column 0 0 0 = none
      ∧ ¬ ∃ fuel a, accumulate true fuel long_rows ⟨long_rows.C.data_ptr, []⟩ = .done a := by
  refine ⟨by decide, by decide, by decide, by decide!, ?_, long_rows_invariants, by decide,
    long_rows_overflow, pointers_overflow _ 0 0 0 long_rows_overflow, ?_⟩
  · rintro ⟨fuel, a, h⟩
    exact quantized_32_not_done fuel a h
  · rintro ⟨fuel, a, h⟩
    exact long_rows_accumulate_not_done fuel a h

/-- C6, amended: for every input that satisfies the listed invariants, whose
shared dimension `k` is a multiple of 64 (two blocks of 32) and whose sizes `m`,
`m * k`, `n * k`, `m * n` are at most `INT_MAX`, every read the accumulation
pass makes of the quantized activation buffer, the packed weight
buffer and the two scale tables, and every write it makes to `C`, uses an index
inside that buffer: the pass runs to its end, the out-of-range branch of the
`Option`-returning accesses is never taken. -/
theorem accumulation_stays_in_range (p : matmul_params) (fuel : Nat)
    (hinv : accumulation_invariants p) (h64 : p.A.column % 64 = 0) (hsz : int_sized p)
    (hf : 32 ≤ fuel) (hfk : p.A.column ≤ fuel) (hfm : p.C.row ≤ fuel)
    (hfn : p.C.column ≤ fuel) :
    (∃ a, accumulate true fuel p ⟨p.C.data_ptr, []⟩ = .done a)
      ∧ accumulate true fuel p ⟨p.C.data_ptr, []⟩ ≠ .fault := by
  obtain ⟨hfit, hn, hlen⟩ := fit_of_accumulation_invariants hinv
  obtain ⟨a, ha⟩ := accumulate_done fuel p (p.A.column / 64) ⟨p.C.data_ptr, []⟩ hfit hsz
    (by omega) hn hf (by omega) hfn hfm (Nat.le_of_eq hlen.symm)
  exact ⟨⟨a, ha⟩, by rw [ha]; simp⟩

/-- Witness of C6 (amended): `A` of shape `2 × 64`, `B` of shape `8 × 64`. -/
theorem accumulation_stays_in_range_witness :
    (accumulation_invariants quantized_64 ∧ quantized_64.A.column % 64 = 0
      ∧ int_sized quantized_64 ∧ 32 ≤ 64
      ∧ quantized_64.A.column ≤ 64 ∧ quantized_64.C.row ≤ 64 ∧ quantized_64.C.column ≤ 64)
    ∧ (∃ a, accumulate true 64 quantized_64 ⟨quantized_64.C.data_ptr, []⟩ = .done a)
    ∧ accumulate true 64 quantized_64 ⟨quantized_64.C.data_ptr, []⟩ ≠ .fault :=
  ⟨by decide!,
    accumulation_stays_in_range quantized_64 64 (by decide!)
      (by decide) (by decide) (by decide) (by decide) (by decide) (by decide)⟩

/-- C7 as stated fails: `scenario_32` is well formed (the data-model invariants
hold, `block_size = 32 >= 1` divides `k = 32`), and no run of the kernel on it
returns: every stride takes two blocks, the first one reads the scale of a
second block behind the end of the weight scale table, and the run stops there.
Nor does the kernel return on `long_rows`, well formed with `k = 2^30` a
multiple of `2 * block_size`: the index `(col + 2) * k + ch` of line 34 is
`2^31` in the first stride, above `INT_MAX`. -/
theorem well_formed_input_does_not_return :
    data_model_invariants scenario_32 ∧ 1 ≤ scenario_32.block_size
      ∧ scenario_32.A.column % scenario_32.block_size = 0
      ∧ mat_mul_loop_unrolling true 64 scenario_32 = .fault
      ∧ (¬ ∃ fuel r, mat_mul_loop_unrolling true fuel scenario_32 = .done r)
      ∧ data_model_invariants long_rows ∧ 1 ≤ long_rows.block_size
      ∧ long_rows.A.column % (2 * long_rows.block_size) = 0
      ∧ 2147483647 < (0 + 2) * long_rows.A.column + 0
      ∧ ¬ ∃ fuel r, mat_mul_loop_unrolling true fuel long_rows = .done r := by
  refine ⟨by decide, by decide, by decide, by decide!, ?_, long_rows_wf, by decide, by decide,
    long_rows_overflow, ?_⟩
  · rintro ⟨fuel, r, h⟩
    exact scenario_32_not_done fuel r h
  · rintro ⟨fuel, r, h⟩
    exact long_rows_not_done fuel r h

/-- C7, amended: in the interleaved-layout build, for every well-formed input
with `block_size = 32`, `k` a multiple of 64 (two blocks) and sizes `m`, `m * k`,
`n * k`, `m * n` at most `INT_MAX`, the kernel returns, for all such `m`, `n`,
`k`, within the iteration budget `fuel >= max(32, m, n, k)`: every pass of the
loop over the shared dimension moves `ch` up by `2 * block_size`, so strictly
up, and the loop leaves with `ch >= k`.  On every input with `block_size >= 1`,
well formed or not, no loop of the nest is still running when that budget is
used up: the run has returned, or it has stopped at an out-of-range access or
at an `int` overflow. -/
theorem kernel_terminates (p : matmul_params) (fuel : Nat) (hwf : data_model_invariants p)
    (hbs : p.block_size = 32) (h64 : p.A.column % 64 = 0) (hsz : int_sized p)
    (hf : 32 ≤ fuel) (hfk : p.A.column ≤ fuel) (hfm : p.C.row ≤ fuel)
    (hfn : p.C.column ≤ fuel) :
    (∃ r, mat_mul_loop_unrolling true fuel p = .done r)
      ∧ (∀ row col st st2, ch_body true fuel p row col st = .done st2 →
          st2.1 = st.1 + 2 * p.block_size ∧ st.1 < st2.1)
      ∧ (∀ row col r, ch_loop true fuel p row col = .done r → p.A.column ≤ r.1)
      ∧ (∀ q : matmul_params, 1 ≤ q.block_size → q.A.column ≤ fuel → q.C.row ≤ fuel →
          q.C.column ≤ fuel → mat_mul_loop_unrolling true fuel q ≠ .out_of_fuel) := by
  refine ⟨?_, ?_, ?_, ?_⟩
  · obtain ⟨r, hr, _⟩ := kernel_total p fuel hwf hbs h64 hsz hf hfk hfm hfn
    exact ⟨r, hr⟩
  · intro row col st st2 h
    have := ch_body_step h
    omega
  · intro row col r h
    exact ch_loop_exit h
  · intro q hb hqk hqm hqn
    exact kernel_ne_out_of_fuel fuel q hb hf hqk hqn hqm

/-- Witness of C7 (amended): the two-block scenario; its run returns. -/
theorem kernel_terminates_witness :
    (data_model_invariants scenario_64 ∧ scenario_64.block_size = 32
      ∧ scenario_64.A.column % 64 = 0 ∧ int_sized scenario_64 ∧ 32 ≤ 64
      ∧ scenario_64.A.column ≤ 64 ∧ scenario_64.C.row ≤ 64 ∧ scenario_64.C.column ≤ 64)
    ∧ ∃ r, mat_mul_loop_unrolling true 64 scenario_64 = .done r :=
  ⟨by simp [data_model_invariants, int_sized, scenario_64],
    (kernel_terminates scenario_64 64 (by simp [data_model_invariants, scenario_64])
      (by decide) (by decide) (by decide) (by decide) (by decide) (by decide) (by decide)).1⟩


/-- C8: for every input with `C.rows = A.rows`, `C.cols = B.rows` and
`C.cols % 4 = 0`, the output that a run of the kernel populates has shape
`A.rows × B.rows`: the entries of `C` written by the run are exactly the entries
`(r, c)` with `r < A.rows` and `c < B.rows` (flat index `r * B.rows + c`), there
are `A.rows * B.rows` stores, and the shape fields of `C` are unchanged. -/
theorem written_entries_shape (QM_x86 : Bool) (fuel : Nat) (p : matmul_params)
    (r : kernel_result) (hrows : p.C.row = p.A.row) (hcols : p.C.column = p.B.row)
    (h4 : p.C.column % 4 = 0) (h : mat_mul_loop_unrolling QM_x86 fuel p = .done r) :
    (∀ i, i ∈ r.writes.map Prod.fst
        ↔ ∃ row c, row < p.A.row ∧ c < p.B.row ∧ i = row * p.B.row + c)
      ∧ r.writes.length = p.A.row * p.B.row
      ∧ r.params.C.row = p.A.row ∧ r.params.C.column = p.B.row := by
  obtain ⟨e1, e2, _, hw, _, _⟩ := kernel_partial h4 h
  have hfst : r.writes.map Prod.fst = List.range (p.A.row * p.B.row) := by
    rw [hw, all_writes_fst, e2, hrows, hcols]
  refine ⟨?_, ?_, by rw [e1, hrows], by rw [e2, hcols]⟩
  · intro i
    rw [hfst, List.mem_range]
    exact flat_index_iff _ _ _
  · have := congrArg List.length hfst
    simpa using this

/-- Witness of C8: the two-block scenario, of shape `1 × 4`. -/
theorem written_entries_shape_witness :
    (scenario_64.C.row = scenario_64.A.row ∧ scenario_64.C.column = scenario_64.B.row
      ∧ scenario_64.C.column % 4 = 0
      ∧ mat_mul_loop_unrolling true 64 scenario_64 = .done scenario_64_result)
    ∧ (∀ i, i ∈ scenario_64_result.writes.map Prod.fst
        ↔ ∃ row c, row < scenario_64.A.row ∧ c < scenario_64.B.row
            ∧ i = row * scenario_64.B.row + c)
    ∧ scenario_64_result.writes.length = scenario_64.A.row * scenario_64.B.row
    ∧ scenario_64_result.params.C.row = scenario_64.A.row
    ∧ scenario_64_result.params.C.column = scenario_64.B.row :=
  ⟨⟨rfl, rfl, by decide, scenario_64_run⟩,
    written_entries_shape true 64 scenario_64 scenario_64_result rfl rfl (by decide)
      scenario_64_run⟩

/-- C9: every pass of the loop over the column groups stores its four
accumulators at the flat indices `r * n + c`, `r * n + c + 1`, `r * n + c + 2`,
`r * n + c + 3` of `C`; in a run (with `n % 4 = 0`) the stores are, row by row
and column by column, one store at `r * n + c` for every `r < m` and `c < n`;
the indices written for row `r` lie in `[r * n, (r + 1) * n)`; and the indices
written by the whole run are `0, 1, ..., m * n - 1`, each once: no two rows write
the same entry and every entry of `C` is written exactly once. -/
theorem stores_row_by_row (QM_x86 : Bool) (fuel : Nat) (p : matmul_params)
    (r : kernel_result) (h4 : p.C.column % 4 = 0)
    (h : mat_mul_loop_unrolling QM_x86 fuel p = .done r) :
    (∀ (q : matmul_params) (row : Nat) (st st2 : Nat × out_state),
        col_body QM_x86 fuel q row st = .done st2 →
        ∃ acc : accumulators, st2.2.writes = st.2.writes
          ++ [(row * q.C.column + st.1, acc.acc0), (row * q.C.column + st.1 + 1, acc.acc1),
              (row * q.C.column + st.1 + 2, acc.acc2), (row * q.C.column + st.1 + 3, acc.acc3)])
      ∧ r.writes = (List.range p.C.row).flatMap (fun row =>
          (List.range p.C.column).map fun c =>
            (row * p.C.column + c, stored_value QM_x86 fuel r.params row c))
      ∧ (∀ row, ∀ e ∈ (List.range p.C.column).map (fun c =>
            (row * p.C.column + c, stored_value QM_x86 fuel r.params row c)),
          row * p.C.column ≤ e.1 ∧ e.1 < (row + 1) * p.C.column)
      ∧ r.writes.map Prod.fst = List.range (p.C.row * p.C.column)
      ∧ (r.writes.map Prod.fst).Nodup := by
  obtain ⟨_, e2, _, hw, _, _⟩ := kernel_partial h4 h
  have hfst : r.writes.map Prod.fst = List.range (p.C.row * p.C.column) := by
    rw [hw, all_writes_fst, e2]
  refine ⟨?_, ?_, ?_, hfst, ?_⟩
  · intro q row st st2 hb
    obtain ⟨acc, _, hacc⟩ := col_body_writes hb
    exact ⟨acc, hacc⟩
  · rw [hw]
    simp only [all_writes, row_writes, e2]
  · intro row e he
    obtain ⟨c, hc, rfl⟩ := List.mem_map.mp he
    have hc := List.mem_range.mp hc
    have : (row + 1) * p.C.column = row * p.C.column + p.C.column := by ring
    simp only
    omega
  · rw [hfst]
    exact List.nodup_range _

/-- Witness of C9: the two-block scenario. -/
theorem stores_row_by_row_witness :
    (scenario_64.C.column % 4 = 0
      ∧ mat_mul_loop_unrolling true 64 scenario_64 = .done scenario_64_result)
    ∧ scenario_64_result.writes.map Prod.fst
        = List.range (scenario_64.C.row * scenario_64.C.column)
    ∧ (scenario_64_result.writes.map Prod.fst).Nodup :=
  ⟨⟨by decide, scenario_64_run⟩,
    (stores_row_by_row true 64 scenario_64 scenario_64_result (by decide)
      scenario_64_run).2.2.2⟩

/-- C10: idempotence.  For every well-formed parameter state `p` on which a
run of the kernel ends, with result `r`, a run on the resulting state
`r.params` ends with the same result: the same `C`, the same quantized
activation buffer, the same activation scale table (and the same stores).  And
the result does not depend on the prior contents of `C`, of the activation
`int8` buffer or of the activation scale table: with any other contents of the
same lengths in these three buffers, the run ends with the same result `r`. -/
theorem kernel_is_idempotent (QM_x86 : Bool) (fuel : Nat) (p : matmul_params)
    (r : kernel_result) (hwf : data_model_invariants p)
    (h : mat_mul_loop_unrolling QM_x86 fuel p = .done r) :
    mat_mul_loop_unrolling QM_x86 fuel r.params = .done r
      ∧ ∀ (x : List ℤ) (y z : List ℚ), x.length = p.A.int8_data_ptr.length →
          y.length = p.A_scales.length → z.length = p.C.data_ptr.length →
          mat_mul_loop_unrolling QM_x86 fuel (with_buffers p x y z) = .done r :=
  ⟨kernel_idempotent hwf.2.2.2.2.1 h, fun x y z hx hy hz => kernel_independent hwf x y z hx hy hz h⟩

/-- Witness of C10: the two-block scenario and the result of its run. -/
theorem kernel_is_idempotent_witness :
    (data_model_invariants scenario_64
      ∧ mat_mul_loop_unrolling true 64 scenario_64 = .done scenario_64_result)
    ∧ mat_mul_loop_unrolling true 64 scenario_64_result.params = .done scenario_64_result
    ∧ ∀ (x : List ℤ) (y z : List ℚ), x.length = scenario_64.A.int8_data_ptr.length →
        y.length = scenario_64.A_scales.length → z.length = scenario_64.C.data_ptr.length →
        mat_mul_loop_unrolling true 64 (with_buffers scenario_64 x y z)
          = .done scenario_64_result :=
  ⟨⟨by simp [data_model_invariants, scenario_64], scenario_64_run⟩,
    kernel_is_idempotent true 64 scenario_64 scenario_64_result
      (by simp [data_model_invariants, scenario_64]) scenario_64_run⟩


/-- C12: for every input, after `mat_mul_loop_unrolling` returns, the packed
weight buffer of `B` (and all of `B`), the weight scale table, the float data of
`A`, the offset table, `block_size` and all matrix dimensions are unchanged; the
state after the run is the state before it with new contents in just three
buffers: the float buffer of `C`, the activation `int8` buffer and the
activation scale table. -/
theorem kernel_modifies_only_three_buffers (QM_x86 : Bool) (fuel : Nat) (p : matmul_params)
    (r : kernel_result) (h : mat_mul_loop_unrolling QM_x86 fuel p = .done r) :
    r.params.B = p.B ∧ r.params.scales = p.scales ∧ r.params.A.data_ptr = p.A.data_ptr
      ∧ r.params.offset = p.offset ∧ r.params.block_size = p.block_size
      ∧ r.params.A.row = p.A.row ∧ r.params.A.column = p.A.column
      ∧ r.params.C.row = p.C.row ∧ r.params.C.column = p.C.column
      ∧ r.params = with_buffers p r.params.A.int8_data_ptr r.params.A_scales
          r.params.C.data_ptr := by
  have hf := kernel_frame h
  refine ⟨?_, ?_, ?_, ?_, ?_, ?_, ?_, ?_, ?_, hf⟩ <;> rw [hf] <;> rfl

/-- Witness of C12: the two-block scenario and the result of its run. -/
theorem kernel_modifies_only_three_buffers_witness :
    mat_mul_loop_unrolling true 64 scenario_64 = .done scenario_64_result
      ∧ scenario_64_result.params.B = scenario_64.B
      ∧ scenario_64_result.params.scales = scenario_64.scales
      ∧ scenario_64_result.params.A.data_ptr = scenario_64.A.data_ptr
      ∧ scenario_64_result.params.offset = scenario_64.offset
      ∧ scenario_64_result.params.block_size = scenario_64.block_size
      ∧ scenario_64_result.params.A.row = scenario_64.A.row
      ∧ scenario_64_result.params.A.column = scenario_64.A.column
      ∧ scenario_64_result.params.C.row = scenario_64.C.row
      ∧ scenario_64_result.params.C.column = scenario_64.C.column
      ∧ scenario_64_result.params = with_buffers scenario_64
          scenario_64_result.params.A.int8_data_ptr scenario_64_result.params.A_scales
          scenario_64_result.params.C.data_ptr :=
  ⟨scenario_64_run,
    kernel_modifies_only_three_buffers true 64 scenario_64 scenario_64_result scenario_64_run⟩

/-- C18: for any signed 8-bit activations and any packed weight bytes, each of
the eight integer partial sums accumulated over the 32 passes of the inner loop
lies in `[-32512, 32768]`: every pass adds a product in `[-1016, 1024]` to each
sum, so after `qj` passes every sum lies in `[-1016 * qj, 1024 * qj]`.  Hence no
sum leaves the range of a 32-bit signed `int` (keeping it in 32 bits changes
nothing) and every sum has magnitude below `2^24`, so that its conversion to a
32-bit float is exact. -/
theorem partial_sums_in_range (fuel : Nat) (a8 : List ℤ) (w4 : List (Fin 256))
    (a w0 w1 w2 w3 : Nat) (r : Nat × partial_sums)
    (h8 : ∀ x ∈ a8, -128 ≤ x ∧ x ≤ 127)
    (h : mac_loop fuel a8 w4 a w0 w1 w2 w3 = .done r) :
    r.1 = 32 ∧ sums_within (-32512) 32768 r.2
      ∧ (∀ z ∈ sums_values r.2, int32_wrap z = z ∧ |z| < 16777216)
      ∧ (∀ (qj : Nat) (s s2 : partial_sums), qj < 32 →
          sums_within (-(1016 * (qj : ℤ))) (1024 * (qj : ℤ)) s →
          mac_body a8 w4 a w0 w1 w2 w3 qj s = some s2 →
          sums_within (-(1016 * (qj : ℤ)) - 1016) (1024 * (qj : ℤ) + 1024) s2
            ∧ sums_within (-32512) 32768 s2) := by
  obtain ⟨h32, hin⟩ := mac_loop_range fuel a8 w4 a w0 w1 w2 w3 r h8 h
  refine ⟨h32, hin, sums_values_exact r.2 hin, ?_⟩
  intro qj s s2 hq hs hb
  have h2 := mac_body_range a8 w4 a w0 w1 w2 w3 qj s s2 h8 _ _ hs hb
  refine ⟨h2, ?_⟩
  obtain ⟨⟨_, _⟩, ⟨_, _⟩, ⟨_, _⟩, ⟨_, _⟩, ⟨_, _⟩, ⟨_, _⟩, ⟨_, _⟩, ⟨_, _⟩⟩ := h2
  simp only [sums_within]
  refine ⟨⟨?_, ?_⟩, ⟨?_, ?_⟩, ⟨?_, ?_⟩, ⟨?_, ?_⟩, ⟨?_, ?_⟩, ⟨?_, ?_⟩, ⟨?_, ?_⟩, ⟨?_, ?_⟩⟩ <;> omega

/-- Witness of C18: every activation is `-128` and every weight byte is `0x00`
(both nibbles decode to `-8`), so every sum reaches the upper bound `32768`. -/
theorem partial_sums_in_range_witness :
    ((∀ x ∈ List.replicate 64 (-128 : ℤ), -128 ≤ x ∧ x ≤ 127)
      ∧ mac_loop 32 (List.replicate 64 (-128 : ℤ)) (List.replicate 128 (0 : Fin 256)) 0 0 32 64 96
          = .done (32, ⟨32768, 32768, 32768, 32768, 32768, 32768, 32768, 32768⟩))
    ∧ sums_within (-32512) 32768
        (⟨32768, 32768, 32768, 32768, 32768, 32768, 32768, 32768⟩ : partial_sums) :=
  ⟨⟨fun x hx => by rw [(List.mem_replicate.mp hx).2]; decide, by decide!⟩,
    (partial_sums_in_range 32 (List.replicate 64 (-128 : ℤ)) (List.replicate 128 (0 : Fin 256))
      0 0 32 64 96 (32, ⟨32768, 32768, 32768, 32768, 32768, 32768, 32768, 32768⟩)
      (fun x hx => by rw [(List.mem_replicate.mp hx).2]; decide) (by decide!)).2.1⟩

/-- C16 fails on the code: in the build without `QM_x86` the body of the loop
over the shared dimension ends after the scale fetches of lines 37-42 and leaves
`ch` as it was (the only update of `ch`, line 106, is inside `#ifdef QM_x86`).
On the two-block scenario the pass at `ch = 0` gives back `ch = 0`, the run is
still in that loop when an iteration budget of 64 passes is used up, and no
iteration budget lets the kernel return. -/
theorem sequential_build_never_returns :
    ch_body false 64 scenario_64_result.params 0 0 (0, ⟨0, 0, 0, 0⟩) = .done (0, ⟨0, 0, 0, 0⟩)
      ∧ mat_mul_loop_unrolling false 64 scenario_64 = .out_of_fuel
      ∧ ¬ ∃ fuel r, mat_mul_loop_unrolling false fuel scenario_64 = .done r := by
  refine ⟨by decide!, by decide!, ?_⟩
  rintro ⟨fuel, r, h⟩
  exact kernel_sequential_not_done fuel scenario_64 (by decide) (by decide) (by decide) r h

/-- C15 as stated fails for a block size other than 32: with `block_size = 64`
and `k = 128 = 2 * block_size`, the pass of the shared-dimension loop that starts
at `ch = 0` moves `ch` to 128 but only the 64 elements `[0, 64)` enter the
accumulators.  All 128 activations, all weights and all scales are 1, and every
accumulator ends as 64, not 128; putting 100 in place of 1 in the elements
`[64, 128)` changes nothing.  With `block_size = 32` it fails on `long_rows`,
whose buffers have the lengths of the data model and whose `k = 2^30` is a
multiple of 64: in the pass at `ch = 0` of the first tile the index
`(col + 2) * k + ch` of line 34 is `2^31`, above `INT_MAX`, and the pass
handles no element. -/
theorem stride_of_64_element_blocks_skips_elements :
    blocks_of_64_elements.block_size = 64
      ∧ blocks_of_64_elements.A.column = 2 * blocks_of_64_elements.block_size
      ∧ ch_body true 64 blocks_of_64_elements 0 0 (0, ⟨0, 0, 0, 0⟩)
          = .done (128, ⟨64, 64, 64, 64⟩)
      ∧ ch_loop true 64 blocks_of_64_elements 0 0 = .done (128, ⟨64, 64, 64, 64⟩)
      ∧ ch_loop true 64 blocks_of_64_elements_other_tail 0 0
          = .done (128, ⟨64, 64, 64, 64⟩)
      ∧ read_buffers_fit long_rows
      ∧ long_rows.A.column % (2 * long_rows.block_size) = 0
      ∧ 2147483647 < (0 + 2) * long_rows.A.column + 0
      ∧ ch_body true 64 long_rows 0 0 (0, ⟨0, 0, 0, 0⟩) = .fault := by
  refine ⟨rfl, rfl, by decide!, by decide!, by decide!, long_rows_fit, by decide,
    long_rows_overflow, ch_body_overflow true 64 long_rows 0 0 _ long_rows_overflow⟩

/-- C15, amended: in the interleaved layout, for `block_size = 32`, `k` a
multiple of 64 and sizes `m`, `m * k`, `n * k`, `m * n` at most `INT_MAX`, the
pass of the shared-dimension loop that starts at offset
`ch = 64 * s` moves `ch` up by `2 * block_size` and handles exactly the 64
elements `[ch, ch + 64)` as the two blocks `2 * s` (elements `ch + i`) and
`2 * s + 1` (elements `ch + 32 + i`, `i < 32`): to each of the four accumulators
it adds the integer dot product of each of the two blocks, rescaled by the
activation and weight scales of that block.  Over the whole loop each
accumulator becomes the sum over all blocks `b < k / 32`, so every element of
the row contributes exactly once, rescaled by the scales of its block. -/
theorem stride_covers_two_blocks (fuel : Nat) (p : matmul_params) (row col s t : Nat)
    (hfit : read_buffers_fit p) (hsz : int_sized p) (hk : p.A.column = 64 * t)
    (hf : 32 ≤ fuel) (hft : t ≤ fuel)
    (hrow : row < p.C.row) (hcol : col + 3 < p.C.column) (hs : s < t) :
    (∀ acc, ch_body true fuel p row col (64 * s, acc)
        = .done (64 * s + 2 * p.block_size, add_two_blocks p row col (2 * s) acc))
      ∧ (∀ c, block_dot p row c (2 * s) = ∑ i in Finset.range 32,
          p.A.int8_data_ptr.getD (row * p.A.column + (64 * s + i)) 0
            * logical_weight p.B.int4_data_ptr p.A.column c (64 * s + i))
      ∧ (∀ c, block_dot p row c (2 * s + 1) = ∑ i in Finset.range 32,
          p.A.int8_data_ptr.getD (row * p.A.column + (64 * s + 32 + i)) 0
            * logical_weight p.B.int4_data_ptr p.A.column c (64 * s + 32 + i))
      ∧ ch_loop true fuel p row col
          = .done (p.A.column, ⟨block_sum p row col, block_sum p row (col + 1),
              block_sum p row (col + 2), block_sum p row (col + 3)⟩)
      ∧ (∀ c, block_sum p row c
          = ∑ b in Finset.range (p.A.column / 32), block_term p row c b) := by
  have e1 : 32 * (2 * s) = 64 * s := by ring
  have e2 : 32 * (2 * s + 1) = 64 * s + 32 := by ring
  refine ⟨?_, ?_, ?_, ch_loop_block_sum fuel p row col t hfit hsz hk hf hft hrow hcol,
    fun c => block_sum_eq_sum_block_term p row c⟩
  · intro acc
    rw [hfit.1]
    exact ch_body_two_blocks fuel p row col s t hfit hsz hk hf hrow hcol hs acc
  · intro c
    rw [block_dot_elements, e1]
  · intro c
    rw [block_dot_elements, e2]

/-- Witness of C15 (amended): the first stride of the tile at row 0, column 0 of
a `2 × 64` by `8 × 64` input. -/
theorem stride_covers_two_blocks_witness :
    (read_buffers_fit quantized_64 ∧ int_sized quantized_64
      ∧ quantized_64.A.column = 64 * 1 ∧ 32 ≤ 64 ∧ 1 ≤ 64
      ∧ 0 < quantized_64.C.row ∧ 0 + 3 < quantized_64.C.column ∧ 0 < 1)
    ∧ (∀ acc, ch_body true 64 quantized_64 0 0 (64 * 0, acc)
        = .done (64 * 0 + 2 * quantized_64.block_size, add_two_blocks quantized_64 0 0 (2 * 0) acc))
    ∧ ch_loop true 64 quantized_64 0 0
        = .done (quantized_64.A.column, ⟨block_sum quantized_64 0 0,
            block_sum quantized_64 0 (0 + 1), block_sum quantized_64 0 (0 + 2),
            block_sum quantized_64 0 (0 + 3)⟩) :=
  ⟨by decide!,
    (stride_covers_two_blocks 64 quantized_64 0 0 0 1 (by decide!) (by decide) (by decide)
      (by decide) (by decide) (by decide) (by decide) (by decide)).1,
    (stride_covers_two_blocks 64 quantized_64 0 0 0 1 (by decide!) (by decide) (by decide)
      (by decide) (by decide) (by decide) (by decide) (by decide)).2.2.2.1⟩

/-- C17 as stated fails when an index leaves the range of `int`: `long_rows`
has `block_size = 32`, `k = 2^30` a multiple of 64 and buffers of the lengths of
the data model; for `row = 0`, `col = 0`, `ch = 0` the scale index
`((col + 2) * k + ch) / 32 = 2^26` and the byte index `((col + 2) * k + ch) / 2 =
2^30` that the claim names are inside the scale table and the packed buffer,
but the kernel computes `(col + 2) * k + ch = 2^31` as an `int` (lines 34, 41),
above `INT_MAX`: it fetches no scales and forms no pointers, and the stride
stops there. -/
theorem long_row_stride_overflows :
    read_buffers_fit long_rows ∧ long_rows.block_size = 32
      ∧ long_rows.A.column = 64 * 16777216
      ∧ 0 < long_rows.C.row ∧ 0 + 3 < long_rows.C.column ∧ 0 < long_rows.A.column
      ∧ ((0 + 2) * long_rows.A.column + 0) / 32 < long_rows.scales.length
      ∧ ((0 + 2) * long_rows.A.column + 0) / 2 + 31 < long_rows.B.int4_data_ptr.length
      ∧ 2147483647 < (0 + 2) * long_rows.A.column + 0
      ∧ first_scales long_rows 0 0 0 = none
      ∧ pointers long_rows.A.column 0 0 0 = none
      ∧ ∀ fuel acc, ch_body true fuel long_rows 0 0 (0, acc) = .fault := by
  refine ⟨long_rows_fit, rfl, by decide, by decide, by decide, by decide, ?_, ?_,
    long_rows_overflow, first_scales_overflow long_rows 0 0 0 long_rows_overflow,
    pointers_overflow _ 0 0 0 long_rows_overflow,
    fun fuel acc => ch_body_overflow true fuel long_rows 0 0 _ long_rows_overflow⟩
  · simp only [long_rows, List.length_replicate]
    decide
  · simp only [long_rows, List.length_replicate]
    decide

/-- C17, amended: for `block_size = 32`, `k` a multiple of 64, sizes `m`,
`m * k`, `n * k`, `m * n` at most `INT_MAX`, every `row < m`, every
column group with `col + 3 < n` and every stride offset `ch = 64 * s < k`: the
activation scales fetched are `A_scales[(row * k + ch) / 32]` and
`A_scales[(row * k + ch + 32) / 32]`, the scales of the blocks that contain the
elements `(row, ch)` and `(row, ch + 32)`; the weight scales fetched for column
`col + j` are `scales[((col + j) * k + ch) / 32]` and
`scales[((col + j) * k + ch + 32) / 32]`; the weight bytes used for column
`col + j` are the 32 bytes from `(col + j) * k / 2 + ch / 2` on.  All these
indices are inside their buffers, the scale indices lie among the blocks of row
`row` (of weight row `col + j`), and the 32 bytes lie inside weight row
`col + j`: nothing fetched belongs to another row or column. -/
theorem stride_fetches_own_blocks (fuel : Nat) (p : matmul_params) (row col s t : Nat)
    (hfit : read_buffers_fit p) (hsz : int_sized p) (hk : p.A.column = 64 * t) (hf : 32 ≤ fuel)
    (hrow : row < p.C.row) (hcol : col + 3 < p.C.column) (hs : s < t) :
    first_scales p row col (64 * s) = some
        ⟨p.A_scales.getD ((row * p.A.column + 64 * s) / 32) 0,
          p.scales.getD ((col * p.A.column + 64 * s) / 32) 0,
          p.scales.getD (((col + 1) * p.A.column + 64 * s) / 32) 0,
          p.scales.getD (((col + 2) * p.A.column + 64 * s) / 32) 0,
          p.scales.getD (((col + 3) * p.A.column + 64 * s) / 32) 0⟩
      ∧ second_scales p row col (64 * s) = some
        ⟨p.A_scales.getD ((row * p.A.column + 64 * s + 32) / 32) 0,
          p.scales.getD ((col * p.A.column + 64 * s + 32) / 32) 0,
          p.scales.getD (((col + 1) * p.A.column + 64 * s + 32) / 32) 0,
          p.scales.getD (((col + 2) * p.A.column + 64 * s + 32) / 32) 0,
          p.scales.getD (((col + 3) * p.A.column + 64 * s + 32) / 32) 0⟩
      ∧ (∀ acc, ∃ fst snd, ch_body true fuel p row col (64 * s, acc)
          = .done (64 * s + 2 * 32,
              dequantize acc
                (sums_after 32 p.A.int8_data_ptr p.B.int4_data_ptr (row * p.A.column + 64 * s)
                  (col * p.A.column / 2 + 64 * s / 2) ((col + 1) * p.A.column / 2 + 64 * s / 2)
                  ((col + 2) * p.A.column / 2 + 64 * s / 2)
                  ((col + 3) * p.A.column / 2 + 64 * s / 2))
                fst snd)
          ∧ first_scales p row col (64 * s) = some fst
          ∧ second_scales p row col (64 * s) = some snd)
      ∧ ((row * p.A.column + 64 * s + 32) / 32 < p.A_scales.length
          ∧ row * (p.A.column / 32) ≤ (row * p.A.column + 64 * s) / 32
          ∧ (row * p.A.column + 64 * s + 32) / 32 < (row + 1) * (p.A.column / 32))
      ∧ (∀ j, j < 4 →
          ((col + j) * p.A.column + 64 * s + 32) / 32 < p.scales.length
            ∧ (col + j) * (p.A.column / 32) ≤ ((col + j) * p.A.column + 64 * s) / 32
            ∧ ((col + j) * p.A.column + 64 * s + 32) / 32 < (col + j + 1) * (p.A.column / 32)
            ∧ ((col + j) * p.A.column + 64 * s) / 2 = (col + j) * p.A.column / 2 + 64 * s / 2
            ∧ (col + j) * p.A.column / 2 + 64 * s / 2 + 31 < p.B.int4_data_ptr.length
            ∧ (col + j) * (p.A.column / 2) ≤ (col + j) * p.A.column / 2 + 64 * s / 2
            ∧ (col + j) * p.A.column / 2 + 64 * s / 2 + 31 < (col + j + 1) * (p.A.column / 2)) := by
  have hfst := first_scales_fetch p row col s t hfit hsz hk hrow hcol hs
  have hsnd := second_scales_fetch p row col s t hfit hsz hk hrow hcol hs
  have i0 := stride_indices p.A.column t s row hk hs
  have j0 := stride_indices p.A.column t s col hk hs
  have j1 := stride_indices p.A.column t s (col + 1) hk hs
  have j2 := stride_indices p.A.column t s (col + 2) hk hs
  have j3 := stride_indices p.A.column t s (col + 3) hk hs
  refine ⟨hfst, hsnd, ?_, ?_, ?_⟩
  · intro acc
    refine ⟨_, _, ?_, hfst, hsnd⟩
    rw [ch_body_fetch fuel p row col s t hfit hsz hk hf hrow hcol hs acc, j0.2.2.2.1, j1.2.2.2.1,
      j2.2.2.2.1, j3.2.2.2.1, i0.1, j0.1, j1.1, j2.1, j3.1]
  · exact ⟨(stride_in_bounds p row col s t hfit hk hrow (by omega) hs).1, i0.2.1, i0.2.2.1⟩
  · intro j hj
    have b := stride_in_bounds p row (col + j) s t hfit hk hrow (by omega) hs
    have i := stride_indices p.A.column t s (col + j) hk hs
    obtain ⟨i1, i2, i3, i4, i5, i6⟩ := i
    refine ⟨b.2.1, i2, i3, i4, ?_, ?_, ?_⟩
    · rw [← i4]; exact b.2.2.1
    · rw [← i4]; exact i5
    · rw [← i4]; exact i6

/-- Witness of C17 (amended): the first stride of the tile at row 1, column 4 of
a `2 × 64` by `8 × 64` input. -/
theorem stride_fetches_own_blocks_witness :
    (read_buffers_fit quantized_64 ∧ int_sized quantized_64
      ∧ quantized_64.A.column = 64 * 1 ∧ 32 ≤ 64
      ∧ 1 < quantized_64.C.row ∧ 4 + 3 < quantized_64.C.column ∧ 0 < 1)
    ∧ first_scales quantized_64 1 4 (64 * 0) = some
        ⟨quantized_64.A_scales.getD ((1 * quantized_64.A.column + 64 * 0) / 32) 0,
          quantized_64.scales.getD ((4 * quantized_64.A.column + 64 * 0) / 32) 0,
          quantized_64.scales.getD (((4 + 1) * quantized_64.A.column + 64 * 0) / 32) 0,
          quantized_64.scales.getD (((4 + 2) * quantized_64.A.column + 64 * 0) / 32) 0,
          quantized_64.scales.getD (((4 + 3) * quantized_64.A.column + 64 * 0) / 32) 0⟩ :=
  ⟨by decide!,
    (stride_fetches_own_blocks 64 quantized_64 1 4 0 1 (by decide!) (by decide) (by decide)
      (by decide) (by decide) (by decide) (by decide)).1⟩

/-- C13: the quantization pass that `mat_mul_loop_unrolling` runs over the
activation matrix (`quantize_fp32_to_int8` with size `A.rows * A.cols` and
`block_size`) stores zero for every element of every block whose elements are
all zero, with a scale of zero for that block, and without a division by zero:
with the division made partial the block is still quantized, to zeros, and no
block at all meets a zero divisor. -/
theorem zero_block_stored_as_zero (p p1 : matmul_params) (b : Nat)
    (hq : quantize_pass p = some p1)
    (hb : b < p.A.row * p.A.column / p.block_size)
    (hz : ∀ j, j < p.block_size → p.A.data_ptr[b * p.block_size + j]? = some 0) :
    p1.A_scales[b]? = some 0
      ∧ (∀ j, j < p.block_size → p1.A.int8_data_ptr[b * p.block_size + j]? = some 0)
      ∧ quantize_block_checked (block_at p.block_size p.A.data_ptr b)
          = some (List.replicate p.block_size 0)
      ∧ (∀ xs, quantize_block_checked xs = some (quantize_block xs)) := by
  obtain ⟨h1, h2, h3⟩ := zero_block_quantized_to_zero hq b hb hz
  exact ⟨h1, h2, h3, quantize_block_checked_eq⟩

/-- Witness of C13: the first block of `zero_block_input` is all zero. -/
theorem zero_block_stored_as_zero_witness :
    (quantize_pass zero_block_input = some zero_block_quantized
      ∧ 0 < zero_block_input.A.row * zero_block_input.A.column / zero_block_input.block_size
      ∧ ∀ j, j < zero_block_input.block_size →
          zero_block_input.A.data_ptr[0 * zero_block_input.block_size + j]? = some 0)
    ∧ zero_block_quantized.A_scales[0]? = some 0
    ∧ ∀ j, j < zero_block_input.block_size →
        zero_block_quantized.A.int8_data_ptr[0 * zero_block_input.block_size + j]? = some 0 :=
  ⟨⟨zero_block_input_quantized, by decide, by decide!⟩,
    (zero_block_stored_as_zero zero_block_input zero_block_quantized 0
      zero_block_input_quantized (by decide) (by decide!)).1,
    (zero_block_stored_as_zero zero_block_input zero_block_quantized 0
      zero_block_input_quantized (by decide) (by decide!)).2.1⟩

/-- C14: for every activation block `b` that the quantization pass handles and
every element `x` of it, with `scale = max(|element|) / 127` over the block (the
value left in the scale table: `127 * scale` bounds every `|element|` of the
block and is attained by one of them) and the stored quantized value
`q = round(x / scale)` clamped to `[-127, 127]`, quantize-then-dequantize
reproduces the element within `scale / 2`: `|x - q * scale| <= scale / 2`, over
exact arithmetic. -/
theorem quantize_dequantize_error (p p1 : matmul_params) (b j : Nat)
    (hq : quantize_pass p = some p1)
    (hb : b < p.A.row * p.A.column / p.block_size) (hj : j < p.block_size) :
    ∃ (x : ℚ) (q : ℤ) (scale : ℚ),
      p.A.data_ptr[b * p.block_size + j]? = some x
        ∧ p1.A.int8_data_ptr[b * p.block_size + j]? = some q
        ∧ p1.A_scales[b]? = some scale
        ∧ scale = (block_at p.block_size p.A.data_ptr b).foldl (fun a y => max a |y|) 0 / 127
        ∧ (∀ y ∈ block_at p.block_size p.A.data_ptr b, |y| ≤ 127 * scale)
        ∧ (∃ y ∈ block_at p.block_size p.A.data_ptr b, |y| = 127 * scale)
        ∧ q = clamp127 (round_half_away (x / scale))
        ∧ (-127 ≤ q ∧ q ≤ 127)
        ∧ |x - (q : ℚ) * scale| ≤ scale / 2 := by
  obtain ⟨hs, hv, hx, hlen⟩ := quantize_pass_entry hq b j hb hj
  have hjl : j < (block_at p.block_size p.A.data_ptr b).length := by rw [hlen]; exact hj
  have hxj := List.getElem?_eq_getElem hjl
  have hmem := List.getElem?_mem hxj
  refine ⟨_, _, _, by rw [← hx]; exact hxj,
    by rw [hv]; exact quantize_block_getElem? _ j _ hxj, hs, rfl,
    fun y hy => abs_le_block_scale _ y hy,
    block_scale_attained _ (List.ne_nil_of_length_pos (by omega)),
    quantize_value_eq_formula _ _, ?_,
    quantize_error _ _ hmem⟩
  rw [quantize_value_eq_formula]
  unfold clamp127
  omega

/-- Witness of C14: element 0 of the second block of `zero_block_input`. -/
theorem quantize_dequantize_error_witness :
    (quantize_pass zero_block_input = some zero_block_quantized
      ∧ 1 < zero_block_input.A.row * zero_block_input.A.column / zero_block_input.block_size
      ∧ 0 < zero_block_input.block_size)
    ∧ ∃ (x : ℚ) (q : ℤ) (scale : ℚ),
      zero_block_input.A.data_ptr[1 * zero_block_input.block_size + 0]? = some x
        ∧ zero_block_quantized.A.int8_data_ptr[1 * zero_block_input.block_size + 0]? = some q
        ∧ zero_block_quantized.A_scales[1]? = some scale
        ∧ scale = (block_at zero_block_input.block_size zero_block_input.A.data_ptr 1).foldl
            (fun a y => max a |y|) 0 / 127
        ∧ (∀ y ∈ block_at zero_block_input.block_size zero_block_input.A.data_ptr 1,
            |y| ≤ 127 * scale)
        ∧ (∃ y ∈ block_at zero_block_input.block_size zero_block_input.A.data_ptr 1,
            |y| = 127 * scale)
        ∧ q = clamp127 (round_half_away (x / scale))
        ∧ (-127 ≤ q ∧ q ≤ 127)
        ∧ |x - (q : ℚ) * scale| ≤ scale / 2 :=
  ⟨⟨zero_block_input_quantized, by decide, by decide⟩,
    quantize_dequantize_error zero_block_input zero_block_quantized 1 0
      zero_block_input_quantized (by decide) (by decide)⟩

/-- C11 as stated fails when `k` is one block: `two_rows_32` satisfies the
data-model invariants (`k = 32 = block_size`), and neither the run over both
rows nor the runs over its top row and over its bottom row reach their end, so
there is no `C` to compare.  The stride always takes two blocks: on
`cross_rows_32` the tile of row 0 reads the quantized activations and the scale
of row 1 as its second block, and its accumulators change (192 to 256) when only
row 1 changes.  With `k` a multiple of 64 it fails on `long_rows` (`k = 2^30`):
the index `(col + 2) * k + ch` of line 34 is `2^31` in the first stride, above
`INT_MAX`, and no run over all its rows reaches its end. -/
theorem one_block_rows_are_not_independent :
    data_model_invariants two_rows_32 ∧ two_rows_32.A.column % two_rows_32.block_size = 0
      ∧ mat_mul_loop_unrolling true 64 two_rows_32 = .fault
      ∧ mat_mul_loop_unrolling true 64 (top_rows two_rows_32 1) = .fault
      ∧ mat_mul_loop_unrolling true 64 (bottom_rows two_rows_32 1) = .fault
      ∧ (¬ ∃ fuel r, mat_mul_loop_unrolling true fuel two_rows_32 = .done r)
      ∧ accumulation_invariants cross_rows_32
      ∧ ch_loop true 64 cross_rows_32 0 0 = .done (64, ⟨192, 192, 192, 192⟩)
      ∧ ch_loop true 64 cross_rows_32_other_row 0 0 = .done (64, ⟨256, 256, 256, 256⟩)
      ∧ data_model_invariants long_rows ∧ long_rows.block_size = 32
      ∧ long_rows.A.column % 64 = 0
      ∧ 2147483647 < (0 + 2) * long_rows.A.column + 0
      ∧ ¬ ∃ fuel r, mat_mul_loop_unrolling true fuel long_rows = .done r := by
  refine ⟨by decide, by decide, by decide!, by decide!, by decide!, ?_, by decide!, by decide!,
    by decide!, long_rows_wf, rfl, by decide, long_rows_overflow, ?_⟩
  · rintro ⟨fuel, r, h⟩
    exact two_rows_32_not_done fuel r h
  · rintro ⟨fuel, r, h⟩
    exact long_rows_not_done fuel r h

/-- C11, amended: disjoint-row partitioning.  For every input that satisfies the
data-model invariants with `block_size = 32`, `k` a multiple of 64 and sizes
`m`, `m * k`, `n * k`, `m * n` at most `INT_MAX`, and every split of the rows of `A` into a top part of `m1` rows and the remaining bottom
part, the three runs (all rows, top part, bottom part; same `B`, weight scales
and `block_size`) reach their end, and the `C` of the run over all rows is the
`C` of the run over the top part followed by the `C` of the run over the bottom
part; the same holds for the quantized activations and the activation scales. -/
theorem row_partition (p : matmul_params) (fuel m1 : Nat)
    (hwf : data_model_invariants p) (hbs : p.block_size = 32) (h64 : p.A.column % 64 = 0)
    (hsz : int_sized p) (hm : m1 ≤ p.A.row) (hf : 32 ≤ fuel)
    (hfk : p.A.column ≤ fuel) (hfm : p.C.row ≤ fuel) (hfn : p.C.column ≤ fuel) :
    ∃ r r1 r2, mat_mul_loop_unrolling true fuel p = .done r
      ∧ mat_mul_loop_unrolling true fuel (top_rows p m1) = .done r1
      ∧ mat_mul_loop_unrolling true fuel (bottom_rows p m1) = .done r2
      ∧ r.params.C.data_ptr = r1.params.C.data_ptr ++ r2.params.C.data_ptr
      ∧ r.params.A.int8_data_ptr = r1.params.A.int8_data_ptr ++ r2.params.A.int8_data_ptr
      ∧ r.params.A_scales = r1.params.A_scales ++ r2.params.A_scales :=
  kernel_rows_split p fuel m1 hwf hbs h64 hsz hm hf hfk hfm hfn

/-- Witness of C11 (amended): a `2 × 64` input split into its two rows. -/
theorem row_partition_witness :
    (data_model_invariants two_rows_64 ∧ two_rows_64.block_size = 32
      ∧ two_rows_64.A.column % 64 = 0 ∧ int_sized two_rows_64
      ∧ 1 ≤ two_rows_64.A.row ∧ 32 ≤ 64
      ∧ two_rows_64.A.column ≤ 64 ∧ two_rows_64.C.row ≤ 64 ∧ two_rows_64.C.column ≤ 64)
    ∧ ∃ r r1 r2, mat_mul_loop_unrolling true 64 two_rows_64 = .done r
      ∧ mat_mul_loop_unrolling true 64 (top_rows two_rows_64 1) = .done r1
      ∧ mat_mul_loop_unrolling true 64 (bottom_rows two_rows_64 1) = .done r2
      ∧ r.params.C.data_ptr = r1.params.C.data_ptr ++ r2.params.C.data_ptr
      ∧ r.params.A.int8_data_ptr = r1.params.A.int8_data_ptr ++ r2.params.A.int8_data_ptr
      ∧ r.params.A_scales = r1.params.A_scales ++ r2.params.A_scales :=
  ⟨by decide!,
    row_partition two_rows_64 64 1 (by decide!) (by decide) (by decide) (by decide) (by decide)
      (by decide) (by decide) (by decide) (by decide)⟩

end matmul
